import Mathlib

/-!
# Arbitrary-precision decimal integers: `Integer.h`

A shallow embedding of the class `alg::prog::integer::Integer<T, C>` and a
verification of its arithmetic, comparison and construction operations.

* The digit container `C` is a `List Nat`, most-significant digit first, as in
  the source.  The digit type `T` is `Nat`: on digits in `0..9` every
  intermediate value of the source (`sum`, `prod`, `carry`, `9 - d`) lies in
  `0..99`, so no machine type wraps.
* Loops that walk the containers from `end() - 1` down to `begin()` are
  recursions over the reversed (least-significant first) digit lists.
* An exception is an `Except.error`; a loop whose termination the source does
  not make evident takes a `fuel` bound and returns `none` when it is used up.
-/

/-- The class `Integer<T, C>`: `data` are the decimal digits, most significant
first; `sign` is `true` for a negative number. -/
structure Integer where
  data : List Nat
  sign : Bool
deriving DecidableEq, Repr

namespace Integer

/-- The exceptions thrown by the source. -/
inductive Exn where
  | invalid_argument
  | out_of_range
deriving DecidableEq, Repr

/-! ## Constructors -/

/-- The loop `do { data.insert(data.begin(), d); i /= 10; } while (i);` of
`Integer(int)`, where `d` is `-(i % 10)` in the negative branch and `i % 10`
otherwise.  C++ `/` and `%` truncate toward zero.  The recursion is bounded by
`fuel`; `ofInt` supplies `|i| + 1`. -/
def ofIntLoop (neg : Bool) : Nat → Int → List Nat → List Nat
  | 0, _, data => data
  | fuel + 1, i, data =>
    let d : Int := if neg then -(Int.tmod i 10) else Int.tmod i 10
    let data := d.toNat :: data
    let i := Int.tdiv i 10
    if i != 0 then ofIntLoop neg fuel i data else data

/-- The constructor `Integer(int i)`. -/
def ofInt (i : Int) : Integer :=
  if i < 0 then
    { data := ofIntLoop true (i.natAbs + 1) i [], sign := true }
  else
    { data := ofIntLoop false (i.natAbs + 1) i [], sign := false }

/-- The constant `Integer::ZERO`. -/
def ZERO : Integer := ofInt 0

/-- The constant `Integer::ONE`. -/
def ONE : Integer := ofInt 1

/-- The private check `valid()`: the container is not empty. -/
def valid (x : Integer) : Bool :=
  decide (x.data.length > 0)

/-- The member `size()`. -/
def size (x : Integer) : Nat :=
  x.data.length

/-! ## Comparison -/

/-- The container's `operator<`, `std::lexicographical_compare`. -/
def lexLt : List Nat → List Nat → Bool
  | [], [] => false
  | [], _ :: _ => true
  | _ :: _, [] => false
  | a :: as, b :: bs =>
    if a < b then true else if b < a then false else lexLt as bs

/-- The friend `operator==`. -/
def eq (lhs rhs : Integer) : Bool :=
  if lhs.sign != rhs.sign then false
  else if lhs.data.length != rhs.data.length then false
  else lhs.data == rhs.data

/-- The friend `operator!=`. -/
def ne (lhs rhs : Integer) : Bool :=
  !(eq lhs rhs)

/-- The friend `operator<`. -/
def lt (lhs rhs : Integer) : Bool :=
  if lhs.sign && !rhs.sign then true
  else if !lhs.sign && rhs.sign then false
  else if lhs.sign then
    if lhs.data.length > rhs.data.length then true
    else if lhs.data.length < rhs.data.length then false
    else lexLt rhs.data lhs.data
  else
    if lhs.data.length < rhs.data.length then true
    else if lhs.data.length > rhs.data.length then false
    else lexLt lhs.data rhs.data

/-- The friend `operator<=`. -/
def le (lhs rhs : Integer) : Bool :=
  !(lt rhs lhs)

/-- The friend `operator>`. -/
def gt (lhs rhs : Integer) : Bool :=
  lt rhs lhs

/-- The friend `operator>=`. -/
def ge (lhs rhs : Integer) : Bool :=
  !(lt lhs rhs)

/-! ## Addition and subtraction -/

/-- The two `while` loops of the same-sign branch of `operator+=` (and of the
different-sign branch of `operator-=`), on least-significant-first digits:
`sum = (*top + *bottom) + carry` while `bottom` lasts, then `sum = *top + carry`.
Returns the rewritten digits of `top` and the final carry.  `top` is never
shorter than `bottom` (it was padded), so the first case is only reached with
`bottom` used up. -/
def addLoop : List Nat → List Nat → Nat → List Nat × Nat
  | [], _, carry => ([], carry)
  | t :: top, [], carry =>
    let sum := t + carry
    let r := addLoop top [] (sum / 10)
    (sum % 10 :: r.1, r.2)
  | t :: top, b :: bottom, carry =>
    let sum := (t + b) + carry
    let r := addLoop top bottom (sum / 10)
    (sum % 10 :: r.1, r.2)

/-- The two `while` loops of the complement branch, on least-significant-first
digits: `sum = (*top + (9 - *bottom)) + carry` while `bottom` lasts, then
`sum = *top + 9 + carry`. -/
def subLoop : List Nat → List Nat → Nat → List Nat × Nat
  | [], _, carry => ([], carry)
  | t :: top, [], carry =>
    let sum := t + 9 + carry
    let r := subLoop top [] (sum / 10)
    (sum % 10 :: r.1, r.2)
  | t :: top, b :: bottom, carry =>
    let sum := (t + (9 - b)) + carry
    let r := subLoop top bottom (sum / 10)
    (sum % 10 :: r.1, r.2)

/-- The re-complement loop `sum = 9 - *top + carry`, taken when the complement
pass ends without a carry. -/
def complLoop : List Nat → Nat → List Nat × Nat
  | [], carry => ([], carry)
  | t :: top, carry =>
    let sum := 9 - t + carry
    let r := complLoop top (sum / 10)
    (sum % 10 :: r.1, r.2)

/-- The loop `while (0 == *top && top < data.end() - 1) ++top;` followed by
`data.erase(data.begin(), top)`.  It leaves a sequence whose first digit is not
zero as it is, which is what the guards `if (0 == *top)` and `if (*top) return`
around it do. -/
def stripLeadingZeros : List Nat → List Nat
  | 0 :: d :: ds => stripLeadingZeros (d :: ds)
  | ds => ds

/-- The tail of the complement branch: `if (0 == *top) { strip the leading
zeros; if (data.size() == 1 && data[0] == 0) sign = false; }`. -/
def stripFix (data : List Nat) (sign : Bool) : Integer :=
  match data with
  | 0 :: _ =>
    let data := stripLeadingZeros data
    { data := data, sign := if data.length == 1 && data.head? == some 0 then false else sign }
  | _ => { data := data, sign := sign }

/-- The body shared by `operator+=` and `operator-=` after `bottomIsBigger` is
set: pad `this` at the front with `offset` zeros, then either add the digits
(`sameBranch`) or subtract them by ten's complement. -/
def addSubCore (sameBranch bottomIsBigger : Bool) (this that : Integer) : Integer :=
  let offset := that.data.length - this.data.length
  let data := List.replicate offset 0 ++ this.data
  if sameBranch then
    let r := addLoop data.reverse that.data.reverse 0
    let data := r.1.reverse
    { data := if r.2 != 0 then r.2 :: data else data, sign := this.sign }
  else
    let r := subLoop data.reverse that.data.reverse 1
    let digits := if r.2 == 0 then (complLoop r.1 1).1 else r.1
    let sign := if bottomIsBigger then !this.sign else this.sign
    stripFix digits.reverse sign

/-- The member `operator+=`.  `bottomIsBigger` is read only in the complement
branch, where the signs differ and it has been set. -/
def addAssign (this that : Integer) : Integer :=
  let bottomIsBigger : Bool :=
    if this.sign != that.sign then
      if that.sign then lt that { this with sign := true }
      else lt { this with sign := false } that
    else false
  addSubCore (this.sign == that.sign) bottomIsBigger this that

/-- The friend `operator+`. -/
def add (lhs rhs : Integer) : Integer :=
  addAssign lhs rhs

/-- The member `operator-=`. -/
def subAssign (this that : Integer) : Integer :=
  let bottomIsBigger : Bool :=
    if this.sign == that.sign then
      if that.sign then lt that this
      else lt this that
    else false
  addSubCore (this.sign != that.sign) bottomIsBigger this that

/-- The friend binary `operator-`. -/
def sub (lhs rhs : Integer) : Integer :=
  subAssign lhs rhs

/-! ## Multiplication -/

/-- The inner `for` loop of `operator*=` for one multiplier digit `y`, on
least-significant-first digits: `xs` are the digits of `this`, the second list
is the result buffer from the shifted position `z` on.
`prod = (*x) * (*y) + (*z) + carry; *z-- = prod % 10; carry = prod / 10;` and,
after the loop, `*z = carry`. -/
def mulRow (y : Nat) : List Nat → List Nat → Nat → List Nat
  | [], [], _ => []
  | [], _ :: zs, carry => carry :: zs
  | _ :: _, [], _ => []
  | x :: xs, z :: zs, carry =>
    let prod := x * y + z + carry
    (prod % 10) :: mulRow y xs zs (prod / 10)

/-- The outer `for` loop of `operator*=` over the digits `y` of `that`, least
significant first; `shift` is `thatEnd - y`, and a zero digit is skipped. -/
def mulLoop (xs : List Nat) : List Nat → Nat → List Nat → List Nat
  | [], _, rval => rval
  | y :: ys, shift, rval =>
    let rval := if y != 0 then rval.take shift ++ mulRow y xs (rval.drop shift) 0 else rval
    mulLoop xs ys (shift + 1) rval

/-- The member `operator*=`.  `rval` is `Integer(0)` resized to
`size() + that.size()` zeros; the tail (return when `*top` is not zero, else
strip the leading zeros and turn `-0` into `0`) is `stripFix`. -/
def mulAssign (this that : Integer) : Integer :=
  let rval := List.replicate (this.size + that.size) 0
  let sign := xor this.sign that.sign
  let rval := mulLoop this.data.reverse that.data.reverse 0 rval
  stripFix rval.reverse sign

/-- The friend `operator*`. -/
def mul (lhs rhs : Integer) : Integer :=
  mulAssign lhs rhs

/-! ## Division and modulo -/

/-- The quotient-digit search `unsigned t = 0; while (that * Integer(t + 1) <= s) ++t;`
of `operator/=`, started at `t`, with at most `fuel` evaluations of the loop
condition. -/
def searchT (that s : Integer) : Nat → Nat → Option Nat
  | 0, _ => none
  | fuel + 1, t =>
    if le (mul that (ofInt ((t + 1 : Nat) : Int))) s then searchT that s fuel (t + 1)
    else some t

/-- The inner loop `while (s < that && x < this->data.end()) { s.data.push_back(*x); ++x; ++z; }`
of `operator/=`: the list is what `x` has not read yet, the number is the
index `z`. -/
def feed (that : Integer) : Integer → List Nat → Nat → Integer × List Nat × Nat
  | s, [], z => (s, [], z)
  | s, d :: xs, z =>
    if lt s that then feed that { s with data := s.data ++ [d] } xs (z + 1)
    else (s, d :: xs, z)

/-- The `do { ... } while (z < rval.data.end());` loop of `operator/=`, with at
most `fuel` passes through the body and `tfuel` for each quotient-digit search.
`s` is the accumulator, `xs` what `x` has not read yet, `z` an index into the
quotient buffer `rval`. -/
def divLoop (that : Integer) (tfuel : Nat) :
    Nat → Integer → List Nat → Nat → List Nat → Option (List Nat)
  | 0, _, _, _, _ => none
  | fuel + 1, s, xs, z, rval =>
    let fed := feed that s xs z
    let s := fed.1
    let xs := fed.2.1
    let z := fed.2.2 - 1
    let s : Integer := { s with data := stripLeadingZeros s.data }
    match searchT that s tfuel 0 with
    | none => none
    | some t =>
      let rval := rval.set z t
      let z := z + 1
      let s := subAssign s (mul that (ofInt (t : Int)))
      if z < rval.length then divLoop that tfuel fuel s xs z rval else some rval

/-- The member `operator/=`.  `none` means that a loop did not finish within
`fuel` steps.  Both signs are cleared for the magnitude algorithm; the source
clears `that.sign` through a cast and writes `thatOldSign` back before it
returns.  `same` says that `that` is the object `*this` itself, as in `x /= x`:
the argument `that` is then not read, `*this` stands for it, and the write
`that.sign = thatOldSign` lands in `this->sign`, after the result sign was
stored there. -/
def divAssign (same : Bool) (fuel : Nat) (this that : Integer) :
    Option (Except Exn Integer) :=
  let that : Integer := if same then this else that
  if eq that ZERO then some (.error .invalid_argument)
  else
    let thatOldSign := that.sign
    let thisOldSign := this.sign
    let that : Integer := { that with sign := false }
    let this : Integer := { this with sign := false }
    if gt that this then
      some (.ok { data := [0], sign := if same then thatOldSign else false })
    else
      let rval := List.replicate this.size 0
      let s : Integer := { data := [], sign := false }
      match divLoop that fuel fuel s this.data 0 rval with
      | none => none
      | some rval =>
        some (.ok { data := stripLeadingZeros rval,
                    sign := if same then thatOldSign else xor thisOldSign thatOldSign })

/-- The friend `operator/`: `lhs` is passed by value, so `lhs /= rhs` runs on a
copy, which is never the object `rhs`. -/
def div (fuel : Nat) (lhs rhs : Integer) : Option (Except Exn Integer) :=
  divAssign false fuel lhs rhs

/-- The member `operator%=`: `*this -= (*this / that) * that` after the two
domain checks. -/
def modAssign (fuel : Nat) (this that : Integer) : Option (Except Exn Integer) :=
  if le that ZERO then some (.error .invalid_argument)
  else if lt this ZERO then some (.error .invalid_argument)
  else
    match div fuel this that with
    | none => none
    | some (.error e) => some (.error e)
    | some (.ok q) => some (.ok (subAssign this (mul q that)))

/-- The friend `operator%`. -/
def mod (fuel : Nat) (lhs rhs : Integer) : Option (Except Exn Integer) :=
  modAssign fuel lhs rhs

/-! ## Construction from decimal text

A `std::string` is the list of its characters. -/

/-- The private `isDigit`: `c -= 48; return c >= 0 && c <= 9;` (48 is the
character zero).  On a one-byte `char` the subtraction cannot wrap into `0..9`. -/
def isDigit (c : Char) : Bool :=
  let c : Int := (c.toNat : Int) - 48
  decide (c ≥ 0) && decide (c ≤ 9)

/-- The loop `for (; (48 == *i) && (i < s.end() - 1); ++i) {}` that scoots past
leading zero characters while another character follows. -/
def skipZeros : List Char → List Char
  | c :: d :: cs => if c = '0' then skipZeros (d :: cs) else c :: d :: cs
  | cs => cs

/-- The loop `for (; i < s.end(); ++i)` that pushes the digits; `none` when a
character fails `isDigit`. -/
def readDigits : List Char → List Nat → Option (List Nat)
  | [], data => some data
  | c :: cs, data =>
    if !isDigit c then none
    else readDigits cs (data ++ [c.toNat - 48])

/-- The members of the object when the string constructor is left, and whether
it is left by `throw std::invalid_argument`. -/
structure Built where
  data : List Nat
  sign : Bool
  thrown : Bool
deriving DecidableEq, Repr

/-- The string constructor from the leading-zero scan on; `sign` is what the
optional minus left. -/
def buildDigits (rest : List Char) (sign : Bool) : Built :=
  let rest := skipZeros rest
  let sign := if rest = ['0'] then false else sign
  match readDigits rest [] with
  | none => { data := [0], sign := sign, thrown := true }
  | some data =>
    if data.length = 0 then { data := data, sign := sign, thrown := true }
    else { data := data, sign := sign, thrown := false }

/-- The constructor `Integer(const std::string& s)`, as the final state of the
members.  On the empty string `*i` reads the terminator, which is neither a
minus nor a zero. -/
def build (s : List Char) : Built :=
  match s with
  | c :: rest =>
    if c = '-' then
      if rest = [] then { data := [], sign := false, thrown := true }
      else buildDigits rest true
    else buildDigits (c :: rest) false
  | [] => buildDigits [] false

/-- The constructor `Integer(const std::string& s)`: the object, or the
exception. -/
def ofString (s : List Char) : Except Exn Integer :=
  let r := build s
  if r.thrown then .error .invalid_argument else .ok { data := r.data, sign := r.sign }

/-! ## Negation, output, increment and decrement, swap -/

/-- The friend unary `operator-`: a copy of the digits with
`sign = !x.sign && (x != ZERO)`. -/
def neg (x : Integer) : Integer :=
  { data := x.data, sign := !x.sign && ne x ZERO }

/-- The friend `operator<<`, as the characters written: a minus when `sign` is
set, then `lhs << *i` for every digit from `begin()` on.  A digit is written as
a number, as the stream does for `int`. -/
def render (x : Integer) : List Char :=
  (if x.sign then ['-'] else []) ++ x.data.flatMap (fun d => (Nat.repr d).data)

/-- The prefix `operator++`: `*this += 1`. -/
def increment (x : Integer) : Integer :=
  addAssign x (ofInt 1)

/-- The prefix `operator--`: `*this -= 1`. -/
def decrement (x : Integer) : Integer :=
  subAssign x (ofInt 1)

/-- The member `swap`: the containers are exchanged and the signs go through
the three XOR assignments.  Returns the new `*this` and the new `that`. -/
def swap (this that : Integer) : Integer × Integer :=
  let thisSign := xor this.sign that.sign
  let thatSign := xor that.sign thisSign
  let thisSign := xor thisSign thatSign
  ({ data := that.data, sign := thisSign }, { data := this.data, sign := thatSign })

/-! ## Derived operations -/

/-- The free function `abs`. -/
def abs (x : Integer) : Integer :=
  if lt x ZERO then neg x else x

/-- The loop `for (Integer i = x; i > ONE; --i) r *= i;` of `fact`, with at most
`fuel` evaluations of the loop condition. -/
def factLoop : Nat → Integer → Integer → Option Integer
  | 0, _, _ => none
  | fuel + 1, r, i =>
    if gt i ONE then factLoop fuel (mulAssign r i) (decrement i) else some r

/-- The free function `fact`.  `none` means that the loop did not finish within
`fuel` steps. -/
def fact (fuel : Nat) (x : Integer) : Option (Except Exn Integer) :=
  if lt x ZERO then some (.error .invalid_argument)
  else if eq x ZERO then some (.ok ONE)
  else
    match factLoop fuel ONE x with
    | none => none
    | some r => some (.ok r)

/-- The loop `while (b != ZERO) { t = b; b = a % b; a.swap(t); }` of `gcd`, with
at most `fuel` evaluations of the loop condition and `dfuel` for each modulo.
An exception of `%` leaves the loop. -/
def gcdLoop (dfuel : Nat) : Nat → Integer → Integer → Option (Except Exn Integer)
  | 0, _, _ => none
  | fuel + 1, a, b =>
    if ne b ZERO then
      let t := b
      match mod dfuel a b with
      | none => none
      | some (.error e) => some (.error e)
      | some (.ok b) => gcdLoop dfuel fuel (swap a t).1 b
    else some (.ok a)

/-- The free function `gcd`. -/
def gcd (fuel : Nat) (x y : Integer) : Option (Except Exn Integer) :=
  if eq x ZERO && eq y ZERO then some (.error .invalid_argument)
  else if lt x ZERO || lt y ZERO then some (.error .invalid_argument)
  else
    let b := if eq y ZERO then x else y
    let a := if eq y ZERO then y else x
    gcdLoop fuel fuel a b

/-- The free function `pow`, with at most `fuel` nested calls.  `exp & 1` on a
two's-complement `int` is `exp % 2` with a non-negative remainder, and `exp / 2`
truncates toward zero. -/
def pow : Nat → Integer → Int → Option (Except Exn Integer)
  | 0, _, _ => none
  | fuel + 1, x, exp =>
    if exp < 0 then some (.error .invalid_argument)
    else if exp == 0 then some (.ok ONE)
    else if exp % 2 != 0 then
      match pow fuel x (Int.tdiv exp 2) with
      | none => none
      | some (.error e) => some (.error e)
      | some (.ok e) => some (.ok (mul (mul e e) x))
    else
      match pow fuel x (Int.tdiv exp 2) with
      | none => none
      | some (.error e) => some (.error e)
      | some (.ok e) => some (.ok (mul e e))

/-! ## Indexed digit access -/

/-- The position `data.size() - index - 1` of `operator[]` and `at`, computed in
the unsigned `size_type` of `w` bits: the difference is taken modulo `2 ^ w`. -/
def fromRight (w : Nat) (x : Integer) (index : Nat) : Nat :=
  (((x.data.length : Int) - (index : Int) - 1) % (2 ^ w : Int)).toNat

/-- The member `operator[]`, `data[data.size() - index - 1]`, unchecked: `none`
stands for an access outside the container, which the source leaves undefined. -/
def subscript (w : Nat) (x : Integer) (index : Nat) : Option Nat :=
  x.data[fromRight w x index]?

/-- The member `at`: `data.at(data.size() - index - 1)`, where the container
throws `std::out_of_range` for a position not below its size and the `catch`
throws `std::out_of_range` again. -/
def atIndex (w : Nat) (x : Integer) (index : Nat) : Except Exn Nat :=
  match x.data[fromRight w x index]? with
  | some d => .ok d
  | none => .error .out_of_range

/-! ## The parts of the loops that the claims name -/

/-- The flag `bottomIsBigger` of `operator+=`, set when the signs differ. -/
def addBottomIsBigger (this that : Integer) : Bool :=
  if this.sign != that.sign then
    if that.sign then lt that { this with sign := true }
    else lt { this with sign := false } that
  else false

/-- The flag `bottomIsBigger` of `operator-=`, set when the signs agree. -/
def subBottomIsBigger (this that : Integer) : Bool :=
  if this.sign == that.sign then
    if that.sign then lt that this
    else lt this that
  else false

/-- The left operand of the digit loops: `this->data` after
`insert(begin(), offset, 0)`, least significant digit first. -/
def paddedTop (this that : Integer) : List Nat :=
  (List.replicate (that.data.length - this.data.length) 0 ++ this.data).reverse

/-- The variables of the `do` loop of `operator/=` at the top of its body. -/
structure DivState where
  s : Integer
  xs : List Nat
  z : Nat
  rval : List Nat

/-- The accumulator `s` when the quotient-digit search starts: the inner loop
has appended its digits and the leading zeros are stripped. -/
def searchStart (that : Integer) (st : DivState) : Integer :=
  let fed := feed that st.s st.xs st.z
  { fed.1 with data := stripLeadingZeros fed.1.data }

/-- The variables after one pass through the body of the `do` loop in which
the search found `t`: `*z++ = t; s -= that * t;`. -/
def divStep (that : Integer) (st : DivState) (t : Nat) : DivState :=
  let fed := feed that st.s st.xs st.z
  let z := fed.2.2 - 1
  { s := subAssign (searchStart that st) (mul that (ofInt (t : Int))),
    xs := fed.2.1,
    z := z + 1,
    rval := st.rval.set z t }

/-- The states in which the `do` loop of `this / that` enters its body: the
initial one, and the one after a pass whose search returned and whose
condition `z < rval.data.end()` held. -/
inductive DivReach (that this : Integer) (tfuel : Nat) : DivState → Prop
  | start : DivReach that this tfuel
      { s := { data := [], sign := false }, xs := this.data, z := 0,
        rval := List.replicate this.size 0 }
  | next (st : DivState) (t : Nat) : DivReach that this tfuel st →
      searchT that (searchStart that st) tfuel 0 = some t →
      (divStep that st t).z < (divStep that st t).rval.length →
      DivReach that this tfuel (divStep that st t)

/-! ## Specification vocabulary -/

/-- The number read from decimal digits, most significant first. -/
def mag (ds : List Nat) : Nat :=
  ds.foldl (fun acc d => 10 * acc + d) 0

/-- The integer an `Integer` denotes: the magnitude of its digits, negated
when `sign` is set. -/
def value (x : Integer) : Int :=
  if x.sign then -(mag x.data : Int) else (mag x.data : Int)

/-- Text of the accepted shape: an optional minus followed by one or more
decimal digit characters. -/
def IsNumeral (s : List Char) : Prop :=
  ∃ ds : List Char, ds ≠ [] ∧ (∀ c ∈ ds, c.isDigit = true) ∧ (s = ds ∨ s = '-' :: ds)

/-- The natural number a run of decimal digit characters denotes. -/
def digitsValue (ds : List Char) : Nat :=
  ds.foldl (fun acc c => 10 * acc + (c.toNat - 48)) 0

/-- The integer a numeral denotes. -/
def textValue (s : List Char) : Int :=
  match s with
  | c :: rest => if c = '-' then -(digitsValue rest : Int) else (digitsValue (c :: rest) : Int)
  | [] => 0

/-- A digit sequence in normal form: not empty, every digit in `0..9`, and no
leading zero unless it is the single digit `0`. -/
def Canon (ds : List Nat) : Prop :=
  ds ≠ [] ∧ (∀ d ∈ ds, d ≤ 9) ∧ (ds.head? = some 0 → ds = [0])

/-- The representation invariant of `Integer`: the digits are in normal form
and zero is not negative. -/
def WellFormed (x : Integer) : Prop :=
  Canon x.data ∧ (x.data = [0] → x.sign = false)

instance instDecidableCanon (ds : List Nat) : Decidable (Canon ds) := by
  unfold Canon
  infer_instance

instance instDecidableWellFormed (x : Integer) : Decidable (WellFormed x) := by
  unfold WellFormed
  infer_instance

/-- The outer loop of `operator*=` without the test `if (*y)`: every multiplier
digit, zero or not, gets its row.  Used to state that the skip is harmless. -/
def mulLoopDense (xs : List Nat) : List Nat → Nat → List Nat → List Nat
  | [], _, rval => rval
  | y :: ys, shift, rval =>
    mulLoopDense xs ys (shift + 1) (rval.take shift ++ mulRow y xs (rval.drop shift) 0)

/-- The state of the result buffer before the row of shift `shift`: digits in
range and nothing yet written from position `shift + n` on. -/
def MulInv (n shift : Nat) (rval : List Nat) : Prop :=
  (∀ d ∈ rval, d ≤ 9) ∧ (∀ d ∈ rval.drop (shift + n), d = 0) ∧ shift + n < rval.length

/-- What holds of the variables each time the `do` loop enters its body. -/
def DivHead (that : Integer) (st : DivState) : Prop :=
  st.s.sign = false ∧ (st.s.data = [] ∨ Canon st.s.data) ∧ mag st.s.data < mag that.data ∧
    (∀ d ∈ st.xs, d ≤ 9) ∧ (st.s.data = [] → st.xs ≠ [])

/-! ## Digits and magnitudes -/

theorem mag_nil : mag [] = 0 := rfl

theorem mag_append_singleton (ds : List Nat) (d : Nat) :
    mag (ds ++ [d]) = 10 * mag ds + d := by
  simp [mag, List.foldl_append]

theorem mag_eq_ofDigits (ds : List Nat) : mag ds = Nat.ofDigits 10 ds.reverse := by
  induction ds using List.reverseRecOn with
  | nil => simp [mag]
  | append_singleton ds d ih =>
    rw [mag_append_singleton, ih, List.reverse_append, List.reverse_singleton,
      List.singleton_append, Nat.ofDigits_cons]
    omega

theorem mag_reverse (l : List Nat) : mag l.reverse = Nat.ofDigits 10 l := by
  rw [mag_eq_ofDigits, List.reverse_reverse]

theorem mag_append (as bs : List Nat) :
    mag (as ++ bs) = mag as * 10 ^ bs.length + mag bs := by
  rw [mag_eq_ofDigits, mag_eq_ofDigits, mag_eq_ofDigits, List.reverse_append,
    Nat.ofDigits_append, List.length_reverse]
  ring

theorem mag_cons (d : Nat) (ds : List Nat) :
    mag (d :: ds) = d * 10 ^ ds.length + mag ds := by
  have h := mag_append [d] ds
  simpa [mag] using h

theorem mag_lt_pow (ds : List Nat) (h : ∀ d ∈ ds, d ≤ 9) : mag ds < 10 ^ ds.length := by
  rw [mag_eq_ofDigits]
  have := Nat.ofDigits_lt_base_pow_length (b := 10) (l := ds.reverse) (by norm_num)
    (by intro x hx; have := h x (List.mem_reverse.mp hx); omega)
  simpa using this

theorem mag_replicate_zero (n : Nat) : mag (List.replicate n 0) = 0 := by
  induction n with
  | zero => rfl
  | succ n ih => rw [List.replicate_succ, mag_cons, ih]; simp

theorem mag_pad (n : Nat) (ds : List Nat) : mag (List.replicate n 0 ++ ds) = mag ds := by
  rw [mag_append, mag_replicate_zero]; simp

/-- A normal-form sequence of `n + 1` digits with `n > 0` is at least `10 ^ n`. -/
theorem pow_le_mag_of_canon (ds : List Nat) (h : Canon ds) (h2 : 2 ≤ ds.length) :
    10 ^ (ds.length - 1) ≤ mag ds := by
  obtain ⟨_, _, hz⟩ := h
  match ds, hz, h2 with
  | d :: e :: es, hz, _ =>
    rw [mag_cons]
    have hd : d ≠ 0 := by
      intro h0
      subst h0
      have := hz rfl
      simp at this
    have : 1 * 10 ^ (e :: es).length ≤ d * 10 ^ (e :: es).length :=
      Nat.mul_le_mul_right _ (by omega)
    simp only [List.length_cons, Nat.add_sub_cancel] at this ⊢
    omega

theorem mag_eq_zero_of_canon (ds : List Nat) (h : Canon ds) (h0 : mag ds = 0) : ds = [0] := by
  by_cases h2 : 2 ≤ ds.length
  · have := pow_le_mag_of_canon ds h h2
    have : 0 < 10 ^ (ds.length - 1) := by positivity
    omega
  · obtain ⟨hne, _, _⟩ := h
    match ds, hne, h2, h0 with
    | [d], _, _, h0 =>
      simp [mag] at h0
      simp [h0]
    | _ :: _ :: _, _, h2, _ => simp at h2

theorem lexLt_iff (as bs : List Nat) (hl : as.length = bs.length)
    (ha : ∀ d ∈ as, d ≤ 9) (hb : ∀ d ∈ bs, d ≤ 9) :
    lexLt as bs = true ↔ mag as < mag bs := by
  induction as generalizing bs with
  | nil =>
    cases bs with
    | nil => simp [lexLt]
    | cons b bs => simp at hl
  | cons a as ih =>
    cases bs with
    | nil => simp at hl
    | cons b bs =>
      have hl2 : as.length = bs.length := by simpa using hl
      have ha2 : ∀ d ∈ as, d ≤ 9 := fun d hd => ha d (List.mem_cons_of_mem _ hd)
      have hb2 : ∀ d ∈ bs, d ≤ 9 := fun d hd => hb d (List.mem_cons_of_mem _ hd)
      have h1 := mag_lt_pow as ha2
      have h2 := mag_lt_pow bs hb2
      have ih2 := ih bs hl2 ha2 hb2
      rw [mag_cons, mag_cons, lexLt, hl2]
      rw [hl2] at h1
      generalize 10 ^ bs.length = p at h1 h2 ⊢
      by_cases hab : a < b
      · simp only [hab, if_true, true_iff]
        have : (a + 1) * p ≤ b * p := Nat.mul_le_mul_right _ hab
        nlinarith
      · by_cases hba : b < a
        · simp only [hab, hba, if_false, if_true]
          have : (b + 1) * p ≤ a * p := Nat.mul_le_mul_right _ hba
          constructor
          · intro h; cases h
          · intro h; nlinarith
        · have : a = b := by omega
          subst this
          simp only [lt_irrefl, if_false, ih2]
          omega

theorem mag_inj_of_length (as bs : List Nat) (hl : as.length = bs.length)
    (ha : ∀ d ∈ as, d ≤ 9) (hb : ∀ d ∈ bs, d ≤ 9) (h : mag as = mag bs) : as = bs := by
  induction as generalizing bs with
  | nil =>
    cases bs with
    | nil => rfl
    | cons b bs => simp at hl
  | cons a as ih =>
    cases bs with
    | nil => simp at hl
    | cons b bs =>
      have hl2 : as.length = bs.length := by simpa using hl
      have ha2 : ∀ d ∈ as, d ≤ 9 := fun d hd => ha d (List.mem_cons_of_mem _ hd)
      have hb2 : ∀ d ∈ bs, d ≤ 9 := fun d hd => hb d (List.mem_cons_of_mem _ hd)
      have h1 := mag_lt_pow as ha2
      have h2 := mag_lt_pow bs hb2
      rw [mag_cons, mag_cons, hl2] at h
      rw [hl2] at h1
      generalize 10 ^ bs.length = p at h1 h2 h
      have hab : a = b := by
        rcases Nat.lt_trichotomy a b with hlt | heq | hgt
        · have : (a + 1) * p ≤ b * p := Nat.mul_le_mul_right _ hlt
          nlinarith
        · exact heq
        · have : (b + 1) * p ≤ a * p := Nat.mul_le_mul_right _ hgt
          nlinarith
      subst hab
      rw [ih bs hl2 ha2 hb2 (by omega)]

/-- A shorter digit sequence is smaller than a longer one in normal form. -/
theorem mag_lt_of_length_lt (as bs : List Nat) (ha : ∀ d ∈ as, d ≤ 9) (hb : Canon bs)
    (hne : as ≠ []) (hl : as.length < bs.length) : mag as < mag bs := by
  have h1 := mag_lt_pow as ha
  have h2 := pow_le_mag_of_canon bs hb (by
    have : 0 < as.length := List.length_pos.mpr hne
    omega)
  have h3 : 10 ^ as.length ≤ 10 ^ (bs.length - 1) :=
    Nat.pow_le_pow_right (by norm_num) (by omega)
  omega

/-- Normal forms are unique: two normal-form sequences with the same magnitude
are equal. -/
theorem canon_unique (as bs : List Nat) (ha : Canon as) (hb : Canon bs)
    (h : mag as = mag bs) : as = bs := by
  rcases Nat.lt_trichotomy as.length bs.length with hlt | heq | hgt
  · have := mag_lt_of_length_lt as bs ha.2.1 hb ha.1 hlt
    omega
  · exact mag_inj_of_length as bs heq ha.2.1 hb.2.1 h
  · have := mag_lt_of_length_lt bs as hb.2.1 ha hb.1 hgt
    omega

/-! ## Comparison is comparison of values -/

theorem canon_zero : Canon [0] := by decide

theorem mag_pos_of_canon (ds : List Nat) (h : Canon ds) (hne : ds ≠ [0]) : 0 < mag ds := by
  rcases Nat.eq_zero_or_pos (mag ds) with h0 | h0
  · exact absurd (mag_eq_zero_of_canon ds h h0) hne
  · exact h0

theorem mag_pos_of_sign (x : Integer) (h : WellFormed x) (hs : x.sign = true) :
    0 < mag x.data := by
  apply mag_pos_of_canon x.data h.1
  intro h0
  have := h.2 h0
  rw [hs] at this
  cases this

theorem value_of_sign_false (x : Integer) (hs : x.sign = false) :
    value x = (mag x.data : Int) := by
  simp [value, hs]

theorem value_of_sign_true (x : Integer) (hs : x.sign = true) :
    value x = -(mag x.data : Int) := by
  simp [value, hs]

/-- The size-then-lexicographic test of `operator<` on two normal-form
magnitudes. -/
theorem sizeLex_iff (as bs : List Nat) (ha : Canon as) (hb : Canon bs) :
    (if as.length < bs.length then true
      else if as.length > bs.length then false else lexLt as bs) = true ↔
      mag as < mag bs := by
  by_cases h1 : as.length < bs.length
  · simp only [h1, if_true, true_iff]
    exact mag_lt_of_length_lt as bs ha.2.1 hb ha.1 h1
  · by_cases h2 : as.length > bs.length
    · simp only [h1, h2, if_false, if_true]
      have := mag_lt_of_length_lt bs as hb.2.1 ha hb.1 h2
      constructor
      · intro h; cases h
      · intro h; omega
    · simp only [h1, h2, if_false]
      exact lexLt_iff as bs (by omega) ha.2.1 hb.2.1

theorem lt_iff_value (a b : Integer) (ha : WellFormed a) (hb : WellFormed b) :
    lt a b = true ↔ value a < value b := by
  cases hsa : a.sign <;> cases hsb : b.sign
  · rw [value_of_sign_false a hsa, value_of_sign_false b hsb]
    have := sizeLex_iff a.data b.data ha.1 hb.1
    simp only [lt, hsa, hsb, Bool.false_and, Bool.not_false, Bool.and_false, Bool.false_eq_true,
      if_false, Nat.cast_lt]
    exact this
  · rw [value_of_sign_false a hsa, value_of_sign_true b hsb]
    have := mag_pos_of_sign b hb hsb
    simp only [lt, hsa, hsb, Bool.false_and, Bool.not_false, Bool.and_true, Bool.false_eq_true,
      if_false, Bool.not_true, if_true]
    constructor
    · intro h; cases h
    · intro h; omega
  · rw [value_of_sign_true a hsa, value_of_sign_false b hsb]
    have := mag_pos_of_sign a ha hsa
    simp only [lt, hsa, hsb, Bool.not_false, Bool.and_true, if_true, true_iff]
    omega
  · rw [value_of_sign_true a hsa, value_of_sign_true b hsb]
    have := sizeLex_iff b.data a.data hb.1 ha.1
    simp only [lt, hsa, hsb, Bool.not_true, Bool.and_false, Bool.false_eq_true,
      if_false, if_true, neg_lt_neg_iff, Nat.cast_lt]
    exact this

theorem eq_iff_eq (a b : Integer) : eq a b = true ↔ a = b := by
  cases a with
  | mk ad as =>
    cases b with
    | mk bd bs =>
      simp only [eq, mk.injEq]
      by_cases hs : as = bs
      · by_cases hd : ad = bd
        · simp [hs, hd]
        · by_cases hl : ad.length = bd.length
          · simp [hs, hd, hl]
          · simp [hs, hd, hl]
      · simp [hs]

theorem value_inj (a b : Integer) (ha : WellFormed a) (hb : WellFormed b)
    (h : value a = value b) : a = b := by
  have key : a.data = b.data ∧ a.sign = b.sign := by
    cases hsa : a.sign <;> cases hsb : b.sign
    · rw [value_of_sign_false a hsa, value_of_sign_false b hsb] at h
      exact ⟨canon_unique _ _ ha.1 hb.1 (by exact_mod_cast h), rfl⟩
    · rw [value_of_sign_false a hsa, value_of_sign_true b hsb] at h
      have := mag_pos_of_sign b hb hsb
      omega
    · rw [value_of_sign_true a hsa, value_of_sign_false b hsb] at h
      have := mag_pos_of_sign a ha hsa
      omega
    · rw [value_of_sign_true a hsa, value_of_sign_true b hsb] at h
      exact ⟨canon_unique _ _ ha.1 hb.1 (by omega), rfl⟩
  cases a
  cases b
  simp only [mk.injEq]
  exact key

theorem eq_iff_value (a b : Integer) (ha : WellFormed a) (hb : WellFormed b) :
    eq a b = true ↔ value a = value b := by
  rw [eq_iff_eq]
  constructor
  · intro h; rw [h]
  · exact value_inj a b ha hb

/-! ## Construction from decimal text: correctness -/

theorem isDigit_eq (c : Char) : isDigit c = c.isDigit := by
  simp only [isDigit, Char.isDigit, Char.toNat]
  rw [Bool.eq_iff_iff]
  simp only [Bool.and_eq_true, decide_eq_true_eq, ge_iff_le, UInt32.le_def, Fin.le_def]
  show _ ↔ 48 ≤ c.val.toNat ∧ c.val.toNat ≤ 57
  omega

theorem minus_not_digit : Char.isDigit '-' = false := by decide
theorem zero_digit : Char.isDigit '0' = true := by decide
theorem digit_zero_of (c : Char) (h : c.isDigit = true) (h0 : c.toNat - 48 = 0) : c = '0' := by
  have : c.toNat = 48 := by
    simp only [Char.isDigit, Bool.and_eq_true, decide_eq_true_eq, ge_iff_le, UInt32.le_def, Fin.le_def] at h
    have h' : 48 ≤ c.val.toNat ∧ c.val.toNat ≤ 57 := h
    simp only [Char.toNat] at h0 ⊢
    omega
  apply Char.ext
  apply UInt32.ext
  exact this

/-- The digit a character stands for, `*i - 48`. -/
theorem readDigits_all (cs : List Char) (data : List Nat) (h : ∀ c ∈ cs, c.isDigit = true) :
    readDigits cs data = some (data ++ cs.map (fun c => c.toNat - 48)) := by
  induction cs generalizing data with
  | nil => simp [readDigits]
  | cons c cs ih =>
    have hc : isDigit c = true := by rw [isDigit_eq]; exact h c (List.mem_cons_self _ _)
    rw [readDigits]
    simp only [hc, Bool.not_true, Bool.false_eq_true, if_false]
    rw [ih _ (fun d hd => h d (List.mem_cons_of_mem _ hd))]
    simp

theorem readDigits_some (cs : List Char) (data r : List Nat) (h : readDigits cs data = some r) :
    ∀ c ∈ cs, c.isDigit = true := by
  induction cs generalizing data with
  | nil => simp
  | cons c cs ih =>
    rw [readDigits] at h
    by_cases hc : isDigit c = true
    · simp only [hc, Bool.not_true, Bool.false_eq_true, if_false] at h
      intro d hd
      rcases List.mem_cons.mp hd with rfl | hd
      · rw [← isDigit_eq]; exact hc
      · exact ih _ h d hd
    · simp [hc] at h

theorem skipZeros_spec (cs : List Char) :
    ∃ k : Nat, cs = List.replicate k '0' ++ skipZeros cs ∧ (cs ≠ [] → skipZeros cs ≠ []) ∧
      (∀ c d rest, skipZeros cs = c :: d :: rest → c ≠ '0') := by
  induction cs with
  | nil => exact ⟨0, by simp [skipZeros], by simp, by simp [skipZeros]⟩
  | cons c cs ih =>
    cases cs with
    | nil => exact ⟨0, by simp [skipZeros], by simp [skipZeros], by simp [skipZeros]⟩
    | cons d cs =>
      by_cases hc : c = '0'
      · obtain ⟨k, h1, h2, h3⟩ := ih
        refine ⟨k + 1, ?_, ?_, ?_⟩
        · rw [skipZeros, if_pos hc, List.replicate_succ, List.cons_append, ← h1, hc]
        · intro _
          rw [skipZeros, if_pos hc]
          exact h2 (by simp)
        · rw [skipZeros, if_pos hc]
          exact h3
      · refine ⟨0, by simp [skipZeros, hc], by simp [skipZeros, hc], ?_⟩
        intro c' d' rest h
        rw [skipZeros, if_neg hc] at h
        simp only [List.cons.injEq] at h
        rw [← h.1]
        exact hc

theorem digitsValue_eq_mag (ds : List Char) :
    digitsValue ds = mag (ds.map (fun c => c.toNat - 48)) := by
  simp [digitsValue, mag, List.foldl_map]

theorem digitsValue_zeros (k : Nat) (ds : List Char) :
    digitsValue (List.replicate k '0' ++ ds) = digitsValue ds := by
  rw [digitsValue_eq_mag, digitsValue_eq_mag, List.map_append, List.map_replicate]
  exact mag_pad k _

theorem digit_le_nine (c : Char) (h : c.isDigit = true) : c.toNat - 48 ≤ 9 := by
  simp only [Char.isDigit, Bool.and_eq_true, decide_eq_true_eq, ge_iff_le, UInt32.le_def,
    Fin.le_def] at h
  have h2 : 48 ≤ c.val.toNat ∧ c.val.toNat ≤ 57 := h
  simp only [Char.toNat]
  omega

theorem buildDigits_ok (rest : List Char) (sign : Bool) (hne : rest ≠ [])
    (hd : ∀ c ∈ rest, c.isDigit = true) :
    ∃ data sign2, buildDigits rest sign = { data := data, sign := sign2, thrown := false } ∧
      Canon data ∧ mag data = digitsValue rest ∧ (data = [0] → sign2 = false) ∧
      (data ≠ [0] → sign2 = sign) := by
  obtain ⟨k, h1, h2, h3⟩ := skipZeros_spec rest
  have hr : ∀ c ∈ skipZeros rest, c.isDigit = true := by
    intro c hc
    apply hd
    rw [h1]
    exact List.mem_append_right _ hc
  have hread := readDigits_all (skipZeros rest) [] hr
  have hne2 := h2 hne
  have hval : mag (List.map (fun c => c.toNat - 48) (skipZeros rest)) = digitsValue rest := by
    rw [← digitsValue_eq_mag]
    conv_rhs => rw [h1]
    rw [digitsValue_zeros]
  have hcanon : Canon (List.map (fun c => c.toNat - 48) (skipZeros rest)) := by
    refine ⟨by simpa using hne2, ?_, ?_⟩
    · intro d hd2
      obtain ⟨c, hc, rfl⟩ := List.mem_map.mp hd2
      exact digit_le_nine c (hr c hc)
    · intro hhead
      match hs : skipZeros rest, hne2 with
      | [c], _ =>
        rw [hs] at hhead
        simp only [List.map_cons, List.map_nil, List.head?_cons, Option.some.injEq] at hhead
        simp [hhead]
      | c :: d :: tl, _ =>
        rw [hs] at hhead
        simp only [List.map_cons, List.head?_cons, Option.some.injEq] at hhead
        have hc0 := digit_zero_of c (hr c (by rw [hs]; exact List.mem_cons_self _ _)) hhead
        exact absurd hc0 (h3 c d tl hs)
  have hzero : List.map (fun c => c.toNat - 48) (skipZeros rest) = [0] ↔ skipZeros rest = ['0'] := by
    constructor
    · intro h
      match hs : skipZeros rest with
      | [] => rw [hs] at h; simp at h
      | [c] =>
        rw [hs] at h
        simp only [List.map_cons, List.map_nil, List.cons.injEq, and_true] at h
        rw [digit_zero_of c (hr c (by rw [hs]; exact List.mem_cons_self _ _)) h]
      | c :: d :: tl => rw [hs] at h; simp at h
    · intro h
      rw [h]
      rfl
  refine ⟨_, if skipZeros rest = ['0'] then false else sign, ?_, hcanon, hval, ?_, ?_⟩
  · simp only [buildDigits, hread, List.nil_append, List.length_map]
    have : (skipZeros rest).length ≠ 0 := by
      intro h0
      exact hne2 (List.length_eq_zero.mp h0)
    simp [this]
  · intro h0
    simp [hzero.mp h0]
  · intro h0
    have : skipZeros rest ≠ ['0'] := fun h => h0 (hzero.mpr h)
    simp [this]

theorem buildDigits_thrown (rest : List Char) (sign : Bool)
    (h : (buildDigits rest sign).thrown = false) :
    rest ≠ [] ∧ ∀ c ∈ rest, c.isDigit = true := by
  obtain ⟨k, h1, h2, h3⟩ := skipZeros_spec rest
  simp only [buildDigits] at h
  match hrd : readDigits (skipZeros rest) [] with
  | none => rw [hrd] at h; simp at h
  | some data =>
    rw [hrd] at h
    have hall := readDigits_some _ _ _ hrd
    have hdata := readDigits_all _ [] hall
    rw [hrd] at hdata
    simp only [Option.some.injEq, List.nil_append] at hdata
    constructor
    · intro hnil
      rw [hnil] at hrd
      simp only [skipZeros, readDigits, Option.some.injEq] at hrd
      rw [← hrd] at h
      simp at h
    · intro c hc
      rw [h1] at hc
      rcases List.mem_append.mp hc with hc | hc
      · rw [(List.mem_replicate.mp hc).2]
        rfl
      · exact hall c hc

theorem build_not_thrown_iff (s : List Char) : (build s).thrown = false ↔ IsNumeral s := by
  constructor
  · intro h
    cases s with
    | nil =>
      have := buildDigits_thrown [] false h
      exact absurd rfl this.1
    | cons c rest =>
      by_cases hc : c = '-'
      · by_cases hr : rest = []
        · simp [build, hc, hr] at h
        · simp only [build, hc, hr, if_true, if_false] at h
          have := buildDigits_thrown rest true h
          exact ⟨rest, this.1, this.2, Or.inr (by rw [hc])⟩
      · simp only [build, hc, if_false] at h
        have := buildDigits_thrown (c :: rest) false h
        exact ⟨c :: rest, this.1, this.2, Or.inl rfl⟩
  · rintro ⟨ds, hne, hd, rfl | rfl⟩
    · cases s with
      | nil => exact absurd rfl hne
      | cons c rest =>
        have hc : c ≠ '-' := by
          intro h
          have := hd c (List.mem_cons_self _ _)
          rw [h] at this
          exact absurd this (by decide)
        obtain ⟨data, sign2, h1, _⟩ := buildDigits_ok (c :: rest) false hne hd
        simp only [build, hc, if_false, h1]
    · obtain ⟨data, sign2, h1, _⟩ := buildDigits_ok ds true hne hd
      simp only [build, if_true, hne, if_false, h1]

theorem ofString_error_iff (s : List Char) :
    ofString s = .error .invalid_argument ↔ ¬ IsNumeral s := by
  rw [← build_not_thrown_iff]
  simp only [ofString]
  cases (build s).thrown <;> simp

theorem wellFormed_ZERO : WellFormed ZERO := by decide

theorem value_ZERO : value ZERO = 0 := by decide

theorem ofString_value (s : List Char) (h : IsNumeral s) :
    ∃ x, ofString s = .ok x ∧ WellFormed x ∧ value x = textValue s := by
  obtain ⟨ds, hne, hd, rfl | rfl⟩ := h
  · cases s with
    | nil => exact absurd rfl hne
    | cons c rest =>
      have hc : c ≠ '-' := by
        intro h
        have := hd c (List.mem_cons_self _ _)
        rw [h] at this
        exact absurd this (by decide)
      obtain ⟨data, sign2, h1, h2, h3, h4, h5⟩ := buildDigits_ok (c :: rest) false hne hd
      have hs : sign2 = false := by
        by_cases h0 : data = [0]
        · exact h4 h0
        · exact h5 h0
      subst hs
      refine ⟨{ data := data, sign := false }, ?_, ⟨h2, fun _ => rfl⟩, ?_⟩
      · simp only [ofString, build, hc, if_false, h1]
        rfl
      · simp only [value, textValue, hc, if_false, h3]
        rfl
  · obtain ⟨data, sign2, h1, h2, h3, h4, h5⟩ := buildDigits_ok ds true hne hd
    refine ⟨{ data := data, sign := sign2 }, ?_, ⟨h2, h4⟩, ?_⟩
    · simp only [ofString, build, if_true, hne, if_false, h1]
      rfl
    · simp only [textValue, if_true, ← h3]
      by_cases h0 : data = [0]
      · rw [h4 h0, h0]
        decide
      · rw [h5 h0]
        simp [value]

/-! ## Claims on comparison and construction -/

/-- C7: on well-formed Integers `operator<` returns true exactly when
`value a < value b`; it is therefore irreflexive and transitive, exactly one of
`a < b`, `a == b`, `b < a` holds, and `-5 < -3 < 0 < 3 < 5` and `-100 < -99`. -/
theorem lt_total_order (a b c : Integer) (ha : WellFormed a) (hb : WellFormed b)
    (hc : WellFormed c) :
    (lt a b = true ↔ value a < value b) ∧
    lt a a = false ∧
    (lt a b = true → lt b c = true → lt a c = true) ∧
    ((lt a b = true ∧ eq a b = false ∧ lt b a = false) ∨
      (lt a b = false ∧ eq a b = true ∧ lt b a = false) ∨
      (lt a b = false ∧ eq a b = false ∧ lt b a = true)) ∧
    (lt (ofInt (-5)) (ofInt (-3)) = true ∧ lt (ofInt (-3)) (ofInt 0) = true ∧
      lt (ofInt 0) (ofInt 3) = true ∧ lt (ofInt 3) (ofInt 5) = true ∧
      lt (ofInt (-100)) (ofInt (-99)) = true) := by
  have hab := lt_iff_value a b ha hb
  have hba := lt_iff_value b a hb ha
  have hbc := lt_iff_value b c hb hc
  have hac := lt_iff_value a c ha hc
  have haa := lt_iff_value a a ha ha
  have heq := eq_iff_value a b ha hb
  refine ⟨hab, ?_, ?_, ?_, by decide⟩
  · cases h : lt a a
    · rfl
    · exact absurd (haa.mp h) (lt_irrefl _)
  · intro h1 h2
    exact hac.mpr (lt_trans (hab.mp h1) (hbc.mp h2))
  · rcases lt_trichotomy (value a) (value b) with h | h | h
    · refine Or.inl ⟨hab.mpr h, ?_, ?_⟩
      · cases h2 : eq a b
        · rfl
        · have := heq.mp h2
          omega
      · cases h2 : lt b a
        · rfl
        · have := hba.mp h2
          omega
    · refine Or.inr (Or.inl ⟨?_, heq.mpr h, ?_⟩)
      · cases h2 : lt a b
        · rfl
        · have := hab.mp h2
          omega
      · cases h2 : lt b a
        · rfl
        · have := hba.mp h2
          omega
    · refine Or.inr (Or.inr ⟨?_, ?_, hba.mpr h⟩)
      · cases h2 : lt a b
        · rfl
        · have := hab.mp h2
          omega
      · cases h2 : eq a b
        · rfl
        · have := heq.mp h2
          omega

theorem lt_total_order_witness :
    WellFormed (ofInt (-100)) ∧ WellFormed (ofInt (-99)) ∧ WellFormed (ofInt 7) ∧
      (lt (ofInt (-100)) (ofInt (-99)) = true ↔ value (ofInt (-100)) < value (ofInt (-99))) :=
  ⟨by decide, by decide, by decide,
    (lt_total_order (ofInt (-100)) (ofInt (-99)) (ofInt 7) (by decide) (by decide) (by decide)).1⟩

/-- C8: on well-formed Integers `operator==` (same sign, same digit count,
element-wise equal digits) returns true exactly when the values are equal,
because a well-formed representation is unique; `operator!=` is its negation. -/
theorem eq_correct (a b : Integer) (ha : WellFormed a) (hb : WellFormed b) :
    (eq a b = true ↔ value a = value b) ∧
    (eq a b = true ↔
      (a.sign = b.sign ∧ a.data.length = b.data.length ∧ a.data = b.data)) ∧
    (value a = value b → a = b) ∧
    ne a b = !(eq a b) := by
  refine ⟨eq_iff_value a b ha hb, ?_, value_inj a b ha hb, rfl⟩
  rw [eq_iff_eq]
  constructor
  · intro h
    rw [h]
    exact ⟨rfl, rfl, rfl⟩
  · intro h
    cases a
    cases b
    simp only [mk.injEq]
    exact ⟨h.2.2, h.1⟩

theorem eq_correct_witness :
    WellFormed (ofInt (-42)) ∧ WellFormed (ofInt 42) ∧
      (eq (ofInt (-42)) (ofInt 42) = true ↔ value (ofInt (-42)) = value (ofInt 42)) :=
  ⟨by decide, by decide, (eq_correct (ofInt (-42)) (ofInt 42) (by decide) (by decide)).1⟩

theorem digitsValue_all_zero (ds : List Char) (h : ∀ c ∈ ds, c = '0') : digitsValue ds = 0 := by
  have : ds = List.replicate ds.length '0' ++ [] := by
    rw [List.append_nil]
    exact List.eq_replicate_of_mem h
  rw [this, digitsValue_zeros]
  rfl

/-- C9: text that is an optional minus followed by one or more decimal digits
is accepted by the string constructor; the result is well-formed and denotes
the integer the text denotes; a minus followed only by zeros gives `ZERO`,
with sign false. -/
theorem ofString_correct (s : List Char) (h : IsNumeral s) :
    ∃ x, ofString s = .ok x ∧ WellFormed x ∧ value x = textValue s ∧
      (∀ ds, s = '-' :: ds → (∀ c ∈ ds, c = '0') → x = ZERO ∧ x.sign = false) := by
  obtain ⟨x, h1, h2, h3⟩ := ofString_value s h
  refine ⟨x, h1, h2, h3, ?_⟩
  intro ds hs hz
  have hv : value x = 0 := by
    rw [h3, hs]
    simp only [textValue, if_true, digitsValue_all_zero ds hz]
    rfl
  have hx : x = ZERO := value_inj x ZERO h2 wellFormed_ZERO (by rw [hv, value_ZERO])
  rw [hx]
  exact ⟨rfl, rfl⟩

theorem ofString_correct_witness :
    IsNumeral ['-', '0', '0', '7'] ∧
      ∃ x, ofString ['-', '0', '0', '7'] = .ok x ∧ WellFormed x ∧
        value x = textValue ['-', '0', '0', '7'] ∧
        (∀ ds, ['-', '0', '0', '7'] = '-' :: ds → (∀ c ∈ ds, c = '0') →
          x = ZERO ∧ x.sign = false) :=
  have h : IsNumeral ['-', '0', '0', '7'] :=
    ⟨['0', '0', '7'], by decide, by decide, Or.inr rfl⟩
  ⟨h, ofString_correct ['-', '0', '0', '7'] h⟩

/-- C10: the string constructor throws `std::invalid_argument` exactly on text
that is not an optional minus followed by one or more decimal digits; the
empty text, a bare minus and text with a non-digit are rejected, and every
well-formed numeral is accepted. -/
theorem ofString_error_iff_not_numeral (s : List Char) :
    (ofString s = .error .invalid_argument ↔ ¬ IsNumeral s) ∧
    (IsNumeral s ↔ ∃ x, ofString s = .ok x) ∧
    ofString [] = .error .invalid_argument ∧
    ofString ['-'] = .error .invalid_argument ∧
    ofString ['1', '2', 'a'] = .error .invalid_argument ∧
    ofString ['+', '5'] = .error .invalid_argument ∧
    ofString ['-', '-', '1'] = .error .invalid_argument ∧
    ofString ['0', '-', '5'] = .error .invalid_argument := by
  refine ⟨ofString_error_iff s, ?_, rfl, rfl, rfl, rfl, rfl, rfl⟩
  constructor
  · intro h
    obtain ⟨x, hx, _⟩ := ofString_value s h
    exact ⟨x, hx⟩
  · rintro ⟨x, hx⟩
    by_contra hn
    rw [(ofString_error_iff s).mpr hn] at hx
    cases hx

/-! ## The digit loops of addition and subtraction -/

theorem addLoop_spec (top bottom : List Nat) (c : Nat) (hl : bottom.length ≤ top.length) :
    (addLoop top bottom c).1.length = top.length ∧
    (∀ d ∈ (addLoop top bottom c).1, d ≤ 9) ∧
    Nat.ofDigits 10 (addLoop top bottom c).1 + 10 ^ top.length * (addLoop top bottom c).2 =
      Nat.ofDigits 10 top + Nat.ofDigits 10 bottom + c := by
  induction top generalizing bottom c with
  | nil =>
    cases bottom with
    | nil => simp [addLoop]
    | cons b bottom => simp at hl
  | cons t top ih =>
    cases bottom with
    | nil =>
      obtain ⟨h1, h2, h3⟩ := ih [] ((t + c) / 10) (by simp)
      simp only [addLoop]
      refine ⟨by simp [h1], ?_, ?_⟩
      · intro d hd
        rcases List.mem_cons.mp hd with rfl | hd
        · omega
        · exact h2 d hd
      · simp only [Nat.ofDigits_cons, Nat.ofDigits_nil, List.length_cons, pow_succ] at h3 ⊢
        rw [Nat.mul_comm (10 ^ top.length) 10, Nat.mul_assoc]
        generalize 10 ^ top.length * (addLoop top [] ((t + c) / 10)).2 = X at h3 ⊢
        omega
    | cons b bottom =>
      obtain ⟨h1, h2, h3⟩ := ih bottom ((t + b + c) / 10) (by simpa using hl)
      simp only [addLoop]
      refine ⟨by simp [h1], ?_, ?_⟩
      · intro d hd
        rcases List.mem_cons.mp hd with rfl | hd
        · omega
        · exact h2 d hd
      · simp only [Nat.ofDigits_cons, List.length_cons, pow_succ] at h3 ⊢
        rw [Nat.mul_comm (10 ^ top.length) 10, Nat.mul_assoc]
        generalize 10 ^ top.length * (addLoop top bottom ((t + b + c) / 10)).2 = X at h3 ⊢
        omega

theorem subLoop_spec (top bottom : List Nat) (c : Nat) (hl : bottom.length ≤ top.length)
    (hb : ∀ d ∈ bottom, d ≤ 9) :
    (subLoop top bottom c).1.length = top.length ∧
    (∀ d ∈ (subLoop top bottom c).1, d ≤ 9) ∧
    Nat.ofDigits 10 (subLoop top bottom c).1 + 10 ^ top.length * (subLoop top bottom c).2 +
        Nat.ofDigits 10 bottom + 1 =
      Nat.ofDigits 10 top + 10 ^ top.length + c := by
  induction top generalizing bottom c with
  | nil =>
    cases bottom with
    | nil => simp [subLoop]; omega
    | cons b bottom => simp at hl
  | cons t top ih =>
    cases bottom with
    | nil =>
      obtain ⟨h1, h2, h3⟩ := ih [] ((t + 9 + c) / 10) (by simp) (by simp)
      simp only [subLoop]
      refine ⟨by simp [h1], ?_, ?_⟩
      · intro d hd
        rcases List.mem_cons.mp hd with rfl | hd
        · omega
        · exact h2 d hd
      · simp only [Nat.ofDigits_cons, Nat.ofDigits_nil, List.length_cons, pow_succ] at h3 ⊢
        rw [Nat.mul_comm (10 ^ top.length) 10, Nat.mul_assoc]
        generalize 10 ^ top.length * (subLoop top [] ((t + 9 + c) / 10)).2 = X at h3 ⊢
        generalize 10 ^ top.length = P at h3 ⊢
        omega
    | cons b bottom =>
      have hb9 : b ≤ 9 := hb b (List.mem_cons_self _ _)
      obtain ⟨h1, h2, h3⟩ := ih bottom ((t + (9 - b) + c) / 10) (by simpa using hl)
        (fun d hd => hb d (List.mem_cons_of_mem _ hd))
      simp only [subLoop]
      refine ⟨by simp [h1], ?_, ?_⟩
      · intro d hd
        rcases List.mem_cons.mp hd with rfl | hd
        · omega
        · exact h2 d hd
      · simp only [Nat.ofDigits_cons, List.length_cons, pow_succ] at h3 ⊢
        rw [Nat.mul_comm (10 ^ top.length) 10, Nat.mul_assoc]
        generalize 10 ^ top.length * (subLoop top bottom ((t + (9 - b) + c) / 10)).2 = X at h3 ⊢
        generalize 10 ^ top.length = P at h3 ⊢
        omega

theorem complLoop_spec (top : List Nat) (c : Nat) (ht : ∀ d ∈ top, d ≤ 9) :
    (complLoop top c).1.length = top.length ∧
    (∀ d ∈ (complLoop top c).1, d ≤ 9) ∧
    Nat.ofDigits 10 (complLoop top c).1 + 10 ^ top.length * (complLoop top c).2 +
        Nat.ofDigits 10 top + 1 =
      10 ^ top.length + c := by
  induction top generalizing c with
  | nil => simp [complLoop]; omega
  | cons t top ih =>
    have ht9 : t ≤ 9 := ht t (List.mem_cons_self _ _)
    obtain ⟨h1, h2, h3⟩ := ih ((9 - t + c) / 10) (fun d hd => ht d (List.mem_cons_of_mem _ hd))
    simp only [complLoop]
    refine ⟨by simp [h1], ?_, ?_⟩
    · intro d hd
      rcases List.mem_cons.mp hd with rfl | hd
      · omega
      · exact h2 d hd
    · simp only [Nat.ofDigits_cons, List.length_cons, pow_succ] at h3 ⊢
      rw [Nat.mul_comm (10 ^ top.length) 10, Nat.mul_assoc]
      generalize 10 ^ top.length * (complLoop top ((9 - t + c) / 10)).2 = X at h3 ⊢
      generalize 10 ^ top.length = P at h3 ⊢
      omega

/-! ## Stripping leading zeros -/

theorem stripLeadingZeros_mag (ds : List Nat) : mag (stripLeadingZeros ds) = mag ds := by
  induction ds with
  | nil => rfl
  | cons d ds ih =>
    cases ds with
    | nil => cases d <;> rfl
    | cons e es =>
      cases d with
      | zero =>
        rw [stripLeadingZeros, ih, mag_cons 0]
        simp
      | succ d => rfl

theorem stripLeadingZeros_canon (ds : List Nat) (hne : ds ≠ []) (hd : ∀ d ∈ ds, d ≤ 9) :
    Canon (stripLeadingZeros ds) := by
  induction ds with
  | nil => exact absurd rfl hne
  | cons d ds ih =>
    cases ds with
    | nil =>
      have : stripLeadingZeros [d] = [d] := by cases d <;> rfl
      rw [this]
      exact ⟨by simp, hd, by intro h; simpa using h⟩
    | cons e es =>
      cases d with
      | zero =>
        rw [stripLeadingZeros]
        exact ih (by simp) (fun x hx => hd x (List.mem_cons_of_mem _ hx))
      | succ d =>
        have : stripLeadingZeros ((d + 1) :: e :: es) = (d + 1) :: e :: es := rfl
        rw [this]
        exact ⟨by simp, hd, by intro h; simp at h⟩

theorem stripLeadingZeros_of_canon (ds : List Nat) (h : Canon ds) : stripLeadingZeros ds = ds := by
  match ds, h with
  | [], _ => rfl
  | [d], _ => cases d <;> rfl
  | d :: e :: es, h =>
    cases d with
    | zero =>
      have := h.2.2 rfl
      simp at this
    | succ d => rfl

theorem stripFix_spec (ds : List Nat) (sign : Bool) (hne : ds ≠ []) (hd : ∀ d ∈ ds, d ≤ 9) :
    WellFormed (stripFix ds sign) ∧ mag (stripFix ds sign).data = mag ds ∧
      (mag ds ≠ 0 → (stripFix ds sign).sign = sign) := by
  have hc := stripLeadingZeros_canon ds hne hd
  have hm := stripLeadingZeros_mag ds
  match ds, hne with
  | 0 :: tl, _ =>
    simp only [stripFix]
    refine ⟨⟨hc, ?_⟩, hm, ?_⟩
    · intro h0
      have h0' : stripLeadingZeros (0 :: tl) = [0] := h0
      simp [h0']
    · intro hmag
      have hne0 : stripLeadingZeros (0 :: tl) ≠ [0] := by
        intro h0
        rw [h0] at hm
        exact hmag hm.symm
      have : ¬ ((stripLeadingZeros (0 :: tl)).length = 1 ∧
          (stripLeadingZeros (0 :: tl)).head? = some 0) := by
        rintro ⟨h1, h2⟩
        apply hne0
        match hs : stripLeadingZeros (0 :: tl), h1, h2 with
        | [x], _, h2 =>
          simp only [List.head?_cons, Option.some.injEq] at h2
          rw [h2]
      simp only [beq_iff_eq, Bool.and_eq_true]
      rw [if_neg this]
  | (d + 1) :: tl, _ =>
    have hs : stripFix ((d + 1) :: tl) sign = { data := (d + 1) :: tl, sign := sign } := rfl
    rw [hs]
    refine ⟨⟨⟨by simp, hd, by intro h; simp at h⟩, ?_⟩, rfl, fun _ => rfl⟩
    intro h0
    simp at h0

theorem value_stripFix (ds : List Nat) (sign : Bool) (hne : ds ≠ []) (hd : ∀ d ∈ ds, d ≤ 9) :
    value (stripFix ds sign) = if sign then -(mag ds : Int) else (mag ds : Int) := by
  obtain ⟨_, h2, h3⟩ := stripFix_spec ds sign hne hd
  by_cases h0 : mag ds = 0
  · simp only [value, h2, h0]
    cases sign <;> cases (stripFix ds _).sign <;> simp
  · simp only [value, h2, h3 h0]

/-- A non-empty digit sequence whose magnitude fills its length is in normal
form. -/
theorem canon_of_pow_le_mag (ds : List Nat) (hne : ds ≠ []) (hd : ∀ d ∈ ds, d ≤ 9)
    (h : 2 ≤ ds.length → 10 ^ (ds.length - 1) ≤ mag ds) : Canon ds := by
  refine ⟨hne, hd, ?_⟩
  intro hhead
  match ds, hne with
  | [d], _ => simpa using hhead
  | d :: e :: es, _ =>
    simp only [List.head?_cons, Option.some.injEq] at hhead
    subst hhead
    have h1 := h (by simp)
    have h2 := mag_lt_pow (e :: es) (fun x hx => hd x (List.mem_cons_of_mem _ hx))
    rw [mag_cons] at h1
    simp only [List.length_cons, Nat.add_sub_cancel, Nat.zero_mul, Nat.zero_add] at h1 h2
    omega

/-! ## The shared body of `operator+=` and `operator-=` -/

theorem ofDigits_reverse (ds : List Nat) : Nat.ofDigits 10 ds.reverse = mag ds :=
  (mag_eq_ofDigits ds).symm

theorem ofDigits_lt_pow (l : List Nat) (h : ∀ d ∈ l, d ≤ 9) : Nat.ofDigits 10 l < 10 ^ l.length := by
  have := mag_lt_pow l.reverse (by intro d hd; exact h d (List.mem_reverse.mp hd))
  rwa [mag_reverse, List.length_reverse] at this

/-- The complement pass and, when it ends without a carry, the re-complement
pass: the final carry tells which operand is larger, and the digits are the
difference of the magnitudes. -/
theorem complement_spec (top bottom : List Nat) (hl : bottom.length ≤ top.length)
    (ht : ∀ d ∈ top, d ≤ 9) (hb : ∀ d ∈ bottom, d ≤ 9) :
    ((subLoop top bottom 1).2 = 1 ↔ Nat.ofDigits 10 bottom ≤ Nat.ofDigits 10 top) ∧
    ((subLoop top bottom 1).2 = 0 ↔ Nat.ofDigits 10 top < Nat.ofDigits 10 bottom) ∧
    ((subLoop top bottom 1).2 = 1 →
      Nat.ofDigits 10 (subLoop top bottom 1).1 = Nat.ofDigits 10 top - Nat.ofDigits 10 bottom) ∧
    ((subLoop top bottom 1).2 = 0 →
      Nat.ofDigits 10 (complLoop (subLoop top bottom 1).1 1).1 =
        Nat.ofDigits 10 bottom - Nat.ofDigits 10 top) := by
  obtain ⟨h1, h2, h3⟩ := subLoop_spec top bottom 1 hl hb
  obtain ⟨k1, k2, k3⟩ := complLoop_spec (subLoop top bottom 1).1 1 h2
  have hT := ofDigits_lt_pow top ht
  have hB := ofDigits_lt_pow bottom hb
  have hR := ofDigits_lt_pow _ h2
  have hR2 := ofDigits_lt_pow _ k2
  have hpow : 10 ^ bottom.length ≤ 10 ^ top.length := Nat.pow_le_pow_right (by norm_num) hl
  rw [h1] at hR k3
  rw [k1, h1] at hR2
  generalize Nat.ofDigits 10 top = T at *
  generalize Nat.ofDigits 10 bottom = B at *
  generalize Nat.ofDigits 10 (complLoop (subLoop top bottom 1).1 1).1 = R2 at *
  generalize (complLoop (subLoop top bottom 1).1 1).2 = C2 at *
  generalize Nat.ofDigits 10 (subLoop top bottom 1).1 = R at *
  generalize (subLoop top bottom 1).2 = C at *
  generalize 10 ^ top.length = P at *
  have hC : C = 0 ∨ C = 1 := by
    rcases Nat.lt_or_ge C 2 with h | h
    · omega
    · have : P * 2 ≤ P * C := Nat.mul_le_mul_left P h
      omega
  rcases hC with hC | hC
  · subst hC
    simp only [Nat.mul_zero, Nat.add_zero] at h3
    have hC2 : C2 = 0 := by
      rcases Nat.eq_zero_or_pos C2 with h | h
      · exact h
      · have : P * 1 ≤ P * C2 := Nat.mul_le_mul_left P h
        omega
    subst hC2
    simp only [Nat.mul_zero, Nat.add_zero] at k3
    refine ⟨by omega, by omega, by omega, by omega⟩
  · subst hC
    simp only [Nat.mul_one] at h3
    refine ⟨by omega, by omega, by omega, by omega⟩

theorem pad_facts (a : List Nat) (k : Nat) (ha : ∀ d ∈ a, d ≤ 9) :
    (∀ d ∈ (List.replicate k 0 ++ a).reverse, d ≤ 9) ∧
    Nat.ofDigits 10 (List.replicate k 0 ++ a).reverse = mag a ∧
    (List.replicate k 0 ++ a).reverse.length = k + a.length := by
  refine ⟨?_, ?_, by simp [Nat.add_comm]⟩
  · intro d hd
    rcases List.mem_append.mp (List.mem_reverse.mp hd) with h | h
    · rw [(List.mem_replicate.mp h).2]
      omega
    · exact ha d h
  · rw [ofDigits_reverse, mag_pad]

/-- The complement branch: the result is well-formed and its value is the
difference of the magnitudes, signed by `sign` flipped when the bottom operand
is the bigger one. -/
theorem addSubCore_compl (this that : Integer) (ha : Canon this.data) (hb : Canon that.data) :
    WellFormed (addSubCore false (decide (mag this.data < mag that.data)) this that) ∧
    value (addSubCore false (decide (mag this.data < mag that.data)) this that) =
      if this.sign then (mag that.data : Int) - mag this.data
      else (mag this.data : Int) - mag that.data := by
  obtain ⟨p1, p2, p3⟩ := pad_facts this.data (that.data.length - this.data.length) ha.2.1
  have hbr : ∀ d ∈ that.data.reverse, d ≤ 9 := fun d hd => hb.2.1 d (List.mem_reverse.mp hd)
  have hl : that.data.reverse.length ≤
      (List.replicate (that.data.length - this.data.length) 0 ++ this.data).reverse.length := by
    rw [p3, List.length_reverse]
    omega
  obtain ⟨c1, c2, c3, c4⟩ := complement_spec _ _ hl p1 hbr
  obtain ⟨s1, s2, _⟩ := subLoop_spec _ _ 1 hl hbr
  obtain ⟨k1, k2, _⟩ := complLoop_spec _ 1 s2
  rw [p2, ofDigits_reverse] at c1 c2 c3 c4
  have hpos : 0 < this.data.length := List.length_pos.mpr ha.1
  rw [p3] at s1
  rw [s1] at k1
  simp only [addSubCore, Bool.false_eq_true, if_false]
  generalize subLoop (List.replicate (that.data.length - this.data.length) 0 ++
    this.data).reverse that.data.reverse 1 = r at c1 c2 c3 c4 s1 s2 k1 k2 ⊢
  by_cases hlt : mag this.data < mag that.data
  · have hr2 : r.2 = 0 := c2.mpr hlt
    have hD := c4 hr2
    simp only [hr2, beq_self_eq_true, if_true, hlt, decide_True]
    have hne : (complLoop r.1 1).1.reverse ≠ [] := by
      intro h
      have := congrArg List.length h
      rw [List.length_reverse, k1] at this
      simp only [List.length_nil] at this
      omega
    have hd9 : ∀ d ∈ (complLoop r.1 1).1.reverse, d ≤ 9 :=
      fun d hd => k2 d (List.mem_reverse.mp hd)
    refine ⟨(stripFix_spec _ _ hne hd9).1, ?_⟩
    rw [value_stripFix _ _ hne hd9, mag_reverse, hD]
    cases this.sign
    · simp only [Bool.not_false, if_true, Bool.false_eq_true, if_false]
      omega
    · simp only [Bool.not_true, Bool.false_eq_true, if_false, if_true]
      omega
  · have hr2 : r.2 = 1 := c1.mpr (by omega)
    have hD := c3 hr2
    simp only [hr2, hlt, decide_False, Bool.false_eq_true, if_false]
    have hne : r.1.reverse ≠ [] := by
      intro h
      have := congrArg List.length h
      rw [List.length_reverse, s1] at this
      simp only [List.length_nil] at this
      omega
    have hd9 : ∀ d ∈ r.1.reverse, d ≤ 9 := fun d hd => s2 d (List.mem_reverse.mp hd)
    have hbeq : ((1 : Nat) == 0) = false := rfl
    simp only [hbeq, Bool.false_eq_true, if_false]
    refine ⟨(stripFix_spec _ _ hne hd9).1, ?_⟩
    rw [value_stripFix _ _ hne hd9, mag_reverse, hD]
    cases this.sign
    · simp only [Bool.false_eq_true, if_false]
      omega
    · simp only [if_true]
      omega

/-- The addition branch: the digits are in normal form, their magnitude is the
sum of the magnitudes, and the sign is unchanged. -/
theorem addSubCore_same (this that : Integer) (bb : Bool) (ha : Canon this.data)
    (hb : Canon that.data) :
    Canon (addSubCore true bb this that).data ∧
    mag (addSubCore true bb this that).data = mag this.data + mag that.data ∧
    (addSubCore true bb this that).sign = this.sign := by
  obtain ⟨p1, p2, p3⟩ := pad_facts this.data (that.data.length - this.data.length) ha.2.1
  have hbr : ∀ d ∈ that.data.reverse, d ≤ 9 := fun d hd => hb.2.1 d (List.mem_reverse.mp hd)
  have hl : that.data.reverse.length ≤
      (List.replicate (that.data.length - this.data.length) 0 ++ this.data).reverse.length := by
    rw [p3, List.length_reverse]
    omega
  obtain ⟨a1, a2, a3⟩ := addLoop_spec _ _ 0 hl
  rw [p2, ofDigits_reverse, p3] at a3
  rw [p3] at a1
  have hpos : 0 < this.data.length := List.length_pos.mpr ha.1
  have hposb : 0 < that.data.length := List.length_pos.mpr hb.1
  have hA := mag_lt_pow this.data ha.2.1
  have hB := mag_lt_pow that.data hb.2.1
  have hpa : 10 ^ this.data.length ≤ 10 ^ (that.data.length - this.data.length + this.data.length) :=
    Nat.pow_le_pow_right (by norm_num) (by omega)
  have hpb : 10 ^ that.data.length ≤ 10 ^ (that.data.length - this.data.length + this.data.length) :=
    Nat.pow_le_pow_right (by norm_num) (by omega)
  have hlow : 2 ≤ that.data.length - this.data.length + this.data.length →
      10 ^ (that.data.length - this.data.length + this.data.length - 1) ≤
        mag this.data + mag that.data := by
    intro h2
    rcases Nat.lt_or_ge this.data.length that.data.length with h | h
    · have hq := pow_le_mag_of_canon that.data hb (by omega)
      have e : that.data.length - this.data.length + this.data.length = that.data.length := by
        omega
      rw [e]
      omega
    · have hq := pow_le_mag_of_canon this.data ha (by omega)
      have e : that.data.length - this.data.length + this.data.length = this.data.length := by
        omega
      rw [e]
      omega
  simp only [addSubCore, if_true]
  generalize addLoop (List.replicate (that.data.length - this.data.length) 0 ++
    this.data).reverse that.data.reverse 0 = r at a1 a2 a3 ⊢
  generalize that.data.length - this.data.length + this.data.length = n at a1 a3 hpa hpb hlow
  have hR := ofDigits_lt_pow r.1 a2
  rw [a1] at hR
  have hd9 : ∀ d ∈ r.1.reverse, d ≤ 9 := fun d hd => a2 d (List.mem_reverse.mp hd)
  have hC : r.2 = 0 ∨ r.2 = 1 := by
    rcases Nat.lt_or_ge r.2 2 with h | h
    · omega
    · have hq : 10 ^ n * 2 ≤ 10 ^ n * r.2 := Nat.mul_le_mul_left _ h
      omega
  rcases hC with hC | hC
  · have hbne : (r.2 != 0) = false := by rw [hC]; rfl
    simp only [hbne, Bool.false_eq_true, if_false, and_true]
    rw [hC] at a3
    simp only [Nat.mul_zero, Nat.add_zero] at a3
    have hne : r.1.reverse ≠ [] := by
      intro h
      have hn := congrArg List.length h
      rw [List.length_reverse, a1] at hn
      simp only [List.length_nil] at hn
      have h1 := hpa
      rw [hn] at h1
      have h2 : 10 ^ 1 ≤ 10 ^ this.data.length := Nat.pow_le_pow_right (by norm_num) hpos
      omega
    have hm : mag r.1.reverse = mag this.data + mag that.data := by rw [mag_reverse, a3]
    refine ⟨canon_of_pow_le_mag _ hne hd9 ?_, hm⟩
    rw [List.length_reverse, a1, hm]
    exact hlow
  · have hbne : (r.2 != 0) = true := by rw [hC]; rfl
    simp only [hbne, if_true, and_true]
    rw [hC] at a3 ⊢
    refine ⟨⟨by simp, ?_, by intro h; simp at h⟩, ?_⟩
    · intro d hd
      rcases List.mem_cons.mp hd with rfl | hd
      · omega
      · exact hd9 d hd
    · rw [mag_cons, mag_reverse, List.length_reverse, a1]
      omega

theorem lt_sign_false (x y : Integer) (hx : x.sign = false) (hy : y.sign = false)
    (cx : Canon x.data) (cy : Canon y.data) :
    lt x y = decide (mag x.data < mag y.data) := by
  have := sizeLex_iff x.data y.data cx cy
  rw [Bool.eq_iff_iff, decide_eq_true_iff, ← this]
  simp [lt, hx, hy]

theorem lt_sign_true (x y : Integer) (hx : x.sign = true) (hy : y.sign = true)
    (cx : Canon x.data) (cy : Canon y.data) :
    lt x y = decide (mag y.data < mag x.data) := by
  have := sizeLex_iff y.data x.data cy cx
  rw [Bool.eq_iff_iff, decide_eq_true_iff, ← this]
  simp [lt, hx, hy]

theorem wellFormed_same (this that : Integer) (bb : Bool) (ha : WellFormed this)
    (hb : WellFormed that) : WellFormed (addSubCore true bb this that) := by
  obtain ⟨h1, h2, h3⟩ := addSubCore_same this that bb ha.1 hb.1
  refine ⟨h1, ?_⟩
  intro h0
  rw [h3]
  apply ha.2
  apply mag_eq_zero_of_canon _ ha.1
  rw [h0] at h2
  have : mag [0] = 0 := rfl
  omega

theorem value_same (this that : Integer) (bb : Bool) (ha : WellFormed this)
    (hb : WellFormed that) :
    value (addSubCore true bb this that) =
      if this.sign then -((mag this.data : Int) + mag that.data)
      else (mag this.data : Int) + mag that.data := by
  obtain ⟨h1, h2, h3⟩ := addSubCore_same this that bb ha.1 hb.1
  simp only [value, h2, h3]
  push_cast
  rfl

theorem addAssign_spec (a b : Integer) (ha : WellFormed a) (hb : WellFormed b) :
    WellFormed (addAssign a b) ∧ value (addAssign a b) = value a + value b := by
  cases hsa : a.sign <;> cases hsb : b.sign
  · have e : addAssign a b = addSubCore true false a b := by simp [addAssign, hsa, hsb]
    rw [e, value_same a b _ ha hb, value_of_sign_false a hsa, value_of_sign_false b hsb]
    exact ⟨wellFormed_same a b _ ha hb, by simp [hsa]⟩
  · have e : addAssign a b = addSubCore false (decide (mag a.data < mag b.data)) a b := by
      simp only [addAssign, hsa, hsb]
      rw [lt_sign_true b { data := a.data, sign := true } hsb rfl hb.1 ha.1]
      rfl
    obtain ⟨h1, h2⟩ := addSubCore_compl a b ha.1 hb.1
    rw [e, h2, value_of_sign_false a hsa, value_of_sign_true b hsb]
    exact ⟨h1, by simp [hsa]; ring⟩
  · have e : addAssign a b = addSubCore false (decide (mag a.data < mag b.data)) a b := by
      simp only [addAssign, hsa, hsb]
      rw [lt_sign_false { data := a.data, sign := false } b rfl hsb ha.1 hb.1]
      rfl
    obtain ⟨h1, h2⟩ := addSubCore_compl a b ha.1 hb.1
    rw [e, h2, value_of_sign_true a hsa, value_of_sign_false b hsb]
    exact ⟨h1, by simp [hsa]; ring⟩
  · have e : addAssign a b = addSubCore true false a b := by simp [addAssign, hsa, hsb]
    rw [e, value_same a b _ ha hb, value_of_sign_true a hsa, value_of_sign_true b hsb]
    exact ⟨wellFormed_same a b _ ha hb, by simp [hsa]; ring⟩

theorem subAssign_spec (a b : Integer) (ha : WellFormed a) (hb : WellFormed b) :
    WellFormed (subAssign a b) ∧ value (subAssign a b) = value a - value b := by
  cases hsa : a.sign <;> cases hsb : b.sign
  · have e : subAssign a b = addSubCore false (decide (mag a.data < mag b.data)) a b := by
      simp only [subAssign, hsa, hsb]
      rw [lt_sign_false a b hsa hsb ha.1 hb.1]
      rfl
    obtain ⟨h1, h2⟩ := addSubCore_compl a b ha.1 hb.1
    rw [e, h2, value_of_sign_false a hsa, value_of_sign_false b hsb]
    exact ⟨h1, by simp [hsa]⟩
  · have e : subAssign a b = addSubCore true false a b := by simp [subAssign, hsa, hsb]
    rw [e, value_same a b _ ha hb, value_of_sign_false a hsa, value_of_sign_true b hsb]
    exact ⟨wellFormed_same a b _ ha hb, by simp [hsa]⟩
  · have e : subAssign a b = addSubCore true false a b := by simp [subAssign, hsa, hsb]
    rw [e, value_same a b _ ha hb, value_of_sign_true a hsa, value_of_sign_false b hsb]
    exact ⟨wellFormed_same a b _ ha hb, by simp [hsa]; ring⟩
  · have e : subAssign a b = addSubCore false (decide (mag a.data < mag b.data)) a b := by
      simp only [subAssign, hsa, hsb]
      rw [lt_sign_true b a hsb hsa hb.1 ha.1]
      rfl
    obtain ⟨h1, h2⟩ := addSubCore_compl a b ha.1 hb.1
    rw [e, h2, value_of_sign_true a hsa, value_of_sign_true b hsb]
    exact ⟨h1, by simp [hsa]; ring⟩

/-! ## Multiplication -/

/-- One row of the schoolbook product: when the buffer holds a zero just above
the multiplicand's length, the row adds `y * xs` to it. -/
theorem mulRow_spec (y : Nat) (xs zs : List Nat) (c : Nat) (hy : y ≤ 9) (hc : c ≤ 9)
    (hx : ∀ d ∈ xs, d ≤ 9) (hz : ∀ d ∈ zs, d ≤ 9)
    (h0 : (zs.drop xs.length).head? = some 0) :
    (mulRow y xs zs c).length = zs.length ∧
    (∀ d ∈ mulRow y xs zs c, d ≤ 9) ∧
    (mulRow y xs zs c).drop (xs.length + 1) = zs.drop (xs.length + 1) ∧
    Nat.ofDigits 10 (mulRow y xs zs c) = Nat.ofDigits 10 zs + y * Nat.ofDigits 10 xs + c := by
  induction xs generalizing zs c with
  | nil =>
    cases zs with
    | nil => simp at h0
    | cons z zs =>
      simp only [List.length_nil, List.drop_zero, List.head?_cons, Option.some.injEq] at h0
      subst h0
      simp only [mulRow, List.length_cons, List.length_nil, Nat.zero_add, List.drop_succ_cons,
        List.drop_zero, Nat.ofDigits_cons, Nat.ofDigits_nil, true_and]
      refine ⟨?_, by omega⟩
      intro d hd
      rcases List.mem_cons.mp hd with rfl | hd
      · exact hc
      · exact hz d (List.mem_cons_of_mem _ hd)
  | cons x xs ih =>
    cases zs with
    | nil => simp at h0
    | cons z zs =>
      have hx9 : x ≤ 9 := hx x (List.mem_cons_self _ _)
      have hz9 : z ≤ 9 := hz z (List.mem_cons_self _ _)
      have hxy : x * y ≤ 81 := Nat.mul_le_mul hx9 hy
      simp only [List.length_cons, List.drop_succ_cons] at h0
      obtain ⟨h1, h2, h3, h4⟩ := ih zs ((x * y + z + c) / 10) (by omega)
        (fun d hd => hx d (List.mem_cons_of_mem _ hd))
        (fun d hd => hz d (List.mem_cons_of_mem _ hd)) h0
      simp only [mulRow, List.length_cons, List.drop_succ_cons, Nat.ofDigits_cons]
      refine ⟨by rw [h1], ?_, h3, ?_⟩
      · intro d hd
        rcases List.mem_cons.mp hd with rfl | hd
        · omega
        · exact h2 d hd
      · rw [h4]
        have : y * (x + 10 * Nat.ofDigits 10 xs) = x * y + 10 * (y * Nat.ofDigits 10 xs) := by ring
        rw [this]
        generalize y * Nat.ofDigits 10 xs = M
        generalize x * y = xy at hxy ⊢
        omega

/-- A row for the multiplier digit zero leaves the buffer as it is, so the
skip of zero digits changes nothing. -/
theorem mulRow_zero (xs zs : List Nat) (hz : ∀ d ∈ zs, d ≤ 9)
    (h0 : (zs.drop xs.length).head? = some 0) : mulRow 0 xs zs 0 = zs := by
  induction xs generalizing zs with
  | nil =>
    cases zs with
    | nil => simp at h0
    | cons z zs =>
      simp only [List.length_nil, List.drop_zero, List.head?_cons, Option.some.injEq] at h0
      subst h0
      rfl
  | cons x xs ih =>
    cases zs with
    | nil => simp at h0
    | cons z zs =>
      have hz9 : z ≤ 9 := hz z (List.mem_cons_self _ _)
      simp only [List.length_cons, List.drop_succ_cons] at h0
      simp only [mulRow, Nat.mul_zero, Nat.zero_add, Nat.add_zero]
      have e1 : z % 10 = z := Nat.mod_eq_of_lt (by omega)
      have e2 : z / 10 = 0 := by omega
      rw [e1, e2, ih zs (fun d hd => hz d (List.mem_cons_of_mem _ hd)) h0]

theorem mulInv_head (n shift : Nat) (rval : List Nat) (h : MulInv n shift rval) :
    ((rval.drop shift).drop n).head? = some 0 := by
  obtain ⟨_, h2, h3⟩ := h
  rw [List.drop_drop]
  have hcomm : n + shift = shift + n := Nat.add_comm _ _
  try rw [hcomm]
  match hd : rval.drop (shift + n) with
  | [] =>
    have := congrArg List.length hd
    simp only [List.length_drop, List.length_nil] at this
    omega
  | z :: zs =>
    have hz0 := h2 z (by rw [hd]; exact List.mem_cons_self _ _)
    rw [hz0]
    rfl

/-- One pass of the outer loop with a nonzero digit keeps the buffer invariant
and adds `y * xs * 10 ^ shift`. -/
theorem mulStep_spec (xs : List Nat) (y shift : Nat) (rval : List Nat) (hy : y ≤ 9)
    (hx : ∀ d ∈ xs, d ≤ 9) (h : MulInv xs.length shift rval) :
    (rval.take shift ++ mulRow y xs (rval.drop shift) 0).length = rval.length ∧
    (∀ d ∈ rval.take shift ++ mulRow y xs (rval.drop shift) 0, d ≤ 9) ∧
    (∀ d ∈ (rval.take shift ++ mulRow y xs (rval.drop shift) 0).drop (shift + 1 + xs.length),
      d = 0) ∧
    Nat.ofDigits 10 (rval.take shift ++ mulRow y xs (rval.drop shift) 0) =
      Nat.ofDigits 10 rval + 10 ^ shift * (y * Nat.ofDigits 10 xs) := by
  have hhead := mulInv_head xs.length shift rval h
  obtain ⟨i1, i2, i3⟩ := h
  have hzd : ∀ d ∈ rval.drop shift, d ≤ 9 := fun d hd => i1 d (List.mem_of_mem_drop hd)
  obtain ⟨r1, r2, r3, r4⟩ := mulRow_spec y xs (rval.drop shift) 0 hy (by omega) hx hzd hhead
  have htl : (rval.take shift).length = shift := by
    rw [List.length_take]
    omega
  refine ⟨?_, ?_, ?_, ?_⟩
  · rw [List.length_append, r1, htl, List.length_drop]
    omega
  · intro d hd
    rcases List.mem_append.mp hd with hd | hd
    · exact i1 d (List.mem_of_mem_take hd)
    · exact r2 d hd
  · intro d hd
    have e : shift + 1 + xs.length = (rval.take shift).length + (xs.length + 1) := by
      rw [htl]
      omega
    rw [e, List.drop_append, r3, List.drop_drop] at hd
    apply i2 d
    have e2 : shift + (xs.length + 1) = shift + xs.length + 1 := by omega
    rw [e2] at hd
    have e3 : rval.drop (shift + xs.length + 1) = (rval.drop (shift + xs.length)).drop 1 := by
      rw [List.drop_drop]
    rw [e3] at hd
    exact List.mem_of_mem_drop hd
  · rw [Nat.ofDigits_append, r4, htl]
    conv_rhs => rw [← List.take_append_drop shift rval]
    rw [Nat.ofDigits_append, htl]
    ring

theorem mulLoop_spec (xs ys : List Nat) (shift : Nat) (rval : List Nat)
    (hx : ∀ d ∈ xs, d ≤ 9) (hy : ∀ d ∈ ys, d ≤ 9)
    (hlen : rval.length = shift + ys.length + xs.length) (hd : ∀ d ∈ rval, d ≤ 9)
    (hz : ∀ d ∈ rval.drop (shift + xs.length), d = 0) :
    (mulLoop xs ys shift rval).length = rval.length ∧
    (∀ d ∈ mulLoop xs ys shift rval, d ≤ 9) ∧
    Nat.ofDigits 10 (mulLoop xs ys shift rval) =
      Nat.ofDigits 10 rval + 10 ^ shift * (Nat.ofDigits 10 ys * Nat.ofDigits 10 xs) ∧
    mulLoop xs ys shift rval = mulLoopDense xs ys shift rval := by
  induction ys generalizing shift rval with
  | nil =>
    refine ⟨rfl, hd, ?_, rfl⟩
    simp [mulLoop]
  | cons y ys ih =>
    have hy9 : y ≤ 9 := hy y (List.mem_cons_self _ _)
    have hys : ∀ d ∈ ys, d ≤ 9 := fun d hd => hy d (List.mem_cons_of_mem _ hd)
    simp only [List.length_cons] at hlen
    have hinv : MulInv xs.length shift rval := ⟨hd, hz, by omega⟩
    obtain ⟨s1, s2, s3, s4⟩ := mulStep_spec xs y shift rval hy9 hx hinv
    by_cases hy0 : y = 0
    · subst hy0
      have hrow : rval.take shift ++ mulRow 0 xs (rval.drop shift) 0 = rval := by
        rw [mulRow_zero xs (rval.drop shift) (fun d hd2 => hd d (List.mem_of_mem_drop hd2))
          (mulInv_head xs.length shift rval hinv), List.take_append_drop]
      rw [hrow] at s3
      obtain ⟨t1, t2, t3, t4⟩ := ih (shift + 1) rval hys (by omega) hd s3
      simp only [mulLoop, mulLoopDense, bne_self_eq_false, Bool.false_eq_true, if_false, hrow]
      refine ⟨t1, t2, ?_, t4⟩
      rw [t3, Nat.ofDigits_cons, pow_succ]
      ring
    · have hne : (y != 0) = true := by simpa using hy0
      obtain ⟨t1, t2, t3, t4⟩ := ih (shift + 1) _ hys (by rw [s1]; omega) s2 s3
      simp only [mulLoop, mulLoopDense, hne, if_true]
      refine ⟨by rw [t1, s1], t2, ?_, t4⟩
      rw [t3, s4, Nat.ofDigits_cons, pow_succ]
      ring

theorem mulAssign_spec (a b : Integer) (ha : WellFormed a) (hb : WellFormed b) :
    WellFormed (mulAssign a b) ∧ mag (mulAssign a b).data = mag a.data * mag b.data ∧
    (mag a.data * mag b.data ≠ 0 → (mulAssign a b).sign = xor a.sign b.sign) ∧
    value (mulAssign a b) = value a * value b := by
  have hx : ∀ d ∈ a.data.reverse, d ≤ 9 := fun d hd => ha.1.2.1 d (List.mem_reverse.mp hd)
  have hy : ∀ d ∈ b.data.reverse, d ≤ 9 := fun d hd => hb.1.2.1 d (List.mem_reverse.mp hd)
  have hpos : 0 < a.data.length := List.length_pos.mpr ha.1.1
  obtain ⟨m1, m2, m3, _⟩ := mulLoop_spec a.data.reverse b.data.reverse 0
    (List.replicate (a.size + b.size) 0) hx hy
    (by simp [size]; omega)
    (by intro d hd; rw [(List.mem_replicate.mp hd).2]; omega)
    (by intro d hd; exact (List.mem_replicate.mp (List.mem_of_mem_drop hd)).2)
  have hE0 : Nat.ofDigits 10 (List.replicate (a.size + b.size) 0) = 0 := by
    have := mag_replicate_zero (a.size + b.size)
    rw [mag_eq_ofDigits, List.reverse_replicate] at this
    exact this
  rw [hE0, ofDigits_reverse, ofDigits_reverse] at m3
  simp only [pow_zero, Nat.zero_add, Nat.one_mul] at m3
  have hne : (mulLoop a.data.reverse b.data.reverse 0
      (List.replicate (a.size + b.size) 0)).reverse ≠ [] := by
    intro h
    have hn := congrArg List.length h
    rw [List.length_reverse, m1] at hn
    simp only [size, List.length_replicate, List.length_nil] at hn
    omega
  have hd9 : ∀ d ∈ (mulLoop a.data.reverse b.data.reverse 0
      (List.replicate (a.size + b.size) 0)).reverse, d ≤ 9 :=
    fun d hd => m2 d (List.mem_reverse.mp hd)
  obtain ⟨f1, f2, f3⟩ := stripFix_spec _ (xor a.sign b.sign) hne hd9
  have hv := value_stripFix _ (xor a.sign b.sign) hne hd9
  rw [mag_reverse, m3] at f2 f3 hv
  simp only [mulAssign]
  refine ⟨f1, by rw [f2, Nat.mul_comm], ?_, ?_⟩
  · intro h
    exact f3 (by rw [Nat.mul_comm]; exact h)
  · rw [hv]
    simp only [value]
    cases a.sign <;> cases b.sign <;> simp <;> ring

/-! ## Construction from a machine integer -/

theorem tdiv_tmod_ten_nonneg (n : Nat) :
    Int.tdiv (n : Int) 10 = ((n / 10 : Nat) : Int) ∧ Int.tmod (n : Int) 10 = ((n % 10 : Nat) : Int) :=
  ⟨(Int.ofNat_tdiv n 10).symm, (Int.ofNat_tmod n 10).symm⟩

theorem tdiv_tmod_ten_nonpos (n : Nat) :
    Int.tdiv (-(n : Int)) 10 = -((n / 10 : Nat) : Int) ∧
      Int.tmod (-(n : Int)) 10 = -((n % 10 : Nat) : Int) := by
  have h1 : Int.tdiv (-(n : Int)) 10 = -((n / 10 : Nat) : Int) := by
    rw [Int.neg_tdiv, ← (tdiv_tmod_ten_nonneg n).1]
  refine ⟨h1, ?_⟩
  rw [Int.tmod_def, h1]
  push_cast
  omega

theorem ofIntLoop_spec (neg : Bool) (fuel : Nat) (n : Nat) (data : List Nat) (hf : n < fuel) :
    ∃ ds, ofIntLoop neg fuel (if neg then -(n : Int) else (n : Int)) data = ds ++ data ∧
      Canon ds ∧ mag ds = n := by
  induction fuel generalizing n data with
  | zero => omega
  | succ fuel ih =>
    have hd : (if neg then -(Int.tmod (if neg then -(n : Int) else (n : Int)) 10)
        else Int.tmod (if neg then -(n : Int) else (n : Int)) 10).toNat = n % 10 := by
      cases neg
      · simp only [Bool.false_eq_true, if_false, (tdiv_tmod_ten_nonneg n).2, Int.toNat_ofNat]
      · simp only [if_true, (tdiv_tmod_ten_nonpos n).2, neg_neg, Int.toNat_ofNat]
    have hq : Int.tdiv (if neg then -(n : Int) else (n : Int)) 10 =
        if neg then -((n / 10 : Nat) : Int) else ((n / 10 : Nat) : Int) := by
      cases neg
      · simp only [Bool.false_eq_true, if_false, (tdiv_tmod_ten_nonneg n).1]
      · simp only [if_true, (tdiv_tmod_ten_nonpos n).1]
    rw [ofIntLoop]
    simp only [hd, hq]
    by_cases h0 : n / 10 = 0
    · have hz : (if neg then -((n / 10 : Nat) : Int) else ((n / 10 : Nat) : Int)) = 0 := by
        rw [h0]
        cases neg <;> rfl
      rw [hz]
      refine ⟨[n % 10], by simp, ⟨by simp, ?_, by intro h; simpa using h⟩, ?_⟩
      · intro d hd2
        rw [List.mem_singleton.mp hd2]
        omega
      · simp only [mag, List.foldl_cons, List.foldl_nil]
        omega
    · have hnz : ((if neg then -((n / 10 : Nat) : Int) else ((n / 10 : Nat) : Int)) != 0) = true := by
        cases neg
        · simp only [Bool.false_eq_true, if_false, bne_iff_ne, ne_eq]
          omega
        · simp only [if_true, bne_iff_ne, ne_eq]
          omega
      rw [if_pos hnz]
      obtain ⟨ds, h1, h2, h3⟩ := ih (n / 10) (n % 10 :: data) (by omega)
      refine ⟨ds ++ [n % 10], by rw [h1]; simp, ⟨by simp, ?_, ?_⟩, ?_⟩
      · intro d hd2
        rcases List.mem_append.mp hd2 with hd2 | hd2
        · exact h2.2.1 d hd2
        · rw [List.mem_singleton.mp hd2]
          omega
      · intro hhead
        exfalso
        match ds, h2, h3, hhead with
        | e :: es, h2, h3, hhead =>
          simp only [List.cons_append, List.head?_cons, Option.some.injEq] at hhead
          subst hhead
          have := h2.2.2 rfl
          rw [this] at h3
          have hm : mag [0] = 0 := rfl
          omega
        | [], h2, _, _ => exact h2.1 rfl
      · rw [mag_append_singleton, h3]
        omega

theorem ofInt_spec (i : Int) : WellFormed (ofInt i) ∧ value (ofInt i) = i := by
  by_cases hi : i < 0
  · obtain ⟨ds, h1, h2, h3⟩ := ofIntLoop_spec true (i.natAbs + 1) i.natAbs [] (by omega)
    have e : (if true = true then -(i.natAbs : Int) else (i.natAbs : Int)) = i := by
      simp only [if_true]
      omega
    rw [e, List.append_nil] at h1
    simp only [ofInt, hi, if_true, h1, WellFormed, value]
    refine ⟨⟨h2, ?_⟩, by omega⟩
    intro h0
    rw [h0] at h3
    have hm : mag [0] = 0 := rfl
    omega
  · obtain ⟨ds, h1, h2, h3⟩ := ofIntLoop_spec false (i.natAbs + 1) i.natAbs [] (by omega)
    have e : (if false = true then -(i.natAbs : Int) else (i.natAbs : Int)) = i := by
      simp only [Bool.false_eq_true, if_false]
      omega
    rw [e, List.append_nil] at h1
    simp only [ofInt, hi, if_false, h1, WellFormed, value]
    exact ⟨⟨h2, fun _ => trivial⟩, by simp; omega⟩

theorem ofInt_sign_false (n : Nat) : (ofInt (n : Int)).sign = false := by
  have h : ¬ ((n : Int) < 0) := by omega
  simp only [ofInt, h, if_false]

/-! ## Division -/

/-- When `operator<` says that a non-negative accumulator, leading zeros and
all, is below a normal-form positive divisor, it is. -/
theorem lt_sound (s that : Integer) (hs : s.sign = false) (ht : that.sign = false)
    (hd : ∀ d ∈ s.data, d ≤ 9) (hc : Canon that.data) (hpos : 0 < mag that.data)
    (h : lt s that = true) : mag s.data < mag that.data := by
  simp only [lt, hs, ht, Bool.false_and, Bool.not_false, Bool.and_false, Bool.false_eq_true,
    if_false] at h
  by_cases h1 : s.data.length < that.data.length
  · have hS := mag_lt_pow s.data hd
    by_cases h2 : 2 ≤ that.data.length
    · have hB := pow_le_mag_of_canon that.data hc h2
      have hp : 10 ^ s.data.length ≤ 10 ^ (that.data.length - 1) :=
        Nat.pow_le_pow_right (by norm_num) (by omega)
      omega
    · have h0 : s.data.length = 0 := by omega
      rw [h0] at hS
      simp only [pow_zero] at hS
      omega
  · by_cases h2 : s.data.length > that.data.length
    · simp [h1, h2] at h
    · simp only [h1, h2, if_false] at h
      exact (lexLt_iff s.data that.data (by omega) hd hc.2.1).mp h

/-- On an empty or normal-form accumulator `operator<` finds every value below
the divisor. -/
theorem lt_complete (s that : Integer) (hs : s.sign = false) (ht : that.sign = false)
    (hd : s.data = [] ∨ Canon s.data) (hc : Canon that.data)
    (h : mag s.data < mag that.data) : lt s that = true := by
  rcases hd with hd | hd
  · have hl : s.data.length < that.data.length := by
      rw [hd]
      exact List.length_pos.mpr hc.1
    simp [lt, hs, ht, hl]
  · rw [lt_sign_false s that hs ht hd hc]
    simpa using h

theorem feed_spec (that : Integer) (ht : that.sign = false) (hc : Canon that.data)
    (hpos : 0 < mag that.data) (s : Integer) (xs : List Nat) (z : Nat)
    (hs : s.sign = false) (hd : ∀ d ∈ s.data, d ≤ 9) (hx : ∀ d ∈ xs, d ≤ 9) :
    ∃ taken, xs = taken ++ (feed that s xs z).2.1 ∧
      (feed that s xs z).1.data = s.data ++ taken ∧
      (feed that s xs z).1.sign = false ∧
      (feed that s xs z).2.2 = z + taken.length ∧
      (taken = [] ∨ mag (feed that s xs z).1.data < 10 * mag that.data) ∧
      (lt s that = true → xs ≠ [] → taken ≠ []) := by
  induction xs generalizing s z with
  | nil => exact ⟨[], by simp [feed, hs]⟩
  | cons d xs ih =>
    by_cases hlt : lt s that = true
    · have hd9 : d ≤ 9 := hx d (List.mem_cons_self _ _)
      have hsd : ∀ e ∈ s.data ++ [d], e ≤ 9 := by
        intro e he
        rcases List.mem_append.mp he with he | he
        · exact hd e he
        · rw [List.mem_singleton.mp he]
          exact hd9
      obtain ⟨taken, h1, h2, h3, h4, h5, _⟩ := ih { s with data := s.data ++ [d] } (z + 1) hs hsd
        (fun e he => hx e (List.mem_cons_of_mem _ he))
      have hS := lt_sound s that hs ht hd hc hpos hlt
      simp only [feed, hlt, if_true]
      refine ⟨d :: taken, ?_, ?_, h3, ?_, Or.inr ?_, fun _ _ => by simp⟩
      · rw [List.cons_append, ← h1]
      · rw [h2]
        simp
      · rw [h4]
        simp only [List.length_cons]
        omega
      · rcases h5 with h5 | h5
        · rw [h2, h5, List.append_nil, mag_append_singleton]
          omega
        · exact h5
    · simp only [feed, hlt, Bool.false_eq_true, if_false]
      exact ⟨[], by simp, by simp, hs, by simp, Or.inl rfl, fun h => h.elim⟩

theorem searchT_spec (that s : Integer) (ht : that.sign = false) (hw : WellFormed that)
    (hs : s.sign = false) (hws : WellFormed s) (fuel t : Nat)
    (h1 : mag that.data * t ≤ mag s.data) (h2 : mag s.data < mag that.data * (t + fuel)) :
    ∃ q, searchT that s fuel t = some q ∧ mag that.data * q ≤ mag s.data ∧
      mag s.data < mag that.data * (q + 1) := by
  induction fuel generalizing t with
  | zero =>
    simp only [Nat.add_zero] at h2
    omega
  | succ fuel ih =>
    obtain ⟨m1, _, _, m4⟩ := mulAssign_spec that (ofInt ((t + 1 : Nat) : Int)) hw (ofInt_spec _).1
    have hv : value (mul that (ofInt ((t + 1 : Nat) : Int))) =
        ((mag that.data * (t + 1) : Nat) : Int) := by
      rw [mul, m4, (ofInt_spec _).2, value_of_sign_false that ht]
      push_cast
      rfl
    have hlt := lt_iff_value s (mul that (ofInt ((t + 1 : Nat) : Int))) hws m1
    rw [hv, value_of_sign_false s hs] at hlt
    rw [searchT]
    by_cases hc : mag that.data * (t + 1) ≤ mag s.data
    · have hle : le (mul that (ofInt ((t + 1 : Nat) : Int))) s = true := by
        simp only [le, Bool.not_eq_true', Bool.eq_false_iff, ne_eq, hlt]
        omega
      rw [if_pos hle]
      have e : t + 1 + fuel = t + (fuel + 1) := by omega
      exact ih (t + 1) hc (by rw [e]; exact h2)
    · have hle : ¬ (le (mul that (ofInt ((t + 1 : Nat) : Int))) s = true) := by
        simp only [le, Bool.not_eq_true', Bool.eq_false_iff, ne_eq, hlt, not_not]
        omega
      rw [if_neg hle]
      exact ⟨t, rfl, h1, by omega⟩

theorem replicate_set (L j t : Nat) (h : j < L) :
    (List.replicate L 0).set j t = List.replicate j 0 ++ t :: List.replicate (L - j - 1) 0 := by
  induction j generalizing L with
  | zero =>
    cases L with
    | zero => omega
    | succ L => simp [List.replicate_succ]
  | succ j ih =>
    cases L with
    | zero => omega
    | succ L =>
      rw [List.replicate_succ, List.set_cons_succ, ih L (by omega), List.replicate_succ]
      simp

theorem set_pad (Q : List Nat) (k L t : Nat) (hk : 1 ≤ k) (hkL : k ≤ L) :
    (Q ++ List.replicate L 0).set (Q.length + k - 1) t =
      (Q ++ List.replicate (k - 1) 0 ++ [t]) ++ List.replicate (L - k) 0 := by
  rw [List.set_append]
  have h1 : ¬ (Q.length + k - 1 < Q.length) := by omega
  rw [if_neg h1]
  have h2 : Q.length + k - 1 - Q.length = k - 1 := by omega
  rw [h2, replicate_set L (k - 1) t (by omega)]
  have h3 : L - (k - 1) - 1 = L - k := by omega
  rw [h3]
  simp

theorem divLoop_succ (that : Integer) (tfuel fuel : Nat) (s : Integer) (xs : List Nat)
    (z : Nat) (rval : List Nat) :
    divLoop that tfuel (fuel + 1) s xs z rval =
      match searchT that (Integer.mk (stripLeadingZeros (feed that s xs z).1.data)
          (feed that s xs z).1.sign) tfuel 0 with
      | none => none
      | some t =>
        if (feed that s xs z).2.2 - 1 + 1 < (rval.set ((feed that s xs z).2.2 - 1) t).length then
          divLoop that tfuel fuel
            (subAssign (Integer.mk (stripLeadingZeros (feed that s xs z).1.data)
              (feed that s xs z).1.sign) (mul that (ofInt (t : Int))))
            (feed that s xs z).2.1 ((feed that s xs z).2.2 - 1 + 1)
            (rval.set ((feed that s xs z).2.2 - 1) t)
        else some (rval.set ((feed that s xs z).2.2 - 1) t) := rfl

theorem divLoop_spec (that : Integer) (ht : that.sign = false) (hw : WellFormed that)
    (hpos : 0 < mag that.data) (tfuel : Nat) (htf : 10 ≤ tfuel) (fuel : Nat) :
    ∀ (s : Integer) (xs : List Nat) (z : Nat) (Q : List Nat) (P : Nat),
      xs ≠ [] → xs.length ≤ fuel → (∀ d ∈ xs, d ≤ 9) → s.sign = false →
      (s.data = [] ∨ Canon s.data) → mag s.data < mag that.data → z = Q.length →
      (∀ d ∈ Q, d ≤ 9) → mag Q * mag that.data + mag s.data = P →
      ∃ out, divLoop that tfuel fuel s xs z (Q ++ List.replicate xs.length 0) = some out ∧
        out.length = Q.length + xs.length ∧ (∀ d ∈ out, d ≤ 9) ∧
        mag out * mag that.data ≤ P * 10 ^ xs.length + mag xs ∧
        P * 10 ^ xs.length + mag xs < (mag out + 1) * mag that.data := by
  induction fuel with
  | zero =>
    intro s xs z Q P hne hlen
    have := List.length_pos.mpr hne
    omega
  | succ fuel ih =>
    intro s xs z Q P hne hlen hx hs hsd hsm hz hQ hP
    have hsd9 : ∀ d ∈ s.data, d ≤ 9 := by
      rcases hsd with h | h
      · rw [h]; simp
      · exact h.2.1
    obtain ⟨taken, f1, f2, f3, f4, f5, f6⟩ := feed_spec that ht hw.1 hpos s xs z hs hsd9 hx
    have htne : taken ≠ [] := f6 (lt_complete s that hs ht hsd hw.1 hsm) hne
    have hS1 : mag (s.data ++ taken) < 10 * mag that.data := by
      rcases f5 with h | h
      · exact absurd h htne
      · rw [f2] at h; exact h
    have hk : 1 ≤ taken.length := List.length_pos.mpr htne
    have hs1d : ∀ d ∈ s.data ++ taken, d ≤ 9 := by
      intro d hd
      rcases List.mem_append.mp hd with hd | hd
      · exact hsd9 d hd
      · exact hx d (by rw [f1]; exact List.mem_append_left _ hd)
    have hs1ne : s.data ++ taken ≠ [] := by simp [htne]
    have hws1 : WellFormed { data := stripLeadingZeros (s.data ++ taken), sign := false } :=
      ⟨stripLeadingZeros_canon _ hs1ne hs1d, fun _ => rfl⟩
    have hm1 : mag (stripLeadingZeros (s.data ++ taken)) = mag (s.data ++ taken) :=
      stripLeadingZeros_mag _
    obtain ⟨q, q1, q2, q3⟩ := searchT_spec that
      { data := stripLeadingZeros (s.data ++ taken), sign := false } ht hw rfl hws1 tfuel 0
      (by simp) (by
        rw [hm1, Nat.zero_add]
        have : mag that.data * 10 ≤ mag that.data * tfuel := Nat.mul_le_mul_left _ htf
        omega)
    rw [hm1] at q2 q3
    have hq9 : q ≤ 9 := by
      by_contra hcon
      have : mag that.data * 10 ≤ mag that.data * q := Nat.mul_le_mul_left _ (by omega)
      omega
    -- the new accumulator
    obtain ⟨m1, _, _, m4⟩ := mulAssign_spec that (ofInt (q : Int)) hw (ofInt_spec _).1
    have hvp : value (mul that (ofInt (q : Int))) = ((mag that.data * q : Nat) : Int) := by
      rw [mul, m4, (ofInt_spec _).2, value_of_sign_false that ht]
      push_cast
      rfl
    obtain ⟨u1, u2⟩ := subAssign_spec
      { data := stripLeadingZeros (s.data ++ taken), sign := false } (mul that (ofInt (q : Int)))
      hws1 m1
    rw [hvp, value_of_sign_false { data := stripLeadingZeros (s.data ++ taken), sign := false }
      rfl] at u2
    simp only [hm1] at u2
    generalize hs2 : subAssign { data := stripLeadingZeros (s.data ++ taken), sign := false }
      (mul that (ofInt (q : Int))) = s2 at u1 u2
    have hs2sign : s2.sign = false := by
      cases hsg : s2.sign
      · rfl
      · have := mag_pos_of_sign s2 u1 hsg
        rw [value_of_sign_true s2 hsg] at u2
        omega
    rw [value_of_sign_false s2 hs2sign] at u2
    have hs2m : mag s2.data + mag that.data * q = mag (s.data ++ taken) := by omega
    -- the quotient buffer
    have hxl : xs.length = taken.length + (feed that s xs z).2.1.length := by
      conv_lhs => rw [f1]
      simp
    have hset := set_pad Q taken.length xs.length q hk (by omega)
    have hzz : (feed that s xs z).2.2 - 1 = Q.length + taken.length - 1 := by
      rw [f4, hz]
    have hL : xs.length - taken.length = (feed that s xs z).2.1.length := by omega
    rw [hL] at hset
    have hQ2 : ∀ d ∈ Q ++ List.replicate (taken.length - 1) 0 ++ [q], d ≤ 9 := by
      intro d hd
      rcases List.mem_append.mp hd with hd | hd
      · rcases List.mem_append.mp hd with hd | hd
        · exact hQ d hd
        · rw [(List.mem_replicate.mp hd).2]; omega
      · rw [List.mem_singleton.mp hd]; exact hq9
    have hQ2len : (Q ++ List.replicate (taken.length - 1) 0 ++ [q]).length =
        Q.length + taken.length := by
      simp
      omega
    have hQ2mag : mag (Q ++ List.replicate (taken.length - 1) 0 ++ [q]) * mag that.data +
        mag s2.data = P * 10 ^ taken.length + mag taken := by
      rw [mag_append_singleton, mag_append, mag_replicate_zero, List.length_replicate]
      rw [mag_append] at hs2m
      have hpow : 10 ^ taken.length = 10 * 10 ^ (taken.length - 1) := by
        rw [← pow_succ']
        congr 1
        omega
      rw [hpow] at hs2m ⊢
      rw [← hP]
      generalize 10 ^ (taken.length - 1) = p at hs2m ⊢
      have e1 : (10 * (mag Q * p + 0) + q) * mag that.data + mag s2.data =
          10 * mag Q * p * mag that.data + (mag s2.data + mag that.data * q) := by ring
      rw [e1, hs2m]
      ring
    have hs2lt : mag s2.data < mag that.data := by
      have e := Nat.mul_add (mag that.data) q 1
      rw [Nat.mul_one] at e
      omega
    rw [divLoop_succ, f2, f3, hzz, q1]
    simp only []
    rw [hset, hs2]
    by_cases hrest : (feed that s xs z).2.1 = []
    · have hlen0 : (feed that s xs z).2.1.length = 0 := by rw [hrest]; rfl
      have hcond : ¬ (Q.length + taken.length - 1 + 1 <
          (Q ++ List.replicate (taken.length - 1) 0 ++ [q] ++
            List.replicate (feed that s xs z).2.1.length 0).length) := by
        rw [List.length_append, hQ2len, hlen0]
        simp
        omega
      rw [if_neg hcond]
      refine ⟨_, rfl, ?_, ?_, ?_, ?_⟩
      · rw [List.length_append, hQ2len, hxl, hlen0]
        simp
      · rw [hlen0]
        simpa using hQ2
      · rw [hlen0, List.replicate_zero, List.append_nil]
        have hxs : xs = taken := by rw [f1, hrest, List.append_nil]
        rw [hxs, ← hQ2mag]
        omega
      · rw [hlen0, List.replicate_zero, List.append_nil]
        have hxs : xs = taken := by rw [f1, hrest, List.append_nil]
        rw [hxs, ← hQ2mag, Nat.add_mul, Nat.one_mul]
        omega
    · have hlenpos : 0 < (feed that s xs z).2.1.length := List.length_pos.mpr hrest
      have hcond : Q.length + taken.length - 1 + 1 <
          (Q ++ List.replicate (taken.length - 1) 0 ++ [q] ++
            List.replicate (feed that s xs z).2.1.length 0).length := by
        rw [List.length_append, hQ2len]
        simp
        omega
      rw [if_pos hcond]
      obtain ⟨out, o1, o2, o3, o4, o5⟩ := ih s2 (feed that s xs z).2.1
        (Q.length + taken.length - 1 + 1) (Q ++ List.replicate (taken.length - 1) 0 ++ [q])
        (P * 10 ^ taken.length + mag taken) hrest (by omega)
        (fun d hd => hx d (by rw [f1]; exact List.mem_append_right _ hd)) hs2sign
        (Or.inr u1.1) hs2lt (by rw [hQ2len]; omega) hQ2 hQ2mag
      refine ⟨out, o1, ?_, o3, ?_, ?_⟩
      · rw [o2, hQ2len, hxl]
        omega
      · have e : P * 10 ^ xs.length + mag xs =
            (P * 10 ^ taken.length + mag taken) * 10 ^ (feed that s xs z).2.1.length +
              mag (feed that s xs z).2.1 := by
          conv_lhs => rw [f1, mag_append, List.length_append, pow_add]
          ring
        rw [e]
        exact o4
      · have e : P * 10 ^ xs.length + mag xs =
            (P * 10 ^ taken.length + mag taken) * 10 ^ (feed that s xs z).2.1.length +
              mag (feed that s xs z).2.1 := by
          conv_lhs => rw [f1, mag_append, List.length_append, pow_add]
          ring
        rw [e]
        exact o5

theorem mag_pos_of_ne_ZERO (b : Integer) (hb : WellFormed b) (h : b ≠ ZERO) : 0 < mag b.data := by
  apply mag_pos_of_canon b.data hb.1
  intro h0
  apply h
  have hs := hb.2 h0
  cases b
  simp only at h0 hs
  rw [h0, hs]
  rfl

theorem value_signed (x : Integer) :
    value x = if x.sign then -(mag x.data : Int) else (mag x.data : Int) := rfl

theorem tdiv_signed (sa sb : Bool) (A B : Nat) :
    Int.tdiv (if sa then -(A : Int) else (A : Int)) (if sb then -(B : Int) else (B : Int)) =
      if xor sa sb then -((A / B : Nat) : Int) else ((A / B : Nat) : Int) := by
  cases sa <;> cases sb <;>
    simp only [Bool.false_eq_true, if_false, if_true, Bool.xor_false, Bool.xor_true, Bool.not_false,
      Bool.not_true, Int.neg_tdiv, Int.tdiv_neg, neg_neg, Int.ofNat_tdiv, Bool.false_xor,
      Bool.true_xor]

/-- Division by a nonzero divisor: with enough fuel the loops finish, and the
quotient is well-formed, has magnitude `|a| / |b|` and the XOR sign. -/
theorem divAssign_spec (fuel : Nat) (a b : Integer) (ha : WellFormed a) (hb : WellFormed b)
    (hb0 : b ≠ ZERO) (h10 : 10 ≤ fuel) (hsz : a.size ≤ fuel) :
    ∃ q, divAssign false fuel a b = some (.ok q) ∧ WellFormed q ∧
      mag q.data = mag a.data / mag b.data ∧
      (mag a.data / mag b.data ≠ 0 → q.sign = xor a.sign b.sign) ∧
      value q = Int.tdiv (value a) (value b) := by
  have hB := mag_pos_of_ne_ZERO b hb hb0
  have heq : eq b ZERO = false := by
    cases h : eq b ZERO
    · rfl
    · exact absurd ((eq_iff_eq b ZERO).mp h) hb0
  have hgt : gt { data := b.data, sign := false } { data := a.data, sign := false } =
      decide (mag a.data < mag b.data) :=
    lt_sign_false { data := a.data, sign := false } { data := b.data, sign := false } rfl rfl
      ha.1 hb.1
  simp only [divAssign, heq, Bool.false_eq_true, if_false, hgt, decide_eq_true_eq]
  rw [value_signed a, value_signed b, tdiv_signed]
  by_cases hlt : mag a.data < mag b.data
  · rw [if_pos hlt]
    have hq : mag a.data / mag b.data = 0 := Nat.div_eq_of_lt hlt
    refine ⟨_, rfl, by decide, ?_, ?_, ?_⟩
    · rw [hq]; rfl
    · intro h; exact absurd hq h
    · rw [hq]
      cases (xor a.sign b.sign) <;> rfl
  · rw [if_neg hlt]
    have hwb : WellFormed { data := b.data, sign := false } := ⟨hb.1, fun _ => rfl⟩
    obtain ⟨out, o1, o2, o3, o4, o5⟩ := divLoop_spec { data := b.data, sign := false } rfl hwb hB
      fuel h10 fuel { data := [], sign := false } a.data 0 [] 0 ha.1.1 hsz ha.1.2.1 rfl
      (Or.inl rfl) hB rfl (by simp) (by simp [mag])
    simp only [List.nil_append, Nat.zero_mul, Nat.zero_add, List.length_nil] at o1 o2 o4 o5
    have hq : mag a.data / mag b.data = mag out :=
      Nat.div_eq_of_lt_le o4 o5
    have hq1 : 1 ≤ mag a.data / mag b.data := by
      rw [Nat.le_div_iff_mul_le hB]
      omega
    have hone : out ≠ [] := by
      intro h
      rw [h] at o2
      have := List.length_pos.mpr ha.1.1
      simp at o2
      omega
    simp only [size, o1]
    refine ⟨_, rfl, ⟨stripLeadingZeros_canon out hone o3, ?_⟩, ?_, fun _ => rfl, ?_⟩
    · intro h0
      have hm := stripLeadingZeros_mag out
      simp only at h0
      rw [h0] at hm
      have hz : mag [0] = 0 := rfl
      omega
    · simp only [stripLeadingZeros_mag, hq]
    · simp only [value, stripLeadingZeros_mag, hq]

theorem divAssign_ZERO (fuel : Nat) (a : Integer) :
    divAssign false fuel a ZERO = some (.error .invalid_argument) := rfl

theorem divAssign_error_iff (fuel : Nat) (a b : Integer) :
    divAssign false fuel a b = some (.error .invalid_argument) ↔ b = ZERO := by
  constructor
  · intro h
    by_contra hne
    have heq : eq b ZERO = false := by
      cases h2 : eq b ZERO
      · rfl
      · exact absurd ((eq_iff_eq b ZERO).mp h2) hne
    simp only [divAssign, heq, Bool.false_eq_true, if_false] at h
    split at h
    · cases h
    · split at h
      · cases h
      · cases h
  · intro h
    rw [h]
    rfl

/-! ## Modulo -/

theorem add_def (a b : Integer) : add a b = addAssign a b := rfl

theorem sub_def (a b : Integer) : sub a b = subAssign a b := rfl

theorem mul_def (a b : Integer) : mul a b = mulAssign a b := rfl

theorem sign_false_of_nonneg (x : Integer) (hx : WellFormed x) (h : 0 ≤ value x) :
    x.sign = false := by
  cases hs : x.sign
  · rfl
  · have h1 := mag_pos_of_sign x hx hs
    rw [value_of_sign_true x hs] at h
    omega

theorem ne_ZERO_of_pos (b : Integer) (h : 0 < value b) : b ≠ ZERO := by
  intro h0
  rw [h0, value_ZERO] at h
  exact absurd h (lt_irrefl _)

/-- Modulo on its domain: the two checks pass, the division succeeds, and the
result is well-formed with value `|a| % |b|`. -/
theorem modAssign_spec (fuel : Nat) (a b : Integer) (ha : WellFormed a) (hb : WellFormed b)
    (ha0 : 0 ≤ value a) (hb0 : 0 < value b) (h10 : 10 ≤ fuel) (hsz : a.size ≤ fuel) :
    ∃ q r, divAssign false fuel a b = some (.ok q) ∧ modAssign fuel a b = some (.ok r) ∧
      WellFormed q ∧ WellFormed r ∧ value q = value a / value b ∧
      value r = value a % value b := by
  have hsa := sign_false_of_nonneg a ha ha0
  have hsb := sign_false_of_nonneg b hb (le_of_lt hb0)
  obtain ⟨q, q1, q2, q3, _, q5⟩ := divAssign_spec fuel a b ha hb (ne_ZERO_of_pos b hb0) h10 hsz
  have hle : le b ZERO = false := by
    have := lt_iff_value ZERO b wellFormed_ZERO hb
    rw [value_ZERO] at this
    simp only [le, Bool.not_eq_false']
    exact this.mpr hb0
  have hlt : lt a ZERO = false := by
    have := lt_iff_value a ZERO ha wellFormed_ZERO
    rw [value_ZERO] at this
    cases h : lt a ZERO
    · rfl
    · have := this.mp h
      omega
  obtain ⟨m1, _, _, m4⟩ := mulAssign_spec q b q2 hb
  obtain ⟨s1, s2⟩ := subAssign_spec a (mul q b) ha m1
  have hqv : value q = value a / value b := by
    rw [q5, Int.tdiv_eq_ediv ha0 (le_of_lt hb0)]
  refine ⟨q, subAssign a (mul q b), q1, ?_, q2, s1, hqv, ?_⟩
  · simp only [modAssign, hle, hlt, Bool.false_eq_true, if_false, div, q1]
  · rw [s2, mul_def, m4, hqv, Int.emod_def]
    ring

/-! ## Claims on the arithmetic operators -/

/-- C1: for well-formed `a` and `b`, `a + b` (`operator+`, through
`operator+=`) is the well-formed Integer denoting `value a + value b`, for
every combination of signs and lengths and also when an operand is zero. -/
theorem add_correct (a b : Integer) (ha : WellFormed a) (hb : WellFormed b) :
    value (add a b) = value a + value b ∧ value (addAssign a b) = value a + value b ∧
      WellFormed (add a b) :=
  ⟨(addAssign_spec a b ha hb).2, (addAssign_spec a b ha hb).2, (addAssign_spec a b ha hb).1⟩

theorem add_correct_witness :
    WellFormed (ofInt 95) ∧ WellFormed (ofInt (-1007)) ∧
      value (add (ofInt 95) (ofInt (-1007))) = value (ofInt 95) + value (ofInt (-1007)) :=
  ⟨by decide, by decide, (add_correct (ofInt 95) (ofInt (-1007)) (by decide) (by decide)).1⟩

/-- C2: for well-formed `a` and `b`, `a - b` (`operator-`, through
`operator-=`) is the well-formed Integer denoting `value a - value b`; so
`0 - 5` is `-5`, `(-3) - (-5)` is `2`, and `x - x` is the non-negative zero. -/
theorem sub_correct (a b : Integer) (ha : WellFormed a) (hb : WellFormed b) :
    value (sub a b) = value a - value b ∧ value (subAssign a b) = value a - value b ∧
      WellFormed (sub a b) ∧ sub a a = ZERO ∧
      sub (ofInt 0) (ofInt 5) = ofInt (-5) ∧ sub (ofInt (-3)) (ofInt (-5)) = ofInt 2 := by
  refine ⟨(subAssign_spec a b ha hb).2, (subAssign_spec a b ha hb).2,
    (subAssign_spec a b ha hb).1, ?_, by decide, by decide⟩
  apply value_inj _ _ (subAssign_spec a a ha ha).1 wellFormed_ZERO
  rw [(subAssign_spec a a ha ha).2, value_ZERO]
  omega

theorem sub_correct_witness :
    WellFormed (ofInt (-3)) ∧ WellFormed (ofInt 1000) ∧
      value (sub (ofInt (-3)) (ofInt 1000)) = value (ofInt (-3)) - value (ofInt 1000) :=
  ⟨by decide, by decide, (sub_correct (ofInt (-3)) (ofInt 1000) (by decide) (by decide)).1⟩

/-- C3: for well-formed `a` and `b`, `a * b` denotes `value a * value b`: the
schoolbook accumulation fills a buffer of `size a + size b` digits with the
product of the magnitudes, skipping zero multiplier digits changes nothing,
and the sign is the XOR of the operand signs unless the product is zero. -/
theorem mul_correct (a b : Integer) (ha : WellFormed a) (hb : WellFormed b) :
    value (mul a b) = value a * value b ∧
    mag (mul a b).data = mag a.data * mag b.data ∧
    (mulLoop a.data.reverse b.data.reverse 0 (List.replicate (a.size + b.size) 0)).length =
      a.size + b.size ∧
    mag (mulLoop a.data.reverse b.data.reverse 0
      (List.replicate (a.size + b.size) 0)).reverse = mag a.data * mag b.data ∧
    mulLoop a.data.reverse b.data.reverse 0 (List.replicate (a.size + b.size) 0) =
      mulLoopDense a.data.reverse b.data.reverse 0 (List.replicate (a.size + b.size) 0) ∧
    (mag a.data * mag b.data ≠ 0 → (mul a b).sign = xor a.sign b.sign) ∧
    (mag a.data * mag b.data = 0 → (mul a b).sign = false) ∧
    WellFormed (mul a b) := by
  obtain ⟨m1, m2, m3, m4⟩ := mulAssign_spec a b ha hb
  have hx : ∀ d ∈ a.data.reverse, d ≤ 9 := fun d hd => ha.1.2.1 d (List.mem_reverse.mp hd)
  have hy : ∀ d ∈ b.data.reverse, d ≤ 9 := fun d hd => hb.1.2.1 d (List.mem_reverse.mp hd)
  obtain ⟨l1, _, l3, l4⟩ := mulLoop_spec a.data.reverse b.data.reverse 0
    (List.replicate (a.size + b.size) 0) hx hy
    (by simp [size]; omega)
    (by intro d hd; rw [(List.mem_replicate.mp hd).2]; omega)
    (by intro d hd; exact (List.mem_replicate.mp (List.mem_of_mem_drop hd)).2)
  have hE0 : Nat.ofDigits 10 (List.replicate (a.size + b.size) 0) = 0 := by
    have h := mag_replicate_zero (a.size + b.size)
    rw [mag_eq_ofDigits, List.reverse_replicate] at h
    exact h
  refine ⟨m4, m2, ?_, ?_, l4, m3, ?_, m1⟩
  · rw [l1, List.length_replicate]
  · rw [mag_reverse, l3, hE0, ofDigits_reverse, ofDigits_reverse]
    simp [Nat.mul_comm]
  · intro h0
    apply m1.2
    apply mag_eq_zero_of_canon _ m1.1
    rw [m2, h0]

theorem mul_correct_witness :
    WellFormed (ofInt (-1203)) ∧ WellFormed (ofInt 1002) ∧
      value (mul (ofInt (-1203)) (ofInt 1002)) = value (ofInt (-1203)) * value (ofInt 1002) :=
  ⟨by decide, by decide, (mul_correct (ofInt (-1203)) (ofInt 1002) (by decide) (by decide)).1⟩

/-- The friend `operator/`, which is `operator/=` on a copy of the left operand
and so on two distinct objects: for well-formed `a` and nonzero well-formed
`b`, with enough fuel for the loops, it returns the Integer whose magnitude is
`|a| / |b|` rounded down and whose sign is the XOR of the operand signs when
that magnitude is nonzero and false when it is zero: the quotient truncated
toward zero, which is `ZERO` whenever `|b| > |a|`. -/
theorem div_correct (fuel : Nat) (a b : Integer) (ha : WellFormed a) (hb : WellFormed b)
    (hb0 : b ≠ ZERO) (hfuel : a.size + 10 ≤ fuel) :
    ∃ q, div fuel a b = some (.ok q) ∧
      mag q.data = mag a.data / mag b.data ∧
      (mag q.data ≠ 0 → q.sign = xor a.sign b.sign) ∧
      (mag q.data = 0 → q.sign = false) ∧
      value q = Int.tdiv (value a) (value b) ∧
      (mag a.data < mag b.data → q = ZERO) := by
  obtain ⟨q, q1, q2, q3, q4, q5⟩ := divAssign_spec fuel a b ha hb hb0 (by omega) (by omega)
  have hz : mag q.data = 0 → q = ZERO := by
    intro h0
    apply value_inj q ZERO q2 wellFormed_ZERO
    rw [value_ZERO, value_signed, h0]
    cases q.sign <;> rfl
  refine ⟨q, q1, q3, ?_, ?_, q5, ?_⟩
  · intro h
    rw [q3] at h
    exact q4 h
  · intro h0
    rw [hz h0]
    rfl
  · intro hlt
    apply hz
    rw [q3]
    exact Nat.div_eq_of_lt hlt

theorem div_correct_witness :
    WellFormed (ofInt (-1000)) ∧ WellFormed (ofInt 7) ∧ ofInt 7 ≠ ZERO ∧
      (ofInt (-1000)).size + 10 ≤ 14 ∧
      ∃ q, div 14 (ofInt (-1000)) (ofInt 7) = some (.ok q) ∧
        mag q.data = mag (ofInt (-1000)).data / mag (ofInt 7).data ∧
        (mag q.data ≠ 0 → q.sign = xor (ofInt (-1000)).sign (ofInt 7).sign) ∧
        (mag q.data = 0 → q.sign = false) ∧
        value q = Int.tdiv (value (ofInt (-1000))) (value (ofInt 7)) ∧
        (mag (ofInt (-1000)).data < mag (ofInt 7).data → q = ZERO) :=
  ⟨by decide, by decide, by decide, by decide,
    div_correct 14 (ofInt (-1000)) (ofInt 7) (by decide) (by decide) (by decide) (by decide)⟩

/-- C5: for well-formed `a >= 0` and `b > 0`, with enough fuel for the loops,
neither `a / b` nor `a % b` fails, `(a / b) * b + (a % b) == a` under
`operator==`, and `ZERO <= a % b` and `a % b < b` under the Integer ordering. -/
theorem div_mod_relation (fuel : Nat) (a b : Integer) (ha : WellFormed a) (hb : WellFormed b)
    (ha0 : 0 ≤ value a) (hb0 : 0 < value b) (hfuel : a.size + 10 ≤ fuel) :
    ∃ q r, div fuel a b = some (.ok q) ∧ mod fuel a b = some (.ok r) ∧
      eq (add (mul q b) r) a = true ∧ le ZERO r = true ∧ lt r b = true := by
  obtain ⟨q, r, h1, h2, wq, wr, vq, vr⟩ :=
    modAssign_spec fuel a b ha hb ha0 hb0 (by omega) (by omega)
  obtain ⟨m1, _, _, m4⟩ := mulAssign_spec q b wq hb
  obtain ⟨s1, s2⟩ := addAssign_spec (mul q b) r m1 wr
  refine ⟨q, r, h1, h2, ?_, ?_, ?_⟩
  · rw [add_def, eq_iff_value _ _ s1 ha, s2, mul_def, m4, vq, vr]
    exact Int.ediv_add_emod' (value a) (value b)
  · have h := lt_iff_value r ZERO wr wellFormed_ZERO
    rw [value_ZERO, vr] at h
    simp only [le, Bool.not_eq_true', Bool.eq_false_iff, ne_eq, h, not_lt]
    exact Int.emod_nonneg _ (ne_of_gt hb0)
  · rw [lt_iff_value r b wr hb, vr]
    exact Int.emod_lt_of_pos _ hb0

theorem div_mod_relation_witness :
    WellFormed (ofInt 1000) ∧ WellFormed (ofInt 7) ∧ 0 ≤ value (ofInt 1000) ∧
      0 < value (ofInt 7) ∧ (ofInt 1000).size + 10 ≤ 14 ∧
      ∃ q r, div 14 (ofInt 1000) (ofInt 7) = some (.ok q) ∧
        mod 14 (ofInt 1000) (ofInt 7) = some (.ok r) ∧
        eq (add (mul q (ofInt 7)) r) (ofInt 1000) = true ∧ le ZERO r = true ∧
        lt r (ofInt 7) = true :=
  ⟨by decide, by decide, by decide, by decide, by decide,
    div_mod_relation 14 (ofInt 1000) (ofInt 7) (by decide) (by decide) (by decide) (by decide)
      (by decide)⟩

/-- C6: every arithmetic operator preserves the representation invariant: for
well-formed `a` and `b`, each of `a + b`, `a - b`, `a * b`, `a / b` (when `b`
is not zero) and `a % b` (when `a >= 0` and `b > 0`) has a non-empty digit
sequence of digits in `0..9`, without a leading zero unless it is the single
digit `0`, and with sign false when it is the single digit `0`. -/
theorem arithmetic_preserves_wellFormed (fuel : Nat) (a b : Integer) (ha : WellFormed a)
    (hb : WellFormed b) (hfuel : a.size + 10 ≤ fuel) :
    WellFormed (add a b) ∧ WellFormed (sub a b) ∧ WellFormed (mul a b) ∧
    (b ≠ ZERO → ∃ q, div fuel a b = some (.ok q) ∧ WellFormed q) ∧
    (0 ≤ value a → 0 < value b → ∃ r, mod fuel a b = some (.ok r) ∧ WellFormed r) ∧
    (∀ x : Integer, WellFormed x ↔
      (x.data ≠ [] ∧ (∀ d ∈ x.data, d ≤ 9) ∧ (x.data.head? = some 0 → x.data = [0])) ∧
        (x.data = [0] → x.sign = false)) := by
  refine ⟨(addAssign_spec a b ha hb).1, (subAssign_spec a b ha hb).1,
    (mulAssign_spec a b ha hb).1, ?_, ?_, fun x => Iff.rfl⟩
  · intro hb0
    obtain ⟨q, q1, q2, _⟩ := divAssign_spec fuel a b ha hb hb0 (by omega) (by omega)
    exact ⟨q, q1, q2⟩
  · intro ha0 hb0
    obtain ⟨q, r, _, h2, _, wr, _⟩ := modAssign_spec fuel a b ha hb ha0 hb0 (by omega) (by omega)
    exact ⟨r, h2, wr⟩

theorem arithmetic_preserves_wellFormed_witness :
    WellFormed (ofInt 999) ∧ WellFormed (ofInt (-999)) ∧ (ofInt 999).size + 10 ≤ 13 ∧
      WellFormed (add (ofInt 999) (ofInt (-999))) :=
  ⟨by decide, by decide, by decide,
    (arithmetic_preserves_wellFormed 13 (ofInt 999) (ofInt (-999)) (by decide) (by decide)
      (by decide)).1⟩

/-! ## Output and the round trip through text -/

theorem repr_digit (d : Nat) (h : d ≤ 9) : (Nat.repr d).data = [Char.ofNat (48 + d)] := by
  interval_cases d <;> rfl

theorem render_eq (x : Integer) (h : ∀ d ∈ x.data, d ≤ 9) :
    render x = (if x.sign then ['-'] else []) ++ x.data.map (fun d => Char.ofNat (48 + d)) := by
  have e : x.data.flatMap (fun d => (Nat.repr d).data) =
      x.data.map (fun d => Char.ofNat (48 + d)) := by
    generalize x.data = ds at h
    induction ds with
    | nil => rfl
    | cons d ds ih =>
      rw [List.flatMap_cons, List.map_cons, repr_digit d (h d (List.mem_cons_self _ _)),
        ih (fun e he => h e (List.mem_cons_of_mem _ he))]
      rfl
  rw [render, e]

theorem digitChar_isDigit (d : Nat) (h : d ≤ 9) : (Char.ofNat (48 + d)).isDigit = true := by
  interval_cases d <;> rfl

theorem digitChar_toNat (d : Nat) (h : d ≤ 9) : (Char.ofNat (48 + d)).toNat - 48 = d := by
  interval_cases d <;> rfl

theorem digitChars_back (ds : List Nat) (h : ∀ d ∈ ds, d ≤ 9) :
    (ds.map (fun d => Char.ofNat (48 + d))).map (fun c => c.toNat - 48) = ds := by
  induction ds with
  | nil => rfl
  | cons d ds ih =>
    rw [List.map_cons, List.map_cons, digitChar_toNat d (h d (List.mem_cons_self _ _)),
      ih (fun e he => h e (List.mem_cons_of_mem _ he))]

theorem buildDigits_digitChars (x : Integer) (hx : WellFormed x) (sign : Bool)
    (hs : x.data ≠ [0] → sign = x.sign) :
    buildDigits (x.data.map (fun d => Char.ofNat (48 + d))) sign =
      { data := x.data, sign := x.sign, thrown := false } := by
  have hne : x.data.map (fun d => Char.ofNat (48 + d)) ≠ [] := by
    simpa using hx.1.1
  have hd : ∀ c ∈ x.data.map (fun d => Char.ofNat (48 + d)), c.isDigit = true := by
    intro c hc
    obtain ⟨d, hd, rfl⟩ := List.mem_map.mp hc
    exact digitChar_isDigit d (hx.1.2.1 d hd)
  obtain ⟨data, sign2, h1, h2, h3, h4, h5⟩ := buildDigits_ok _ sign hne hd
  rw [digitsValue_eq_mag, digitChars_back x.data hx.1.2.1] at h3
  have hdata : data = x.data := canon_unique data x.data h2 hx.1 h3
  subst hdata
  have hsign : sign2 = x.sign := by
    by_cases h0 : x.data = [0]
    · rw [h4 h0, hx.2 h0]
    · rw [h5 h0, hs h0]
  rw [h1, hsign]

theorem ofString_render (x : Integer) (hx : WellFormed x) : ofString (render x) = .ok x := by
  rw [render_eq x hx.1.2.1]
  cases hs : x.sign
  · simp only [Bool.false_eq_true, if_false, List.nil_append]
    have hb := buildDigits_digitChars x hx false (fun _ => hs.symm)
    match hd : x.data, hx.1.1 with
    | d :: ds, _ =>
      rw [hd] at hb
      have hc : Char.ofNat (48 + d) ≠ '-' := by
        have h9 : d ≤ 9 := hx.1.2.1 d (by rw [hd]; exact List.mem_cons_self _ _)
        intro h
        have := digitChar_isDigit d h9
        rw [h] at this
        exact absurd this (by decide)
      simp only [List.map_cons] at hb ⊢
      simp only [ofString, build, hc, if_false, hb, Bool.false_eq_true]
      cases x
      simp only at hd hs
      rw [hd, hs]
  · simp only [if_true, List.singleton_append]
    have h0 : x.data ≠ [0] := by
      intro h
      have := hx.2 h
      rw [hs] at this
      cases this
    have hb := buildDigits_digitChars x hx true (fun _ => hs.symm)
    have hne : x.data.map (fun d => Char.ofNat (48 + d)) ≠ [] := by
      simpa using hx.1.1
    simp only [ofString, build, if_true, hne, if_false, hb, Bool.false_eq_true]

/-! ## Negation -/

theorem ne_ZERO_iff (x : Integer) : ne x ZERO = true ↔ x ≠ ZERO := by
  simp only [ne, Bool.not_eq_true', Bool.eq_false_iff, ne_eq, eq_iff_eq]

theorem neg_spec (x : Integer) (hx : WellFormed x) :
    (neg x).data = x.data ∧ (x ≠ ZERO → (neg x).sign = !x.sign) ∧ (x = ZERO → neg x = ZERO) ∧
      WellFormed (neg x) ∧ value (neg x) = -value x := by
  have hz : x = ZERO → neg x = ZERO := by
    intro h
    rw [h]
    rfl
  by_cases h0 : x = ZERO
  · refine ⟨rfl, fun h => absurd h0 h, hz, ?_, ?_⟩
    · rw [hz h0]; exact wellFormed_ZERO
    · rw [hz h0, h0]; rfl
  · have hne : ne x ZERO = true := (ne_ZERO_iff x).mpr h0
    have hsign : (neg x).sign = !x.sign := by
      simp only [neg, hne, Bool.and_true]
    have hd0 : x.data ≠ [0] := by
      intro h
      apply h0
      have hs := hx.2 h
      cases x
      simp only at h hs
      rw [h, hs]
      rfl
    refine ⟨rfl, fun _ => hsign, hz, ⟨hx.1, fun h => absurd h hd0⟩, ?_⟩
    simp only [value, hsign]
    have hdata : (neg x).data = x.data := rfl
    rw [hdata]
    cases x.sign <;> simp

/-! ## Factorial -/

theorem wellFormed_ONE : WellFormed ONE := by decide

theorem value_ONE : value ONE = 1 := by decide

theorem gt_ONE_iff (i : Integer) (hi : WellFormed i) : gt i ONE = true ↔ 1 < value i := by
  rw [gt, lt_iff_value ONE i wellFormed_ONE hi, value_ONE]

theorem decrement_spec (i : Integer) (hi : WellFormed i) :
    WellFormed (decrement i) ∧ value (decrement i) = value i - 1 := by
  obtain ⟨h1, h2⟩ := subAssign_spec i (ofInt 1) hi (ofInt_spec 1).1
  rw [(ofInt_spec 1).2] at h2
  exact ⟨h1, h2⟩

theorem factLoop_spec (fuel : Nat) :
    ∀ (r i : Integer), WellFormed r → WellFormed i → 1 ≤ fuel → value i ≤ fuel →
      ∃ out, factLoop fuel r i = some out ∧ WellFormed out ∧
        value out = value r * ((value i).toNat.factorial : Int) := by
  induction fuel with
  | zero =>
    intro r i _ _ h1
    omega
  | succ fuel ih =>
    intro r i hr hi _ hf
    rw [factLoop]
    by_cases hgt : gt i ONE = true
    · have hv := (gt_ONE_iff i hi).mp hgt
      obtain ⟨m1, _, _, m4⟩ := mulAssign_spec r i hr hi
      obtain ⟨d1, d2⟩ := decrement_spec i hi
      obtain ⟨out, o1, o2, o3⟩ := ih (mulAssign r i) (decrement i) m1 d1 (by omega)
        (by rw [d2]; omega)
      rw [if_pos hgt]
      refine ⟨out, o1, o2, ?_⟩
      rw [o3, m4, d2]
      obtain ⟨n, hn⟩ : ∃ n : Nat, value i = (n : Int) + 1 := ⟨(value i - 1).toNat, by omega⟩
      rw [hn]
      have e1 : ((n : Int) + 1 - 1).toNat = n := by omega
      have e2 : ((n : Int) + 1).toNat = n + 1 := by omega
      rw [e1, e2, Nat.factorial_succ]
      push_cast
      ring
    · rw [if_neg hgt]
      have hv : ¬ (1 < value i) := fun h => hgt ((gt_ONE_iff i hi).mpr h)
      refine ⟨r, rfl, hr, ?_⟩
      have hcases : (value i).toNat = 0 ∨ (value i).toNat = 1 := by omega
      rcases hcases with h | h <;> rw [h] <;> simp

theorem lt_ZERO_iff (x : Integer) (hx : WellFormed x) : lt x ZERO = true ↔ value x < 0 := by
  rw [lt_iff_value x ZERO hx wellFormed_ZERO, value_ZERO]

theorem eq_ZERO_iff (x : Integer) (hx : WellFormed x) : eq x ZERO = true ↔ value x = 0 := by
  rw [eq_iff_value x ZERO hx wellFormed_ZERO, value_ZERO]

theorem fact_neg (fuel : Nat) (x : Integer) (hx : WellFormed x) (h : value x < 0) :
    fact fuel x = some (.error .invalid_argument) := by
  simp only [fact, (lt_ZERO_iff x hx).mpr h, if_true]

theorem fact_nonneg (fuel : Nat) (x : Integer) (hx : WellFormed x) (h : 0 ≤ value x)
    (hf : value x ≤ fuel) :
    ∃ r, fact fuel x = some (.ok r) ∧ WellFormed r ∧
      value r = ((value x).toNat.factorial : Int) := by
  have hlt : lt x ZERO = false := by
    cases hl : lt x ZERO
    · rfl
    · have := (lt_ZERO_iff x hx).mp hl
      omega
  by_cases h0 : value x = 0
  · refine ⟨ONE, ?_, wellFormed_ONE, ?_⟩
    · simp only [fact, hlt, (eq_ZERO_iff x hx).mpr h0, Bool.false_eq_true, if_false, if_true]
    · rw [h0, value_ONE]
      rfl
  · have heq : eq x ZERO = false := by
      cases he : eq x ZERO
      · rfl
      · exact absurd ((eq_ZERO_iff x hx).mp he) h0
    obtain ⟨out, o1, o2, o3⟩ := factLoop_spec fuel ONE x wellFormed_ONE hx (by omega) hf
    refine ⟨out, ?_, o2, ?_⟩
    · simp only [fact, hlt, heq, Bool.false_eq_true, if_false, o1]
    · rw [o3, value_ONE, one_mul]

/-! ## Greatest common divisor -/

theorem swap_eq (a t : Integer) : swap a t = (t, a) := by
  cases a with
  | mk ad as =>
    cases t with
    | mk td ts => cases as <;> cases ts <;> rfl

theorem size_le_of_mag_le (u v : Integer) (hu : WellFormed u) (hv : WellFormed v)
    (h : mag u.data ≤ mag v.data) : u.size ≤ v.size := by
  by_contra hcon
  have hlt : v.data.length < u.data.length := by
    simp only [size] at hcon
    omega
  have := mag_lt_of_length_lt v.data u.data hv.1.2.1 hu.1 hv.1.1 hlt
  omega

theorem value_nonneg_eq (x : Integer) (hx : WellFormed x) (h : 0 ≤ value x) :
    value x = (mag x.data : Int) :=
  value_of_sign_false x (sign_false_of_nonneg x hx h)

theorem gcdLoop_spec (dfuel : Nat) (hd : 10 ≤ dfuel) (fuel : Nat) :
    ∀ (a b : Integer), WellFormed a → WellFormed b → 0 ≤ value a → 0 ≤ value b →
      mag b.data < fuel → a.size ≤ dfuel → b.size ≤ dfuel →
      ∃ g, gcdLoop dfuel fuel a b = some (.ok g) ∧ WellFormed g ∧
        value g = (Nat.gcd (mag a.data) (mag b.data) : Int) := by
  induction fuel with
  | zero =>
    intro a b _ _ _ _ h
    omega
  | succ fuel ih =>
    intro a b ha hb ha0 hb0 hf hsa hsb
    rw [gcdLoop]
    by_cases hne : ne b ZERO = true
    · have hbne : b ≠ ZERO := (ne_ZERO_iff b).mp hne
      have hbpos : 0 < value b := by
        rcases lt_or_eq_of_le hb0 with h | h
        · exact h
        · exact absurd (value_inj b ZERO hb wellFormed_ZERO (by rw [value_ZERO, ← h])) hbne
      obtain ⟨q, r, _, h2, _, wr, _, vr⟩ := modAssign_spec dfuel a b ha hb ha0 hbpos hd hsa
      have hr0 : 0 ≤ value r := by
        rw [vr]
        exact Int.emod_nonneg _ (ne_of_gt hbpos)
      have hrlt : value r < value b := by
        rw [vr]
        exact Int.emod_lt_of_pos _ hbpos
      have ea := value_nonneg_eq a ha ha0
      have eb := value_nonneg_eq b hb hb0
      have er := value_nonneg_eq r wr hr0
      have hrm : mag r.data = mag a.data % mag b.data := by
        rw [ea, eb, er] at vr
        exact_mod_cast vr
      obtain ⟨g, g1, g2, g3⟩ := ih b r hb wr hb0 hr0 (by rw [er, eb] at hrlt; omega) hsb
        (le_trans (size_le_of_mag_le r b wr hb (by rw [er, eb] at hrlt; omega)) hsb)
      rw [if_pos hne]
      simp only [mod] at h2 ⊢
      simp only [h2, swap_eq]
      refine ⟨g, g1, g2, ?_⟩
      rw [g3, hrm, Nat.gcd_comm (mag b.data), ← Nat.gcd_rec, Nat.gcd_comm]
    · rw [if_neg hne]
      have hb0' : b = ZERO := by
        by_contra h
        exact hne ((ne_ZERO_iff b).mpr h)
      refine ⟨a, rfl, ha, ?_⟩
      rw [hb0']
      have hz : mag ZERO.data = 0 := rfl
      rw [hz, Nat.gcd_zero_right]
      exact value_nonneg_eq a ha ha0

theorem gcd_error_iff (fuel : Nat) (x y : Integer) (hx : WellFormed x) (hy : WellFormed y)
    (hf : x.size + y.size + 10 + mag x.data + mag y.data ≤ fuel) :
    (gcd fuel x y = some (.error .invalid_argument) ↔
      ((value x = 0 ∧ value y = 0) ∨ value x < 0 ∨ value y < 0)) ∧
    (¬ ((value x = 0 ∧ value y = 0) ∨ value x < 0 ∨ value y < 0) →
      ∃ g, gcd fuel x y = some (.ok g) ∧ WellFormed g ∧
        value g = (Int.gcd (value x) (value y) : Int)) := by
  have hthrow : ((value x = 0 ∧ value y = 0) ∨ value x < 0 ∨ value y < 0) →
      gcd fuel x y = some (.error .invalid_argument) := by
    intro h
    by_cases hzz : value x = 0 ∧ value y = 0
    · simp only [gcd, (eq_ZERO_iff x hx).mpr hzz.1, (eq_ZERO_iff y hy).mpr hzz.2, Bool.and_self,
        if_true]
    · have hneg : value x < 0 ∨ value y < 0 := by
        rcases h with h | h
        · exact absurd h hzz
        · exact h
      have hor : (lt x ZERO || lt y ZERO) = true := by
        rcases hneg with h | h
        · rw [(lt_ZERO_iff x hx).mpr h]; rfl
        · rw [(lt_ZERO_iff y hy).mpr h]; simp
      simp only [gcd, hor, if_true]
      split <;> rfl
  have hok : ¬ ((value x = 0 ∧ value y = 0) ∨ value x < 0 ∨ value y < 0) →
      ∃ g, gcd fuel x y = some (.ok g) ∧ WellFormed g ∧
        value g = (Int.gcd (value x) (value y) : Int) := by
    intro h
    have hx0 : 0 ≤ value x := by omega
    have hy0 : 0 ≤ value y := by omega
    have hnz : ¬ (value x = 0 ∧ value y = 0) := fun hh => h (Or.inl hh)
    have hand : (eq x ZERO && eq y ZERO) = false := by
      cases h1 : eq x ZERO <;> cases h2 : eq y ZERO <;> simp
      exact hnz ⟨(eq_ZERO_iff x hx).mp h1, (eq_ZERO_iff y hy).mp h2⟩
    have hor : (lt x ZERO || lt y ZERO) = false := by
      cases h1 : lt x ZERO <;> cases h2 : lt y ZERO <;> simp
      · have := (lt_ZERO_iff y hy).mp h2; omega
      · have := (lt_ZERO_iff x hx).mp h1; omega
      · have := (lt_ZERO_iff x hx).mp h1; omega
    have egcd : (Int.gcd (value x) (value y) : Int) = (Nat.gcd (mag x.data) (mag y.data) : Int) := by
      rw [value_nonneg_eq x hx hx0, value_nonneg_eq y hy hy0]
      rfl
    simp only [gcd, hand, hor, Bool.false_eq_true, if_false]
    rw [egcd]
    by_cases hyz : eq y ZERO = true
    · have hy' : y = ZERO := (eq_iff_eq y ZERO).mp hyz
      obtain ⟨g, g1, g2, g3⟩ := gcdLoop_spec fuel (by omega) fuel y x hy hx hy0 hx0 (by omega)
        (by omega) (by omega)
      simp only [hyz, if_true]
      refine ⟨g, g1, g2, ?_⟩
      rw [g3, Nat.gcd_comm]
    · obtain ⟨g, g1, g2, g3⟩ := gcdLoop_spec fuel (by omega) fuel x y hx hy hx0 hy0 (by omega)
        (by omega) (by omega)
      simp only [hyz, if_false]
      exact ⟨g, g1, g2, g3⟩
  refine ⟨⟨?_, hthrow⟩, hok⟩
  intro herr
  by_contra hcon
  obtain ⟨g, g1, _⟩ := hok hcon
  rw [g1] at herr
  cases herr

/-! ## Integer power -/

theorem pow_neg_exp (fuel : Nat) (x : Integer) (exp : Int) (h : exp < 0) :
    pow (fuel + 1) x exp = some (.error .invalid_argument) := by
  simp only [pow, h, if_true]

theorem pow_zero_exp (fuel : Nat) (x : Integer) : pow (fuel + 1) x 0 = some (.ok ONE) := rfl

theorem pow_spec (fuel : Nat) (x : Integer) (hx : WellFormed x) :
    ∀ (n k : Nat), n < 2 ^ k → k < fuel →
      ∃ r, pow fuel x (n : Int) = some (.ok r) ∧ WellFormed r ∧ value r = value x ^ n := by
  induction fuel with
  | zero =>
    intro n k _ h
    omega
  | succ fuel ih =>
    intro n k hn hk
    by_cases h0 : n = 0
    · subst h0
      exact ⟨ONE, rfl, wellFormed_ONE, by rw [value_ONE, pow_zero]⟩
    · have hneg : ¬ ((n : Int) < 0) := by omega
      have hz : ((n : Int) == 0) = false := by
        rw [beq_eq_false_iff_ne]
        omega
      have hk1 : 1 ≤ k := by
        rcases Nat.eq_zero_or_pos k with h | h
        · rw [h] at hn
          simp at hn
          omega
        · exact h
      have hhalf : n / 2 < 2 ^ (k - 1) := by
        have e : 2 ^ k = 2 * 2 ^ (k - 1) := by
          rw [← pow_succ']
          congr 1
          omega
        rw [e] at hn
        omega
      obtain ⟨e, e1, e2, e3⟩ := ih (n / 2) (k - 1) hhalf (by omega)
      have hdiv : Int.tdiv (n : Int) 2 = ((n / 2 : Nat) : Int) := (Int.ofNat_tdiv n 2).symm
      obtain ⟨s1, _, _, s4⟩ := mulAssign_spec e e e2 e2
      rw [pow]
      simp only [hneg, hz, if_false, Bool.false_eq_true, hdiv, e1]
      by_cases hodd : ((n : Int) % 2 != 0) = true
      · rw [if_pos hodd]
        obtain ⟨t1, _, _, t4⟩ := mulAssign_spec (mul e e) x s1 hx
        refine ⟨_, rfl, t1, ?_⟩
        have hn2 : n = 2 * (n / 2) + 1 := by
          have : (n : Int) % 2 ≠ 0 := by simpa using hodd
          omega
        rw [mul_def, t4, mul_def, s4, e3]
        conv_rhs => rw [hn2]
        ring
      · rw [if_neg hodd]
        refine ⟨_, rfl, s1, ?_⟩
        have hn2 : n = 2 * (n / 2) := by
          have : (n : Int) % 2 = 0 := by simpa using hodd
          omega
        rw [mul_def, s4, e3]
        conv_rhs => rw [hn2]
        ring

/-! ## The digits of a machine integer -/

theorem canon_digits (n : Nat) (hn : n ≠ 0) : Canon (Nat.digits 10 n).reverse ∧
    mag (Nat.digits 10 n).reverse = n := by
  have hne : Nat.digits 10 n ≠ [] := Nat.digits_ne_nil_iff_ne_zero.mpr hn
  refine ⟨⟨by simpa using hne, ?_, ?_⟩, ?_⟩
  · intro d hd
    have := Nat.digits_lt_base (b := 10) (m := n) (by norm_num) (List.mem_reverse.mp hd)
    omega
  · intro hhead
    exfalso
    have hlast := Nat.getLast_digit_ne_zero 10 hn
    rw [List.head?_reverse] at hhead
    rw [List.getLast?_eq_getLast _ hne] at hhead
    exact hlast (Option.some.inj hhead)
  · rw [mag_reverse, Nat.ofDigits_digits]

theorem ofInt_data (i : Int) :
    (ofInt i).data = if i = 0 then [0] else (Nat.digits 10 i.natAbs).reverse := by
  by_cases h0 : i = 0
  · rw [if_pos h0, h0]
    rfl
  · rw [if_neg h0]
    obtain ⟨c, m⟩ := canon_digits i.natAbs (by omega)
    obtain ⟨w, v⟩ := ofInt_spec i
    apply canon_unique _ _ w.1 c
    rw [m]
    simp only [value] at v
    cases hs : (ofInt i).sign
    · rw [hs] at v
      simp only [Bool.false_eq_true, if_false] at v
      omega
    · rw [hs] at v
      simp only [if_true] at v
      omega

theorem ofInt_sign (i : Int) : (ofInt i).sign = true ↔ i < 0 := by
  by_cases h : i < 0
  · simp only [ofInt, h, if_true]
  · simp only [ofInt, h, if_false, Bool.false_eq_true]

/-! ## Claims on construction, negation and the error paths -/

/-- C11: round trip: the text written for a well-formed `x` (a minus when
`sign` is set, then the digits, most significant first, as decimal
characters) is accepted by the string constructor, which gives back an Integer
equal to `x` under `operator==`, with the same sign and the same digits. -/
theorem render_round_trip (x : Integer) (hx : WellFormed x) :
    render x = (if x.sign then ['-'] else []) ++ x.data.map (fun d => Char.ofNat (48 + d)) ∧
    ∃ y, ofString (render x) = .ok y ∧ eq y x = true ∧ y.sign = x.sign ∧ y.data = x.data :=
  ⟨render_eq x hx.1.2.1, x, ofString_render x hx, (eq_iff_eq x x).mpr rfl, rfl, rfl⟩

theorem render_round_trip_witness :
    WellFormed (ofInt (-1200)) ∧
      ∃ y, ofString (render (ofInt (-1200))) = .ok y ∧ eq y (ofInt (-1200)) = true ∧
        y.sign = (ofInt (-1200)).sign ∧ y.data = (ofInt (-1200)).data :=
  ⟨by decide, (render_round_trip (ofInt (-1200)) (by decide)).2⟩

/-- C12: for well-formed `a` and `b`, with enough fuel for the loops, `a / b`
throws `std::invalid_argument` exactly when `b` is zero; for every nonzero `b`
it returns a quotient, whatever the signs and sizes. -/
theorem div_error_iff_zero (fuel : Nat) (a b : Integer) (ha : WellFormed a) (hb : WellFormed b)
    (hfuel : a.size + 10 ≤ fuel) :
    (div fuel a b = some (.error .invalid_argument) ↔ value b = 0) ∧
    (value b = 0 ↔ b = ZERO) ∧
    (value b ≠ 0 → ∃ q, div fuel a b = some (.ok q)) := by
  have hz : value b = 0 ↔ b = ZERO := by
    constructor
    · intro h
      exact value_inj b ZERO hb wellFormed_ZERO (by rw [h, value_ZERO])
    · intro h
      rw [h, value_ZERO]
  refine ⟨?_, hz, ?_⟩
  · rw [hz]
    exact divAssign_error_iff fuel a b
  · intro h
    obtain ⟨q, q1, _⟩ := divAssign_spec fuel a b ha hb (fun h0 => h (hz.mpr h0)) (by omega)
      (by omega)
    exact ⟨q, q1⟩

theorem div_error_iff_zero_witness :
    WellFormed (ofInt (-84)) ∧ WellFormed (ofInt 0) ∧ (ofInt (-84)).size + 10 ≤ 12 ∧
      (div 12 (ofInt (-84)) (ofInt 0) = some (.error .invalid_argument) ↔ value (ofInt 0) = 0) :=
  ⟨by decide, by decide, by decide,
    (div_error_iff_zero 12 (ofInt (-84)) (ofInt 0) (by decide) (by decide) (by decide)).1⟩

/-- C13: for well-formed `a` and `b`, with enough fuel for the loops, `a % b`
throws `std::invalid_argument` exactly when `b <= 0` or `a < 0`, so `a % 0`,
`7 % -2` and `-7 % 2` fail; for `a >= 0` and `b > 0` it returns a result. -/
theorem mod_error_iff (fuel : Nat) (a b : Integer) (ha : WellFormed a) (hb : WellFormed b)
    (hfuel : a.size + 10 ≤ fuel) :
    (mod fuel a b = some (.error .invalid_argument) ↔ (value b ≤ 0 ∨ value a < 0)) ∧
    (mod fuel a b = some (.error .invalid_argument) ↔ (le b ZERO = true ∨ lt a ZERO = true)) ∧
    (0 ≤ value a → 0 < value b → ∃ r, mod fuel a b = some (.ok r)) ∧
    mod fuel a ZERO = some (.error .invalid_argument) ∧
    mod fuel (ofInt 7) (ofInt (-2)) = some (.error .invalid_argument) ∧
    mod fuel (ofInt (-7)) (ofInt 2) = some (.error .invalid_argument) := by
  have hle : le b ZERO = true ↔ value b ≤ 0 := by
    have h := lt_iff_value ZERO b wellFormed_ZERO hb
    rw [value_ZERO] at h
    simp only [le, Bool.not_eq_true', Bool.eq_false_iff, ne_eq, h, not_lt]
  have hlt := lt_ZERO_iff a ha
  have hok : 0 ≤ value a → 0 < value b → ∃ r, mod fuel a b = some (.ok r) := by
    intro h1 h2
    obtain ⟨q, r, _, hr, _⟩ := modAssign_spec fuel a b ha hb h1 h2 (by omega) (by omega)
    exact ⟨r, hr⟩
  have hthrow : (le b ZERO = true ∨ lt a ZERO = true) →
      mod fuel a b = some (.error .invalid_argument) := by
    intro h
    by_cases h1 : le b ZERO = true
    · simp only [mod, modAssign, h1, if_true]
    · have h2 : lt a ZERO = true := by
        rcases h with h | h
        · exact absurd h h1
        · exact h
      simp only [mod, modAssign, h1, h2, if_true, if_false, Bool.false_eq_true]
  have hiff : mod fuel a b = some (.error .invalid_argument) ↔
      (le b ZERO = true ∨ lt a ZERO = true) := by
    constructor
    · intro herr
      by_contra hcon
      rw [hle, hlt] at hcon
      obtain ⟨r, hr⟩ := hok (by omega) (by omega)
      rw [hr] at herr
      cases herr
    · exact hthrow
  refine ⟨?_, hiff, hok, rfl, rfl, rfl⟩
  rw [hiff, hle, hlt]

theorem mod_error_iff_witness :
    WellFormed (ofInt 7) ∧ WellFormed (ofInt (-2)) ∧ (ofInt 7).size + 10 ≤ 11 ∧
      (mod 11 (ofInt 7) (ofInt (-2)) = some (.error .invalid_argument) ↔
        (value (ofInt (-2)) ≤ 0 ∨ value (ofInt 7) < 0)) :=
  ⟨by decide, by decide, by decide,
    (mod_error_iff 11 (ofInt 7) (ofInt (-2)) (by decide) (by decide) (by decide)).1⟩

/-- C14: for every `int i`, `Integer(i)` is well-formed and denotes exactly
`i`: its digits are the decimal digits of `|i|`, most significant first,
without a leading zero; `sign` is set exactly for `i < 0`; `Integer(0)` is the
single digit `0` with sign false; the most negative 32-bit `int` is covered,
since `-(i % 10)` and `i / 10` never leave the range of `i`. -/
theorem ofInt_correct (i : Int) :
    WellFormed (ofInt i) ∧ value (ofInt i) = i ∧
    (ofInt i).data = (if i = 0 then [0] else (Nat.digits 10 i.natAbs).reverse) ∧
    ((ofInt i).sign = true ↔ i < 0) ∧
    ofInt 0 = { data := [0], sign := false } ∧
    ofInt (-2147483648) = { data := [2, 1, 4, 7, 4, 8, 3, 6, 4, 8], sign := true } ∧
    ofInt 2147483647 = { data := [2, 1, 4, 7, 4, 8, 3, 6, 4, 7], sign := false } :=
  ⟨(ofInt_spec i).1, (ofInt_spec i).2, ofInt_data i, ofInt_sign i, by decide, by decide,
    by decide⟩

/-- C15: for well-formed `x`, unary minus keeps the digits and flips the sign
unless `x` is zero, where it gives the non-negative zero; so
`value (-x) = -value x`, `-x` is well-formed, and `-(-x) == x`. -/
theorem neg_correct (x : Integer) (hx : WellFormed x) :
    (neg x).data = x.data ∧ (x ≠ ZERO → (neg x).sign = !x.sign) ∧
    (x = ZERO → neg x = ZERO ∧ (neg x).sign = false) ∧
    value (neg x) = -value x ∧ WellFormed (neg x) ∧ eq (neg (neg x)) x = true := by
  obtain ⟨h1, h2, h3, h4, h5⟩ := neg_spec x hx
  obtain ⟨_, _, _, k4, k5⟩ := neg_spec (neg x) h4
  refine ⟨h1, h2, ?_, h5, h4, ?_⟩
  · intro h
    rw [h3 h]
    exact ⟨rfl, rfl⟩
  · rw [eq_iff_value _ _ k4 hx, k5, h5, neg_neg]

theorem neg_correct_witness :
    WellFormed (ofInt 305) ∧ value (neg (ofInt 305)) = -value (ofInt 305) :=
  ⟨by decide, (neg_correct (ofInt 305) (by decide)).2.2.2.1⟩

/-! ## Claims on the derived operations -/

/-- C16: for well-formed `x`, with fuel for the loop, `fact x` throws
`std::invalid_argument` exactly when `x < 0`; `fact 0` is `ONE`; and for
`x >= 1` the result denotes the factorial of `value x`, so `fact 5 == 120` and
`fact 1 == 1`. -/
theorem fact_correct (fuel : Nat) (x : Integer) (hx : WellFormed x) (hfuel : value x ≤ fuel) :
    (fact fuel x = some (.error .invalid_argument) ↔ value x < 0) ∧
    fact fuel ZERO = some (.ok ONE) ∧
    (1 ≤ value x → ∃ r, fact fuel x = some (.ok r) ∧ WellFormed r ∧
      value r = ((value x).toNat.factorial : Int)) ∧
    fact 5 (ofInt 5) = some (.ok (ofInt 120)) ∧
    fact 1 (ofInt 1) = some (.ok (ofInt 1)) := by
  refine ⟨⟨?_, fact_neg fuel x hx⟩, rfl, ?_, rfl, rfl⟩
  · intro herr
    by_contra hcon
    obtain ⟨r, hr, _⟩ := fact_nonneg fuel x hx (by omega) hfuel
    rw [hr] at herr
    cases herr
  · intro h1
    exact fact_nonneg fuel x hx (by omega) hfuel

theorem fact_correct_witness :
    WellFormed (ofInt 6) ∧ value (ofInt 6) ≤ ((6 : Nat) : Int) ∧
      (1 ≤ value (ofInt 6) → ∃ r, fact 6 (ofInt 6) = some (.ok r) ∧ WellFormed r ∧
        value r = ((value (ofInt 6)).toNat.factorial : Int)) :=
  ⟨by decide, by decide, (fact_correct 6 (ofInt 6) (by decide) (by decide)).2.2.1⟩

/-- C17: for well-formed `x` and `y`, with enough fuel for the loops, `gcd`
throws `std::invalid_argument` exactly when both are zero or one is negative;
otherwise the Euclidean loop finishes and returns the well-formed Integer
denoting the greatest common divisor of the values, which is the nonzero
operand when the other is zero: `gcd(0, 7) == 7`, `gcd(7, 0) == 7`,
`gcd(12, 18) == 6`. -/
theorem gcd_correct (fuel : Nat) (x y : Integer) (hx : WellFormed x) (hy : WellFormed y)
    (hfuel : x.size + y.size + 10 + mag x.data + mag y.data ≤ fuel) :
    (gcd fuel x y = some (.error .invalid_argument) ↔
      ((value x = 0 ∧ value y = 0) ∨ value x < 0 ∨ value y < 0)) ∧
    (¬ ((value x = 0 ∧ value y = 0) ∨ value x < 0 ∨ value y < 0) →
      ∃ g, gcd fuel x y = some (.ok g) ∧ WellFormed g ∧
        value g = (Int.gcd (value x) (value y) : Int) ∧
        (value x = 0 → g = y) ∧ (value y = 0 → g = x)) ∧
    gcd 19 (ofInt 0) (ofInt 7) = some (.ok (ofInt 7)) ∧
    gcd 19 (ofInt 7) (ofInt 0) = some (.ok (ofInt 7)) ∧
    gcd 44 (ofInt 12) (ofInt 18) = some (.ok (ofInt 6)) := by
  obtain ⟨h1, h2⟩ := gcd_error_iff fuel x y hx hy hfuel
  refine ⟨h1, ?_, rfl, rfl, rfl⟩
  intro hn
  obtain ⟨g, g1, g2, g3⟩ := h2 hn
  refine ⟨g, g1, g2, g3, ?_, ?_⟩
  · intro h0
    apply value_inj g y g2 hy
    rw [g3, h0, Int.gcd_zero_left]
    have : 0 ≤ value y := by omega
    omega
  · intro h0
    apply value_inj g x g2 hx
    rw [g3, h0, Int.gcd_zero_right]
    have : 0 ≤ value x := by omega
    omega

theorem gcd_correct_witness :
    WellFormed (ofInt 12) ∧ WellFormed (ofInt 18) ∧
      (ofInt 12).size + (ofInt 18).size + 10 + mag (ofInt 12).data + mag (ofInt 18).data ≤ 44 ∧
      (gcd 44 (ofInt 12) (ofInt 18) = some (.error .invalid_argument) ↔
        ((value (ofInt 12) = 0 ∧ value (ofInt 18) = 0) ∨ value (ofInt 12) < 0 ∨
          value (ofInt 18) < 0)) :=
  ⟨by decide, by decide, by decide,
    (gcd_correct 44 (ofInt 12) (ofInt 18) (by decide) (by decide) (by decide)).1⟩

/-- C18: for well-formed `x` and a 32-bit `int exp`, with fuel for the nested
calls, `pow` throws `std::invalid_argument` exactly when `exp < 0`;
`pow(x, 0)` is `ONE` for every `x`; and for `exp > 0` the squaring recursion
returns the well-formed Integer denoting `value x ^ exp`, so
`pow(2, 10) == 1024`, and a negative base with an odd exponent gives a negative
result. -/
theorem pow_correct (fuel : Nat) (x : Integer) (exp : Int) (hx : WellFormed x)
    (hexp : exp < 2 ^ 31) (hfuel : 32 ≤ fuel) :
    (pow fuel x exp = some (.error .invalid_argument) ↔ exp < 0) ∧
    pow fuel x 0 = some (.ok ONE) ∧
    (0 < exp → ∃ r, pow fuel x exp = some (.ok r) ∧ WellFormed r ∧
      value r = value x ^ exp.toNat ∧ (value x < 0 → exp % 2 = 1 → value r < 0)) ∧
    pow 5 (ofInt 2) 10 = some (.ok (ofInt 1024)) ∧
    pow 3 (ofInt (-3)) 3 = some (.ok (ofInt (-27))) := by
  obtain ⟨f, rfl⟩ : ∃ f, fuel = f + 1 := ⟨fuel - 1, by omega⟩
  have hok : 0 ≤ exp → ∃ r, pow (f + 1) x exp = some (.ok r) ∧ WellFormed r ∧
      value r = value x ^ exp.toNat := by
    intro h0
    have hlt : exp.toNat < 2 ^ 31 := by omega
    obtain ⟨r, r1, r2, r3⟩ := pow_spec (f + 1) x hx exp.toNat 31 hlt (by omega)
    rw [Int.toNat_of_nonneg h0] at r1
    exact ⟨r, r1, r2, r3⟩
  refine ⟨⟨?_, pow_neg_exp f x exp⟩, rfl, ?_, rfl, rfl⟩
  · intro herr
    by_contra hcon
    obtain ⟨r, hr, _⟩ := hok (by omega)
    rw [hr] at herr
    cases herr
  · intro hpos
    obtain ⟨r, r1, r2, r3⟩ := hok (by omega)
    refine ⟨r, r1, r2, r3, ?_⟩
    intro hneg hodd
    rw [r3]
    apply Odd.pow_neg _ hneg
    rw [Nat.odd_iff]
    omega

theorem pow_correct_witness :
    WellFormed (ofInt (-2)) ∧ (9 : Int) < 2 ^ 31 ∧ 32 ≤ 32 ∧
      (0 < (9 : Int) → ∃ r, pow 32 (ofInt (-2)) 9 = some (.ok r) ∧ WellFormed r ∧
        value r = value (ofInt (-2)) ^ (9 : Int).toNat ∧
        (value (ofInt (-2)) < 0 → (9 : Int) % 2 = 1 → value r < 0)) :=
  ⟨by decide, by decide, by decide,
    (pow_correct 32 (ofInt (-2)) 9 (by decide) (by decide) (by decide)).2.2.1⟩

/-! ## Algebraic laws -/

/-- C19: commutativity: for well-formed `a` and `b` of any signs and lengths,
`a + b == b + a` and `a * b == b * a` under `operator==`, although both
algorithms treat the left and the right operand differently. -/
theorem add_mul_comm (a b : Integer) (ha : WellFormed a) (hb : WellFormed b) :
    eq (add a b) (add b a) = true ∧ eq (mul a b) (mul b a) = true ∧
      add a b = add b a ∧ mul a b = mul b a := by
  obtain ⟨w1, v1⟩ := addAssign_spec a b ha hb
  obtain ⟨w2, v2⟩ := addAssign_spec b a hb ha
  obtain ⟨w3, _, _, v3⟩ := mulAssign_spec a b ha hb
  obtain ⟨w4, _, _, v4⟩ := mulAssign_spec b a hb ha
  have e1 : value (add a b) = value (add b a) := by
    rw [add_def, add_def, v1, v2, Int.add_comm]
  have e2 : value (mul a b) = value (mul b a) := by
    rw [mul_def, mul_def, v3, v4, Int.mul_comm]
  exact ⟨(eq_iff_value _ _ w1 w2).mpr e1, (eq_iff_value _ _ w3 w4).mpr e2,
    value_inj _ _ w1 w2 e1, value_inj _ _ w3 w4 e2⟩

theorem add_mul_comm_witness :
    WellFormed (ofInt (-95)) ∧ WellFormed (ofInt 1007) ∧
      eq (add (ofInt (-95)) (ofInt 1007)) (add (ofInt 1007) (ofInt (-95))) = true :=
  ⟨by decide, by decide, (add_mul_comm (ofInt (-95)) (ofInt 1007) (by decide) (by decide)).1⟩

/-- C20: subtraction inverse: for well-formed `a` and `b`, `(a - b) + b == a`
under `operator==`, with the sign and the digits of `a`, for every combination
of signs and lengths, also when `a - b` is zero or changes sign. -/
theorem sub_add_cancel (a b : Integer) (ha : WellFormed a) (hb : WellFormed b) :
    eq (add (sub a b) b) a = true ∧ (add (sub a b) b).sign = a.sign ∧
      (add (sub a b) b).data = a.data := by
  obtain ⟨w1, v1⟩ := subAssign_spec a b ha hb
  obtain ⟨w2, v2⟩ := addAssign_spec (sub a b) b w1 hb
  have e : value (add (sub a b) b) = value a := by
    rw [add_def, v2, sub_def, v1]
    omega
  have h : add (sub a b) b = a := value_inj _ _ w2 ha e
  exact ⟨(eq_iff_value _ _ w2 ha).mpr e, by rw [h], by rw [h]⟩

theorem sub_add_cancel_witness :
    WellFormed (ofInt 3) ∧ WellFormed (ofInt 1000) ∧
      eq (add (sub (ofInt 3) (ofInt 1000)) (ofInt 1000)) (ofInt 3) = true :=
  ⟨by decide, by decide, (sub_add_cancel (ofInt 3) (ofInt 1000) (by decide) (by decide)).1⟩

/-! ## Indexed digit access -/

theorem fromRight_lt (w : Nat) (x : Integer) (index : Nat) (hsize : x.size < 2 ^ w)
    (hi : index < x.size) : fromRight w x index = x.size - 1 - index := by
  simp only [size] at hsize hi
  have h1 : (0 : Int) ≤ (x.data.length : Int) - (index : Int) - 1 := by omega
  have h2 : (x.data.length : Int) - (index : Int) - 1 < (2 ^ w : Int) := by
    have : ((2 ^ w : Nat) : Int) = (2 ^ w : Int) := by push_cast; rfl
    rw [← this]
    omega
  simp only [fromRight, size, Int.emod_eq_of_lt h1 h2]
  omega

theorem fromRight_ge (w : Nat) (x : Integer) (index : Nat) (hindex : index < 2 ^ w)
    (hi : x.size ≤ index) : x.size ≤ fromRight w x index := by
  simp only [size] at hi ⊢
  have hc : ((2 ^ w : Nat) : Int) = (2 ^ w : Int) := by push_cast; rfl
  have h1 : (0 : Int) ≤ (x.data.length : Int) - (index : Int) - 1 + (2 ^ w : Int) := by
    rw [← hc]
    omega
  have h2 : (x.data.length : Int) - (index : Int) - 1 + (2 ^ w : Int) < (2 ^ w : Int) := by
    omega
  have e : ((x.data.length : Int) - (index : Int) - 1) % (2 ^ w : Int) =
      (x.data.length : Int) - (index : Int) - 1 + (2 ^ w : Int) := by
    rw [← Int.add_emod_self, Int.emod_eq_of_lt h1 h2]
  simp only [fromRight, e]
  rw [← hc]
  omega

theorem digit_of_weight (ds : List Nat) (hd : ∀ d ∈ ds, d ≤ 9) (j : Nat) (hj : j < ds.length) :
    ds[ds.length - 1 - j]? = some (mag ds / 10 ^ j % 10) := by
  induction ds using List.reverseRecOn generalizing j with
  | nil => simp at hj
  | append_singleton init d ih =>
    have hd9 : d ≤ 9 := hd d (by simp)
    rw [mag_append_singleton]
    cases j with
    | zero =>
      simp only [List.length_append, List.length_singleton, Nat.add_sub_cancel, Nat.sub_zero,
        pow_zero, Nat.div_one]
      rw [List.getElem?_append_right (Nat.le_refl _)]
      simp only [Nat.sub_self, List.getElem?_cons_zero, Option.some.injEq]
      omega
    | succ j =>
      simp only [List.length_append, List.length_singleton] at hj ⊢
      have hlt : init.length + 1 - 1 - (j + 1) < init.length := by omega
      rw [List.getElem?_append_left hlt]
      have e : init.length + 1 - 1 - (j + 1) = init.length - 1 - j := by omega
      rw [e, ih (fun x hx => hd x (by simp [hx])) j (by omega)]
      have e1 : (10 * mag init + d) / 10 = mag init := by omega
      have e2 : (10 * mag init + d) / 10 ^ (j + 1) = mag init / 10 ^ j := by
        rw [pow_succ', ← Nat.div_div_eq_div_mul, e1]
      rw [e2]

theorem atIndex_spec (w : Nat) (x : Integer) (index : Nat) (hsize : x.size < 2 ^ w)
    (hindex : index < 2 ^ w) :
    (atIndex w x index = .error .out_of_range ↔ x.size ≤ index) ∧
    (index < x.size →
      atIndex w x index = .ok (x.data.getD (x.size - 1 - index) 0) ∧
      subscript w x index = some (x.data.getD (x.size - 1 - index) 0) ∧
      x.data[x.size - 1 - index]? = some (x.data.getD (x.size - 1 - index) 0)) := by
  have hok : index < x.size →
      atIndex w x index = .ok (x.data.getD (x.size - 1 - index) 0) ∧
      subscript w x index = some (x.data.getD (x.size - 1 - index) 0) ∧
      x.data[x.size - 1 - index]? = some (x.data.getD (x.size - 1 - index) 0) := by
    intro hi
    have hpos := fromRight_lt w x index hsize hi
    have hlt : x.size - 1 - index < x.data.length := by
      simp only [size] at hi ⊢
      omega
    have hget : x.data[x.size - 1 - index]? = some (x.data.getD (x.size - 1 - index) 0) := by
      rw [List.getD_eq_getElem?_getD, List.getElem?_eq_getElem hlt]
      rfl
    refine ⟨?_, ?_, hget⟩
    · simp only [atIndex, hpos, hget]
    · simp only [subscript, hpos, hget]
  refine ⟨⟨?_, ?_⟩, hok⟩
  · intro herr
    by_contra hcon
    rw [(hok (by omega)).1] at herr
    cases herr
  · intro hi
    have hge := fromRight_ge w x index hindex hi
    have hnone : x.data[fromRight w x index]? = none := by
      apply List.getElem?_eq_none
      simp only [size] at hge
      exact hge
    simp only [atIndex, hnone]

/-! ## The complement pass -/

theorem complement_pass (a b : Integer) (ha : Canon a.data) (hb : Canon b.data) :
    ((subLoop (paddedTop a b) b.data.reverse 1).2 = 1 ∨
      (subLoop (paddedTop a b) b.data.reverse 1).2 = 0) ∧
    ((subLoop (paddedTop a b) b.data.reverse 1).2 = 1 ↔ mag b.data ≤ mag a.data) ∧
    ((subLoop (paddedTop a b) b.data.reverse 1).2 = 1 →
      mag (subLoop (paddedTop a b) b.data.reverse 1).1.reverse = mag a.data - mag b.data) ∧
    ((subLoop (paddedTop a b) b.data.reverse 1).2 = 0 ↔ mag a.data < mag b.data) ∧
    ((subLoop (paddedTop a b) b.data.reverse 1).2 = 0 →
      mag (complLoop (subLoop (paddedTop a b) b.data.reverse 1).1 1).1.reverse =
        mag b.data - mag a.data) := by
  obtain ⟨p1, p2, p3⟩ := pad_facts a.data (b.data.length - a.data.length) ha.2.1
  have hbr : ∀ d ∈ b.data.reverse, d ≤ 9 := fun d hd => hb.2.1 d (List.mem_reverse.mp hd)
  have hl : b.data.reverse.length ≤
      (List.replicate (b.data.length - a.data.length) 0 ++ a.data).reverse.length := by
    rw [p3, List.length_reverse]
    omega
  obtain ⟨c1, c2, c3, c4⟩ := complement_spec _ _ hl p1 hbr
  rw [p2, ofDigits_reverse] at c1 c2 c3 c4
  simp only [paddedTop, mag_reverse]
  refine ⟨?_, c1, c3, c2, c4⟩
  rcases Nat.lt_or_ge (mag a.data) (mag b.data) with h | h
  · exact Or.inr (c2.mpr h)
  · exact Or.inl (c1.mpr h)

theorem addBottomIsBigger_eq (a b : Integer) (ha : Canon a.data) (hb : Canon b.data)
    (hs : a.sign ≠ b.sign) : addBottomIsBigger a b = decide (mag a.data < mag b.data) := by
  cases hsa : a.sign <;> cases hsb : b.sign
  · exact absurd (hsa.trans hsb.symm) hs
  · simp only [addBottomIsBigger, hsa, hsb]
    exact lt_sign_true b { data := a.data, sign := true } hsb rfl hb ha
  · simp only [addBottomIsBigger, hsa, hsb]
    exact lt_sign_false { data := a.data, sign := false } b rfl hsb ha hb
  · exact absurd (hsa.trans hsb.symm) hs

theorem subBottomIsBigger_eq (a b : Integer) (ha : Canon a.data) (hb : Canon b.data)
    (hs : a.sign = b.sign) : subBottomIsBigger a b = decide (mag a.data < mag b.data) := by
  cases hsa : a.sign <;> cases hsb : b.sign
  · simp only [subBottomIsBigger, hsa, hsb]
    exact lt_sign_false a b hsa hsb ha hb
  · rw [hsa, hsb] at hs
    cases hs
  · rw [hsa, hsb] at hs
    cases hs
  · simp only [subBottomIsBigger, hsa, hsb]
    exact lt_sign_true b a hsb hsa hb ha

theorem addAssign_unfold (a b : Integer) :
    addAssign a b = addSubCore (a.sign == b.sign) (addBottomIsBigger a b) a b := rfl

theorem subAssign_unfold (a b : Integer) :
    subAssign a b = addSubCore (a.sign != b.sign) (subBottomIsBigger a b) a b := rfl

theorem addSubCore_compl_unfold (bb : Bool) (a b : Integer) :
    addSubCore false bb a b =
      stripFix
        (if (subLoop (paddedTop a b) b.data.reverse 1).2 == 0 then
          (complLoop (subLoop (paddedTop a b) b.data.reverse 1).1 1).1
        else (subLoop (paddedTop a b) b.data.reverse 1).1).reverse
        (if bb then !a.sign else a.sign) := rfl

/-! ## A non-digit after a minus -/

theorem build_minus_nondigit (rest : List Char) (c : Char) (hc : c ∈ rest)
    (hnd : c.isDigit = false) :
    build ('-' :: rest) = { data := [0], sign := true, thrown := true } := by
  have hne : rest ≠ [] := by
    intro h
    rw [h] at hc
    simp at hc
  obtain ⟨k, h1, _, _⟩ := skipZeros_spec rest
  have hin : c ∈ skipZeros rest := by
    rw [h1] at hc
    rcases List.mem_append.mp hc with h | h
    · rw [(List.mem_replicate.mp h).2] at hnd
      exact absurd hnd (by decide)
    · exact h
  have hread : readDigits (skipZeros rest) [] = none := by
    cases hr : readDigits (skipZeros rest) [] with
    | none => rfl
    | some data =>
      have := readDigits_some _ _ _ hr c hin
      rw [hnd] at this
      cases this
  have hz : skipZeros rest ≠ ['0'] := by
    intro h
    rw [h] at hin
    rw [List.mem_singleton.mp hin] at hnd
    exact absurd hnd (by decide)
  simp only [build, if_true, hne, if_false, buildDigits, hread, hz]

/-! ## The long-division loop, pass by pass -/

theorem divLoop_step (that : Integer) (tfuel fuel : Nat) (st : DivState) :
    divLoop that tfuel (fuel + 1) st.s st.xs st.z st.rval =
      match searchT that (searchStart that st) tfuel 0 with
      | none => none
      | some t =>
        if (divStep that st t).z < (divStep that st t).rval.length then
          divLoop that tfuel fuel (divStep that st t).s (divStep that st t).xs
            (divStep that st t).z (divStep that st t).rval
        else some (divStep that st t).rval := rfl

theorem divBody_spec (that : Integer) (ht : that.sign = false) (hw : WellFormed that)
    (hpos : 0 < mag that.data) (st : DivState) (hst : DivHead that st) :
    WellFormed (searchStart that st) ∧ (searchStart that st).sign = false ∧
    mag (searchStart that st).data < 10 * mag that.data ∧
    ∃ t, t ≤ 9 ∧ (∀ f, 10 ≤ f → searchT that (searchStart that st) f 0 = some t) ∧
      mag that.data * t ≤ mag (searchStart that st).data ∧
      mag (searchStart that st).data < mag that.data * (t + 1) ∧
      WellFormed (divStep that st t).s ∧ (divStep that st t).s.sign = false ∧
      mag (divStep that st t).s.data + mag that.data * t = mag (searchStart that st).data ∧
      mag (divStep that st t).s.data < mag that.data ∧
      (∀ d ∈ (divStep that st t).xs, d ≤ 9) := by
  obtain ⟨hs, hsd, hsm, hx, hnx⟩ := hst
  have hsd9 : ∀ d ∈ st.s.data, d ≤ 9 := by
    rcases hsd with h | h
    · rw [h]; simp
    · exact h.2.1
  obtain ⟨taken, f1, f2, f3, f4, f5, f6⟩ :=
    feed_spec that ht hw.1 hpos st.s st.xs st.z hs hsd9 hx
  have hS1 : mag (st.s.data ++ taken) < 10 * mag that.data := by
    rcases f5 with h | h
    · rw [h, List.append_nil]
      omega
    · rw [f2] at h
      exact h
  have hs1d : ∀ d ∈ st.s.data ++ taken, d ≤ 9 := by
    intro d hd
    rcases List.mem_append.mp hd with hd | hd
    · exact hsd9 d hd
    · exact hx d (by rw [f1]; exact List.mem_append_left _ hd)
  have hs1ne : st.s.data ++ taken ≠ [] := by
    by_cases h0 : st.s.data = []
    · have htne := f6 (lt_complete st.s that hs ht hsd hw.1 hsm) (hnx h0)
      simp [htne]
    · simp [h0]
  have hss : searchStart that st =
      { data := stripLeadingZeros (st.s.data ++ taken), sign := false } := by
    simp only [searchStart, f2, f3]
  have hws1 : WellFormed { data := stripLeadingZeros (st.s.data ++ taken), sign := false } :=
    ⟨stripLeadingZeros_canon _ hs1ne hs1d, fun _ => rfl⟩
  have hm1 : mag (stripLeadingZeros (st.s.data ++ taken)) = mag (st.s.data ++ taken) :=
    stripLeadingZeros_mag _
  have hsearch : ∀ f, 10 ≤ f → ∃ q,
      searchT that { data := stripLeadingZeros (st.s.data ++ taken), sign := false } f 0 =
        some q ∧ mag that.data * q ≤ mag (st.s.data ++ taken) ∧
        mag (st.s.data ++ taken) < mag that.data * (q + 1) := by
    intro f hf
    obtain ⟨q, q1, q2, q3⟩ := searchT_spec that
      { data := stripLeadingZeros (st.s.data ++ taken), sign := false } ht hw rfl hws1 f 0
      (by simp) (by
        rw [hm1, Nat.zero_add]
        have h10 : mag that.data * 10 ≤ mag that.data * f := Nat.mul_le_mul_left _ hf
        omega)
    rw [hm1] at q2 q3
    exact ⟨q, q1, q2, q3⟩
  obtain ⟨t, _, t2, t3⟩ := hsearch 10 (Nat.le_refl _)
  have huniq : ∀ q, mag that.data * q ≤ mag (st.s.data ++ taken) →
      mag (st.s.data ++ taken) < mag that.data * (q + 1) → q = t := by
    intro q h1 h2
    rcases Nat.lt_trichotomy q t with h | h | h
    · have : mag that.data * (q + 1) ≤ mag that.data * t := Nat.mul_le_mul_left _ h
      omega
    · exact h
    · have : mag that.data * (t + 1) ≤ mag that.data * q := Nat.mul_le_mul_left _ h
      omega
  have ht9 : t ≤ 9 := by
    by_contra hcon
    have : mag that.data * 10 ≤ mag that.data * t := Nat.mul_le_mul_left _ (by omega)
    omega
  obtain ⟨m1, _, _, m4⟩ := mulAssign_spec that (ofInt (t : Int)) hw (ofInt_spec _).1
  have hvp : value (mul that (ofInt (t : Int))) = ((mag that.data * t : Nat) : Int) := by
    rw [mul_def, m4, (ofInt_spec _).2, value_of_sign_false that ht]
    push_cast
    rfl
  obtain ⟨u1, u2⟩ := subAssign_spec
    { data := stripLeadingZeros (st.s.data ++ taken), sign := false } (mul that (ofInt (t : Int)))
    hws1 m1
  rw [hvp, value_of_sign_false { data := stripLeadingZeros (st.s.data ++ taken), sign := false }
    rfl] at u2
  simp only [hm1] at u2
  have hstep : (divStep that st t).s =
      subAssign { data := stripLeadingZeros (st.s.data ++ taken), sign := false }
        (mul that (ofInt (t : Int))) := by
    simp only [divStep, hss]
  have hxs : (divStep that st t).xs = (feed that st.s st.xs st.z).2.1 := rfl
  rw [← hstep] at u1 u2
  have hs2sign : (divStep that st t).s.sign = false := by
    cases hsg : (divStep that st t).s.sign
    · rfl
    · have hp := mag_pos_of_sign _ u1 hsg
      rw [value_of_sign_true _ hsg] at u2
      omega
  rw [value_of_sign_false _ hs2sign] at u2
  have e := Nat.mul_add (mag that.data) t 1
  rw [Nat.mul_one] at e
  rw [hss]
  refine ⟨hws1, rfl, by rw [hm1]; exact hS1, t, ht9, ?_, by rw [hm1]; exact t2,
    by rw [hm1]; exact t3, u1, hs2sign, by rw [hm1]; omega, by omega, ?_⟩
  · intro f hf
    obtain ⟨q, q1, q2, q3⟩ := hsearch f hf
    rw [q1, huniq q q2 q3]
  · intro d hd
    rw [hxs] at hd
    exact hx d (by rw [f1]; exact List.mem_append_right _ hd)

theorem divReach_head (that this : Integer) (ht : that.sign = false) (hw : WellFormed that)
    (hpos : 0 < mag that.data) (hthis : Canon this.data) (tfuel : Nat) (htf : 10 ≤ tfuel)
    (st : DivState) (h : DivReach that this tfuel st) : DivHead that st := by
  induction h with
  | start => exact ⟨rfl, Or.inl rfl, hpos, hthis.2.1, fun _ => hthis.1⟩
  | next st t _ hsearch _ ih =>
    obtain ⟨_, _, _, q, _, q2, _, _, q5, q6, _, q8, q9⟩ := divBody_spec that ht hw hpos st ih
    have hq : q = t := by
      have := q2 tfuel htf
      rw [hsearch] at this
      exact (Option.some.inj this).symm
    subst hq
    exact ⟨q6, Or.inr q5.1, q8, q9, fun h => absurd h q5.1.1⟩

/-! ## `operator/=` with one object on both sides -/

/-- The call `x /= x` runs the loop of the call on two equal but distinct
objects; only the sign of the result differs: it is the old sign of `x`. -/
theorem divAssign_same (fuel : Nat) (x y : Integer) :
    divAssign true fuel x y =
      (divAssign false fuel x x).map
        (fun r => r.map (fun q => { data := q.data, sign := x.sign })) := by
  simp only [divAssign, if_true, Bool.false_eq_true, if_false]
  by_cases h0 : eq x ZERO = true
  · simp only [h0, if_true]
    rfl
  · simp only [h0, if_false]
    by_cases hgt : gt { data := x.data, sign := false } { data := x.data, sign := false } = true
    · simp only [hgt, if_true]
      rfl
    · simp only [hgt, if_false]
      cases divLoop { data := x.data, sign := false } fuel fuel { data := [], sign := false }
        x.data 0 (List.replicate (size { data := x.data, sign := false }) 0) <;> rfl

theorem divAssign_self_spec (fuel : Nat) (x : Integer) (hx : WellFormed x) (h0 : x ≠ ZERO)
    (h10 : 10 ≤ fuel) (hsz : x.size ≤ fuel) :
    divAssign true fuel x x = some (.ok { data := [1], sign := x.sign }) := by
  obtain ⟨q, q1, q2, q3, _, _⟩ := divAssign_spec fuel x x hx hx h0 h10 hsz
  have hpos := mag_pos_of_ne_ZERO x hx h0
  have hq : q.data = [1] := by
    apply canon_unique q.data [1] q2.1 (by decide)
    rw [q3, Nat.div_self hpos]
    rfl
  rw [divAssign_same, q1]
  simp only [Option.map_some', Except.map, hq]

/-- For a negative `x` the call `x /= x` leaves `-1`, not the quotient `1`. -/
theorem divAssign_self_value (fuel : Nat) (x : Integer) (hx : WellFormed x)
    (hneg : value x < 0) (h10 : 10 ≤ fuel) (hsz : x.size ≤ fuel) :
    ∃ q, divAssign true fuel x x = some (.ok q) ∧ value q = -1 ∧
      Int.tdiv (value x) (value x) = 1 := by
  have h0 : x ≠ ZERO := by
    intro h
    rw [h, value_ZERO] at hneg
    exact absurd hneg (lt_irrefl _)
  have hs : x.sign = true := by
    cases h : x.sign
    · have := value_of_sign_false x h
      omega
    · rfl
  refine ⟨_, divAssign_self_spec fuel x hx h0 h10 hsz, ?_, ?_⟩
  · rw [hs]
    rfl
  · exact Int.tdiv_self (by omega)

/-! ## Claims on indexed access and on the inner workings of the loops -/

/-- C21: for a well-formed `x` and an index of the unsigned `size_type`, the
checked `x.at(i)` throws `std::out_of_range` exactly when `i >= size(x)`, however
large `i` is, although `size - i - 1` is computed modulo `2 ^ w`; for
`i < size(x)` it returns the digit at position `size(x) - 1 - i`, which is the
decimal digit of weight `10 ^ i` of the magnitude and the digit the unchecked
`x[i]` returns. -/
theorem at_error_iff_out_of_range (w : Nat) (x : Integer) (index : Nat) (hx : WellFormed x)
    (hsize : x.size < 2 ^ w) (hindex : index < 2 ^ w) :
    (atIndex w x index = .error .out_of_range ↔ x.size ≤ index) ∧
    (index < x.size → ∃ d, atIndex w x index = .ok d ∧
      x.data[x.size - 1 - index]? = some d ∧ d = mag x.data / 10 ^ index % 10 ∧
      subscript w x index = some d) := by
  obtain ⟨h1, h2⟩ := atIndex_spec w x index hsize hindex
  refine ⟨h1, ?_⟩
  intro hi
  obtain ⟨k1, k2, k3⟩ := h2 hi
  refine ⟨_, k1, k3, ?_, k2⟩
  have hw := digit_of_weight x.data hx.1.2.1 index hi
  simp only [size] at k3
  rw [k3] at hw
  exact Option.some.inj hw

theorem at_error_iff_out_of_range_witness :
    WellFormed (ofInt 1234) ∧ (ofInt 1234).size < 2 ^ 64 ∧ 18446744073709551615 < 2 ^ 64 ∧
      (atIndex 64 (ofInt 1234) 18446744073709551615 = .error .out_of_range ↔
        (ofInt 1234).size ≤ 18446744073709551615) :=
  ⟨by decide, by decide, by decide,
    (at_error_iff_out_of_range 64 (ofInt 1234) 18446744073709551615 (by decide) (by decide)
      (by decide)).1⟩

/-- C22: in the complement branch of `operator+=` (signs differ) and of
`operator-=` (signs agree), with the left operand padded to the length of the
right one, the pass `top + (9 - bottom) + carry` started with carry 1 ends with
carry 1 exactly when `|left| >= |right|`, and the digits then hold
`|left| - |right|`; it ends with carry 0 exactly when `|left| < |right|`, and
the re-complement pass then leaves `|right| - |left|`; `bottomIsBigger` is set,
and the sign flipped, exactly in the second case. -/
theorem complement_carry (a b : Integer) (ha : WellFormed a) (hb : WellFormed b) :
    ((subLoop (paddedTop a b) b.data.reverse 1).2 = 1 ∨
      (subLoop (paddedTop a b) b.data.reverse 1).2 = 0) ∧
    ((subLoop (paddedTop a b) b.data.reverse 1).2 = 1 ↔ mag b.data ≤ mag a.data) ∧
    ((subLoop (paddedTop a b) b.data.reverse 1).2 = 1 →
      mag (subLoop (paddedTop a b) b.data.reverse 1).1.reverse = mag a.data - mag b.data) ∧
    ((subLoop (paddedTop a b) b.data.reverse 1).2 = 0 ↔ mag a.data < mag b.data) ∧
    ((subLoop (paddedTop a b) b.data.reverse 1).2 = 0 →
      mag (complLoop (subLoop (paddedTop a b) b.data.reverse 1).1 1).1.reverse =
        mag b.data - mag a.data) ∧
    (a.sign ≠ b.sign →
      (addBottomIsBigger a b = true ↔ (subLoop (paddedTop a b) b.data.reverse 1).2 = 0) ∧
      addAssign a b =
        stripFix
          (if (subLoop (paddedTop a b) b.data.reverse 1).2 == 0 then
            (complLoop (subLoop (paddedTop a b) b.data.reverse 1).1 1).1
          else (subLoop (paddedTop a b) b.data.reverse 1).1).reverse
          (if addBottomIsBigger a b then !a.sign else a.sign)) ∧
    (a.sign = b.sign →
      (subBottomIsBigger a b = true ↔ (subLoop (paddedTop a b) b.data.reverse 1).2 = 0) ∧
      subAssign a b =
        stripFix
          (if (subLoop (paddedTop a b) b.data.reverse 1).2 == 0 then
            (complLoop (subLoop (paddedTop a b) b.data.reverse 1).1 1).1
          else (subLoop (paddedTop a b) b.data.reverse 1).1).reverse
          (if subBottomIsBigger a b then !a.sign else a.sign)) := by
  obtain ⟨c0, c1, c2, c3, c4⟩ := complement_pass a b ha.1 hb.1
  refine ⟨c0, c1, c2, c3, c4, ?_, ?_⟩
  · intro hs
    have hbeq : (a.sign == b.sign) = false := by simpa using hs
    refine ⟨?_, ?_⟩
    · rw [addBottomIsBigger_eq a b ha.1 hb.1 hs, decide_eq_true_iff, c3]
    · rw [addAssign_unfold, hbeq, addSubCore_compl_unfold]
  · intro hs
    have hbne : (a.sign != b.sign) = false := by simpa using hs
    refine ⟨?_, ?_⟩
    · rw [subBottomIsBigger_eq a b ha.1 hb.1 hs, decide_eq_true_iff, c3]
    · rw [subAssign_unfold, hbne, addSubCore_compl_unfold]

theorem complement_carry_witness :
    WellFormed (ofInt 95) ∧ WellFormed (ofInt (-1007)) ∧
      ((subLoop (paddedTop (ofInt 95) (ofInt (-1007))) (ofInt (-1007)).data.reverse 1).2 = 0 ↔
        mag (ofInt 95).data < mag (ofInt (-1007)).data) :=
  ⟨by decide, by decide,
    (complement_carry (ofInt 95) (ofInt (-1007)) (by decide) (by decide)).2.2.2.1⟩

/-- C23: in `a / b` for well-formed `a` and nonzero `b` with `|b| <= |a|`, the
`do` loop is run, and each time it enters its body the quotient-digit search
ends with a single digit: the accumulator is below `10 * |b|` when the search
starts, because `operator<` lets digits be appended only while `s < |b|`, also
when `s` carries leading zeros; the search stops at the greatest `t` with
`|b| * t <= s`, which is in `0..9`; and after `s -= |b| * t` the accumulator
satisfies `0 <= s < |b|`. -/
theorem div_search_single_digit (a b : Integer) (ha : WellFormed a) (hb : WellFormed b)
    (hb0 : b ≠ ZERO) (hle : mag b.data ≤ mag a.data) (tfuel : Nat) (htf : 10 ≤ tfuel)
    (st : DivState)
    (hst : DivReach { data := b.data, sign := false } { data := a.data, sign := false } tfuel
      st) :
    (∀ fuel, divAssign false fuel a b =
      (divLoop { data := b.data, sign := false } fuel fuel { data := [], sign := false } a.data
        0 (List.replicate a.size 0)).map
        (fun rval => .ok { data := stripLeadingZeros rval, sign := xor a.sign b.sign })) ∧
    (∀ fuel, a = b → divAssign true fuel a b =
      (divLoop { data := b.data, sign := false } fuel fuel { data := [], sign := false } a.data
        0 (List.replicate a.size 0)).map
        (fun rval => .ok { data := stripLeadingZeros rval, sign := b.sign })) ∧
    (∀ fuel, a.size + 10 ≤ fuel → ∃ q, div fuel a b = some (.ok q)) ∧
    (∀ s : Integer, s.sign = false → (∀ d ∈ s.data, d ≤ 9) →
      lt s { data := b.data, sign := false } = true → mag s.data < mag b.data) ∧
    mag (searchStart { data := b.data, sign := false } st).data < 10 * mag b.data ∧
    ∃ t, searchT { data := b.data, sign := false }
        (searchStart { data := b.data, sign := false } st) tfuel 0 = some t ∧
      t ≤ 9 ∧
      mag b.data * t ≤ mag (searchStart { data := b.data, sign := false } st).data ∧
      (∀ u, mag b.data * u ≤ mag (searchStart { data := b.data, sign := false } st).data →
        u ≤ t) ∧
      (divStep { data := b.data, sign := false } st t).s.sign = false ∧
      mag (divStep { data := b.data, sign := false } st t).s.data <  mag b.data ∧
      mag (divStep { data := b.data, sign := false } st t).s.data =
        mag (searchStart { data := b.data, sign := false } st).data - mag b.data * t := by
  have hB := mag_pos_of_ne_ZERO b hb hb0
  have hwb : WellFormed { data := b.data, sign := false } := ⟨hb.1, fun _ => rfl⟩
  have hhead := divReach_head { data := b.data, sign := false } { data := a.data, sign := false }
    rfl hwb hB ha.1 tfuel htf st hst
  obtain ⟨_, _, s3, t, t1, t2, t3, t4, _, t6, t7, t8, _⟩ :=
    divBody_spec { data := b.data, sign := false } rfl hwb hB st hhead
  have hrun : ∀ fuel, divAssign false fuel a b =
      (divLoop { data := b.data, sign := false } fuel fuel { data := [], sign := false } a.data
        0 (List.replicate a.size 0)).map
        (fun rval => .ok { data := stripLeadingZeros rval, sign := xor a.sign b.sign }) := by
    intro fuel
    have heq : eq b ZERO = false := by
      cases h : eq b ZERO
      · rfl
      · exact absurd ((eq_iff_eq b ZERO).mp h) hb0
    have hgt : gt { data := b.data, sign := false } { data := a.data, sign := false } =
        decide (mag a.data < mag b.data) :=
      lt_sign_false { data := a.data, sign := false } { data := b.data, sign := false } rfl rfl
        ha.1 hb.1
    have hnlt : ¬ (mag a.data < mag b.data) := by omega
    simp only [divAssign, heq, Bool.false_eq_true, if_false, hgt, decide_eq_true_eq, hnlt, size]
    cases divLoop { data := b.data, sign := false } fuel fuel { data := [], sign := false }
      a.data 0 (List.replicate a.data.length 0) <;> rfl
  refine ⟨hrun, ?_, ?_, ?_, s3, t, t2 tfuel htf, t1, t3, ?_, t6, t8, ?_⟩
  · intro fuel hab
    have hrun2 := hrun fuel
    rw [← hab] at hrun2 ⊢
    rw [divAssign_same, hrun2]
    cases divLoop { data := a.data, sign := false } fuel fuel { data := [], sign := false }
      a.data 0 (List.replicate a.size 0) <;> rfl
  · intro fuel hf
    obtain ⟨q, q1, _⟩ := divAssign_spec fuel a b ha hb hb0 (by omega) (by omega)
    exact ⟨q, q1⟩
  · intro s hs hd hlt
    exact lt_sound s { data := b.data, sign := false } hs rfl hd hb.1 hB hlt
  · intro u hu
    by_contra hcon
    have hmul : mag b.data * (t + 1) ≤ mag b.data * u := Nat.mul_le_mul_left _ (by omega)
    have ht4 : mag (searchStart { data := b.data, sign := false } st).data <
        mag b.data * (t + 1) := t4
    omega
  · have ht7 : mag (divStep { data := b.data, sign := false } st t).s.data + mag b.data * t =
        mag (searchStart { data := b.data, sign := false } st).data := t7
    omega

theorem div_search_single_digit_witness :
    WellFormed (ofInt 1000) ∧ WellFormed (ofInt (-7)) ∧ ofInt (-7) ≠ ZERO ∧
      mag (ofInt (-7)).data ≤ mag (ofInt 1000).data ∧ 10 ≤ 10 ∧
      mag (searchStart { data := (ofInt (-7)).data, sign := false }
        { s := { data := [], sign := false }, xs := (ofInt 1000).data, z := 0,
          rval := List.replicate (ofInt 1000).size 0 }).data < 10 * mag (ofInt (-7)).data :=
  ⟨by decide, by decide, by decide, by decide, by decide,
    (div_search_single_digit (ofInt 1000) (ofInt (-7)) (by decide) (by decide) (by decide)
      (by decide) 10 (by decide) _ DivReach.start).2.2.2.2.1⟩

/-- C24: when the string constructor meets a non-digit it clears the digits and
pushes a single `0` before throwing, but it leaves `sign` as the optional minus
set it: for the text `-5a` the members are the digit `0` with `sign` true, a
negative zero, where the claim has sign false; for `12a` they are the digit `0`
with sign false. -/
theorem build_nondigit_keeps_sign :
    build ['-', '5', 'a'] = { data := [0], sign := true, thrown := true } ∧
    ¬ WellFormed { data := (build ['-', '5', 'a']).data, sign := (build ['-', '5', 'a']).sign } ∧
    build ['1', '2', 'a'] = { data := [0], sign := false, thrown := true } ∧
    ofString ['-', '5', 'a'] = .error .invalid_argument :=
  ⟨by decide, by decide, by decide, rfl⟩

/-! ## The claim on division -/

/-- C4: `operator/=` called with one object on both sides, `x /= x` with
`x = -5`: the loop finds the quotient digit 1 and the XOR of the signs is
stored, but the write `that.sign = thatOldSign` that follows lands in the same
object, so the result is `-1` where the claim has the quotient `1` with the XOR
sign; `operator/`, which divides a copy, gives `1`. -/
theorem divAssign_self_negative :
    divAssign true 11 (ofInt (-5)) (ofInt (-5)) = some (.ok { data := [1], sign := true }) ∧
    value { data := [1], sign := true } = -1 ∧
    Int.tdiv (value (ofInt (-5))) (value (ofInt (-5))) = 1 ∧
    xor (ofInt (-5)).sign (ofInt (-5)).sign = false ∧
    div 11 (ofInt (-5)) (ofInt (-5)) = some (.ok { data := [1], sign := false }) :=
  ⟨rfl, by decide, by decide, by decide, rfl⟩

end Integer
